import Mathlib

/-!
# CMilan recursive-descent translator (`parser.cpp`, variant with `for ... do ... od`)

A shallow embedding of `Parser` from `src/cmilan/for-do-od/parser.cpp`.

* The scanner is a list of lexemes; the current token is the head of the list and
  an exhausted list reads as end-of-input.
* The code generator is a growing list of instructions with `reserve` / `emitAt`.
* The parser procedures are translated one by one.  Recursion is bounded by a
  depth counter (`Nat`): every call spends one unit, and `parse` supplies a
  budget computed from the input length, proved sufficient below.
-/

namespace Milan

/-! ## Tokens -/

/-- Modelled from the spec: the token tags (`enum Token` of `scanner.h`), as they are
used by `parser.cpp`. -/
inductive Token where
  | T_EOF | T_ILLEGAL | T_IDENTIFIER | T_NUMBER
  | T_BEGIN | T_END | T_IF | T_THEN | T_ELSE | T_FI
  | T_WHILE | T_DO | T_OD | T_FOR | T_COMMA
  | T_WRITE | T_READ | T_ASSIGN | T_ADDOP | T_MULOP | T_CMP
  | T_LPAREN | T_RPAREN | T_SEMICOLON
  deriving DecidableEq, Repr

/-- Modelled from the spec: the operator carried by `T_ADDOP` / `T_MULOP`
(`enum Arithmetic` of `scanner.h`). -/
inductive Arithmetic where
  | A_PLUS | A_MINUS | A_MULTIPLY | A_DIVIDE
  deriving DecidableEq, Repr

/-- Modelled from the spec: the comparison carried by `T_CMP` (`enum Cmp` of `scanner.h`). -/
inductive Cmp where
  | C_EQ | C_NE | C_LT | C_LE | C_GT | C_GE
  deriving DecidableEq, Repr

/-- Modelled from the spec: one lexical unit as delivered by the scanner, the tag
together with the payload that the tag carries. -/
inductive Lexeme where
  | eof | illegal
  | identifier (name : String)
  | number (value : Int)
  | kwBegin | kwEnd | kwIf | kwThen | kwElse | kwFi
  | kwWhile | kwDo | kwOd | kwFor | comma
  | kwWrite | kwRead | assign
  | addop (a : Arithmetic)
  | mulop (a : Arithmetic)
  | cmp (c : Cmp)
  | lparen | rparen | semicolon
  deriving DecidableEq, Repr

open Token Arithmetic Cmp

/-- Modelled from the spec: the tag of a lexeme (`Scanner::token()`). -/
def Lexeme.tag : Lexeme → Token
  | .eof => T_EOF | .illegal => T_ILLEGAL
  | .identifier _ => T_IDENTIFIER | .number _ => T_NUMBER
  | .kwBegin => T_BEGIN | .kwEnd => T_END | .kwIf => T_IF | .kwThen => T_THEN
  | .kwElse => T_ELSE | .kwFi => T_FI | .kwWhile => T_WHILE | .kwDo => T_DO
  | .kwOd => T_OD | .kwFor => T_FOR | .comma => T_COMMA
  | .kwWrite => T_WRITE | .kwRead => T_READ | .assign => T_ASSIGN
  | .addop _ => T_ADDOP | .mulop _ => T_MULOP | .cmp _ => T_CMP
  | .lparen => T_LPAREN | .rparen => T_RPAREN | .semicolon => T_SEMICOLON

/-! ## Instructions -/

/-- Modelled from the spec: the stack-machine commands of `codegen.h` that the
translator emits; the operand, when there is one, is part of the command.  `NOP` is
the placeholder written by `reserve`. -/
inductive Instr where
  | NOP | STOP
  | LOAD (addr : Nat) | STORE (addr : Nat)
  | PUSH (value : Int)
  | ADD | SUB | MULT | DIV | INVERT
  | COMPARE (kind : Nat)
  | JUMP (addr : Nat) | JUMP_NO (addr : Nat)
  | INPUT | PRINT
  deriving DecidableEq, Repr

/-- Diagnostics passed to `reportError`. -/
inductive Diag where
  | mismatch (found expected : Token)
  | text (msg : String)
  deriving DecidableEq, Repr

/-- Ways in which a run of the model stops without a result: the depth budget
is exhausted, or a typed scanner accessor is called on a token of another tag. -/
inductive Fault where
  | outOfFuel | badAccess
  deriving DecidableEq, Repr

/-! ## Session state -/

/-- State of one translation: scanner, variable table, error flag, code sink.
The fields after `code` are observation logs; no parser decision reads them. -/
structure PState where
  /-- remaining input; its head is the current token -/
  toks : List Lexeme
  /-- the table `variables_`, in insertion order -/
  vars : List (String × Nat)
  /-- the counter `lastVar_` -/
  lastVar : Nat
  /-- the flag `error_` -/
  error : Bool
  /-- instruction buffer of the code generator -/
  code : List Instr
  /-- indices returned by `reserve`, in call order -/
  reserved : List Nat
  /-- indices passed to `emitAt`, in call order -/
  patched : List Nat
  /-- diagnostics reported, in order -/
  diags : List Diag
  /-- streams handed to `flush`, in order -/
  flushed : List (List Instr)
  /-- names passed to `findOrAddVariable` with the address returned, in call order -/
  lookups : List (String × Nat)
  deriving DecidableEq, Repr

/-- Modelled from the spec: the session built by the constructor of `parser.h`; the
first token is loaded, the table is empty, the next address is 0, the flag is clear. -/
def PState.init (input : List Lexeme) : PState :=
  { toks := input, vars := [], lastVar := 0, error := false, code := [],
    reserved := [], patched := [], diags := [], flushed := [], lookups := [] }

/-! ## Scanner interface -/

/-- Modelled from the spec: `currentToken()` of the Lexical Source; past the end
of the input the current token is end-of-input. -/
def token (s : PState) : Lexeme := s.toks.headD .eof

/-- Modelled from the spec: `advance()` of the Lexical Source; it discards the
current token, and at end-of-input the current token stays end-of-input. -/
def next (s : PState) : PState :=
  match s.toks with
  | [] => s
  | l :: rest => if l.tag = T_EOF then s else { s with toks := rest }

/-- Modelled from the spec: `see(t)` of `parser.h`, the tag test on the current token. -/
def see (t : Token) (s : PState) : Bool := (token s).tag == t

/-- Modelled from the spec: `match(t)` of `parser.h`; when the current token has
tag `t` it is consumed and the answer is `true`, otherwise nothing changes. -/
def match_ (t : Token) (s : PState) : Bool × PState :=
  if see t s then (true, next s) else (false, s)

/-- Modelled from the spec: `getStringValue()`, defined on identifiers only. -/
def getStringValue (s : PState) : Except Fault String :=
  match token s with
  | .identifier name => .ok name
  | _ => .error .badAccess

/-- Modelled from the spec: `getIntValue()`, defined on numbers only. -/
def getIntValue (s : PState) : Except Fault Int :=
  match token s with
  | .number v => .ok v
  | _ => .error .badAccess

/-- Modelled from the spec: `getArithmeticValue()`, defined on `T_ADDOP` and `T_MULOP`. -/
def getArithmeticValue (s : PState) : Except Fault Arithmetic :=
  match token s with
  | .addop a => .ok a
  | .mulop a => .ok a
  | _ => .error .badAccess

/-- Modelled from the spec: `getCmpValue()`, defined on `T_CMP` only. -/
def getCmpValue (s : PState) : Except Fault Cmp :=
  match token s with
  | .cmp c => .ok c
  | _ => .error .badAccess

/-! ## Code sink interface -/

/-- Modelled from the spec: `emit` appends at the current end. -/
def emit (i : Instr) (s : PState) : PState := { s with code := s.code ++ [i] }

/-- Modelled from the spec: `currentAddress()`, the address of the next emitted instruction. -/
def getCurrentAddress (s : PState) : Nat := s.code.length

/-- Modelled from the spec: `reserve()` appends a placeholder and returns its position. -/
def reserve (s : PState) : Nat × PState :=
  (s.code.length,
   { s with code := s.code ++ [Instr.NOP], reserved := s.reserved ++ [s.code.length] })

/-- Modelled from the spec: `emitAt` overwrites the instruction at a given position. -/
def emitAt (a : Nat) (i : Instr) (s : PState) : PState :=
  { s with code := s.code.set a i, patched := s.patched ++ [a] }

/-- Modelled from the spec: `flush()` hands the completed stream over. -/
def flush (s : PState) : PState := { s with flushed := s.flushed ++ [s.code] }

/-! ## Error reporting, recovery, variable table -/

/-- Modelled from the spec: `reportError` of `parser.h`; it prints the diagnostic
and sets the persistent failure flag. -/
def reportError (d : Diag) (s : PState) : PState :=
  { s with error := true, diags := s.diags ++ [d] }

/-- Lookup in `variables_` (`std::map::find`). -/
def findVar (var : String) : List (String × Nat) → Option Nat
  | [] => none
  | (k, v) :: rest => if k = var then some v else findVar var rest

/-- Translation of `Parser::findOrAddVariable`. -/
def findOrAddVariable (var : String) (s : PState) : Nat × PState :=
  match findVar var s.vars with
  | none =>
    (s.lastVar,
     { s with vars := s.vars ++ [(var, s.lastVar)], lastVar := s.lastVar + 1,
              lookups := s.lookups ++ [(var, s.lastVar)] })
  | some a => (a, { s with lookups := s.lookups ++ [(var, a)] })

/-- The loop `while(!see(t) && !see(T_EOF)) next();` of `Parser::recover`, by
recursion on the remaining input. -/
def skipTo (t : Token) : List Lexeme → List Lexeme
  | [] => []
  | l :: rest => if l.tag = t ∨ l.tag = T_EOF then l :: rest else skipTo t rest

/-- Translation of `Parser::recover`. -/
def recover (t : Token) (s : PState) : PState :=
  let s := { s with toks := skipTo t s.toks }
  if see t s then next s else s

/-- Translation of `Parser::mustBe`. -/
def mustBe (t : Token) (s : PState) : PState :=
  if (match_ t s).1 then (match_ t s).2
  else
    let s := { s with error := true }
    let s := reportError (.mismatch (token s).tag t) s
    recover t s

/-! ## The recursive-descent procedures -/

/-- The guard `see(T_ADDOP) && scanner_->getArithmeticValue() == A_MINUS` of
`factor`; the accessor is evaluated only when the tag test succeeds. -/
def seeMinus (s : PState) : Except Fault Bool :=
  if see T_ADDOP s then do
    let a ← getArithmeticValue s
    pure (decide (a = A_MINUS))
  else pure false

/-- The `switch(cmp)` of `relation`. -/
def cmpCode : Cmp → Nat
  | C_EQ => 0 | C_NE => 1 | C_LT => 2 | C_GT => 3 | C_LE => 4 | C_GE => 5

mutual

/-- Translation of `Parser::statementList`. -/
def statementList : Nat → PState → Except Fault PState
  | 0, _ => .error .outOfFuel
  | n + 1, s =>
    if see T_END s || see T_OD s || see T_ELSE s || see T_FI s then .ok s
    else statementLoop n s

/-- The loop `while(more) { statement(); more = match(T_SEMICOLON); }`. -/
def statementLoop : Nat → PState → Except Fault PState
  | 0, _ => .error .outOfFuel
  | n + 1, s => do
    let s ← statement n s
    if (match_ T_SEMICOLON s).1 then statementLoop n (match_ T_SEMICOLON s).2
    else pure (match_ T_SEMICOLON s).2

/-- Translation of `Parser::statement`. -/
def statement : Nat → PState → Except Fault PState
  | 0, _ => .error .outOfFuel
  | n + 1, s =>
    if see T_IDENTIFIER s then do
      let name ← getStringValue s
      let varAddress := (findOrAddVariable name s).1
      let s := (findOrAddVariable name s).2
      let s := next s
      let s := mustBe T_ASSIGN s
      let s ← expression n s
      pure (emit (.STORE varAddress) s)
    else if (match_ T_IF s).1 then do
      let s := (match_ T_IF s).2
      let s ← relation n s
      let jumpNoAddress := (reserve s).1
      let s := (reserve s).2
      let s := mustBe T_THEN s
      let s ← statementList n s
      if (match_ T_ELSE s).1 then do
        let s := (match_ T_ELSE s).2
        let jumpAddress := (reserve s).1
        let s := (reserve s).2
        let s := emitAt jumpNoAddress (.JUMP_NO (getCurrentAddress s)) s
        let s ← statementList n s
        let s := emitAt jumpAddress (.JUMP (getCurrentAddress s)) s
        pure (mustBe T_FI s)
      else
        let s := (match_ T_ELSE s).2
        let s := emitAt jumpNoAddress (.JUMP_NO (getCurrentAddress s)) s
        pure (mustBe T_FI s)
    else if (match_ T_WHILE s).1 then do
      let s := (match_ T_WHILE s).2
      let conditionAddress := getCurrentAddress s
      let s ← relation n s
      let jumpNoAddress := (reserve s).1
      let s := (reserve s).2
      let s := mustBe T_DO s
      let s ← statementList n s
      let s := mustBe T_OD s
      let s := emit (.JUMP conditionAddress) s
      pure (emitAt jumpNoAddress (.JUMP_NO (getCurrentAddress s)) s)
    else if (match_ T_FOR s).1 then
      let s := (match_ T_FOR s).2
      if !see T_IDENTIFIER s then
        pure (reportError (.text "[ERROR] `FOR` should be followed by the variable") s)
      else do
        let startValueName ← getStringValue s
        let firstVarAddress := (findOrAddVariable startValueName s).1
        let s := (findOrAddVariable startValueName s).2
        let s := next s
        let s := mustBe T_ASSIGN s
        let s ← expression n s
        let s ← forLoop n s
        let conditionAddress := getCurrentAddress s
        let s := emit (.STORE firstVarAddress) s
        let s := mustBe T_DO s
        let s ← statementList n s
        let s := mustBe T_OD s
        let s := emit (.JUMP conditionAddress) s
        pure (reserve s).2
    else if (match_ T_WRITE s).1 then do
      let s := (match_ T_WRITE s).2
      let s := mustBe T_LPAREN s
      let s ← expression n s
      let s := mustBe T_RPAREN s
      pure (emit .PRINT s)
    else
      pure (reportError (.text "statement expected.") s)

/-- The loop `while (match(T_COMMA)) { expression(); parts.push(firstVarAddress); }`
of the `for` branch; the queue `parts` is never read and is left out. -/
def forLoop : Nat → PState → Except Fault PState
  | 0, _ => .error .outOfFuel
  | n + 1, s =>
    if (match_ T_COMMA s).1 then do
      let s ← expression n (match_ T_COMMA s).2
      forLoop n s
    else pure (match_ T_COMMA s).2

/-- Translation of `Parser::expression`. -/
def expression : Nat → PState → Except Fault PState
  | 0, _ => .error .outOfFuel
  | n + 1, s => do
    let s ← term n s
    expressionLoop n s

/-- The loop `while(see(T_ADDOP)) { ... }` of `expression`. -/
def expressionLoop : Nat → PState → Except Fault PState
  | 0, _ => .error .outOfFuel
  | n + 1, s =>
    if see T_ADDOP s then do
      let op ← getArithmeticValue s
      let s := next s
      let s ← term n s
      let s := if op = A_PLUS then emit .ADD s else emit .SUB s
      expressionLoop n s
    else pure s

/-- Translation of `Parser::term`. -/
def term : Nat → PState → Except Fault PState
  | 0, _ => .error .outOfFuel
  | n + 1, s => do
    let s ← factor n s
    termLoop n s

/-- The loop `while(see(T_MULOP)) { ... }` of `term`. -/
def termLoop : Nat → PState → Except Fault PState
  | 0, _ => .error .outOfFuel
  | n + 1, s =>
    if see T_MULOP s then do
      let op ← getArithmeticValue s
      let s := next s
      let s ← factor n s
      let s := if op = A_MULTIPLY then emit .MULT s else emit .DIV s
      termLoop n s
    else pure s

/-- Translation of `Parser::factor`. -/
def factor : Nat → PState → Except Fault PState
  | 0, _ => .error .outOfFuel
  | n + 1, s =>
    if see T_NUMBER s then do
      let value ← getIntValue s
      let s := next s
      pure (emit (.PUSH value) s)
    else if see T_IDENTIFIER s then do
      let name ← getStringValue s
      let varAddress := (findOrAddVariable name s).1
      let s := (findOrAddVariable name s).2
      let s := next s
      pure (emit (.LOAD varAddress) s)
    else do
      let minus ← seeMinus s
      if minus then do
        let s := next s
        let s ← factor n s
        pure (emit .INVERT s)
      else if (match_ T_LPAREN s).1 then do
        let s := (match_ T_LPAREN s).2
        let s ← expression n s
        pure (mustBe T_RPAREN s)
      else if (match_ T_READ s).1 then
        pure (emit .INPUT (match_ T_READ s).2)
      else
        pure (reportError (.text "expression expected.") (match_ T_READ s).2)

/-- Translation of `Parser::relation`. -/
def relation : Nat → PState → Except Fault PState
  | 0, _ => .error .outOfFuel
  | n + 1, s => do
    let s ← expression n s
    if see T_CMP s then do
      let cmp ← getCmpValue s
      let s := next s
      let s ← expression n s
      pure (emit (.COMPARE (cmpCode cmp)) s)
    else
      pure (reportError (.text "comparison operator expected.") s)

end

/-- Translation of `Parser::program`. -/
def program (n : Nat) (s : PState) : Except Fault PState := do
  let s := mustBe T_BEGIN s
  let s ← statementList n s
  let s := mustBe T_END s
  pure (emit .STOP s)

/-- Depth budget that `parse` gives to `program`. -/
def budget (input : List Lexeme) : Nat := 10 * input.length + 10

/-- Translation of `Parser::parse`, run on a fresh session over `input`. -/
def parse (input : List Lexeme) : Except Fault PState := do
  let s ← program (budget input) (PState.init input)
  if !s.error then pure (flush s) else pure s

/-! ## Proof vocabulary -/

/-- A relation between an earlier and a later session that every primitive step
of the translator respects. -/
structure Closed (R : PState → PState → Prop) : Prop where
  refl : ∀ s, R s s
  trans : ∀ {a b c}, R a b → R b c → R a c
  next : ∀ s, R s (next s)
  mustBe : ∀ t s, R s (mustBe t s)
  report : ∀ d s, R s (reportError d s)
  lookup : ∀ x s, R s (findOrAddVariable x s).2
  emit : ∀ i s, (∀ a, i ≠ .JUMP a) → (∀ a, i ≠ .JUMP_NO a) → R s (emit i s)
  reserve : ∀ s, R s (reserve s).2
  patchNo : ∀ a s, R s (emitAt a (.JUMP_NO (getCurrentAddress s)) s)
  patch : ∀ a s, R s (emitAt a (.JUMP (getCurrentAddress s)) s)
  jumpBack : ∀ s0 s, R s0 s → R s0 (Milan.emit (.JUMP (getCurrentAddress s0)) s)

/-- The same with a weaker requirement on `emit`: a `LOAD` or `STORE` need only be
respected when its operand is the address that `findOrAddVariable` returned earlier
in the same procedure. -/
structure ClosedVar (R : PState → PState → Prop) : Prop where
  refl : ∀ s, R s s
  trans : ∀ {a b c}, R a b → R b c → R a c
  next : ∀ s, R s (next s)
  mustBe : ∀ t s, R s (mustBe t s)
  report : ∀ d s, R s (reportError d s)
  lookup : ∀ x s, R s (findOrAddVariable x s).2
  emit : ∀ i s, (∀ a, i ≠ .JUMP a) → (∀ a, i ≠ .JUMP_NO a) → (∀ a, i ≠ .LOAD a) →
    (∀ a, i ≠ .STORE a) → R s (emit i s)
  load : ∀ x s0 s, R (findOrAddVariable x s0).2 s →
    R s0 (Milan.emit (.LOAD (findOrAddVariable x s0).1) s)
  store : ∀ x s0 s, R (findOrAddVariable x s0).2 s →
    R s0 (Milan.emit (.STORE (findOrAddVariable x s0).1) s)
  storeJump : ∀ x s0 s2 s3, R (findOrAddVariable x s0).2 s2 →
    R (Milan.emit (.STORE (findOrAddVariable x s0).1) s2) s3 →
    R s0 (Milan.emit (.JUMP (getCurrentAddress s2)) s3)
  reserve : ∀ s, R s (reserve s).2
  patchNo : ∀ a s, R s (emitAt a (.JUMP_NO (getCurrentAddress s)) s)
  patch : ∀ a s, R s (emitAt a (.JUMP (getCurrentAddress s)) s)
  jumpBack : ∀ s0 s, R s0 s → R s0 (Milan.emit (.JUMP (getCurrentAddress s0)) s)

/-- Every successful run of `f` relates its start to its result by `R`. -/
def Preserves (R : PState → PState → Prop) (f : PState → Except Fault PState) : Prop :=
  ∀ s s', f s = .ok s' → R s s'

/-- With a budget of at least ten units per remaining token plus `c`, `f` returns. -/
def Total (c : Nat) (f : Nat → PState → Except Fault PState) (n : Nat) : Prop :=
  ∀ s, 10 * s.toks.length + c ≤ n → ∃ s', f n s = .ok s'


/-- Every jump in the buffer targets an address not beyond the current end. -/
def JumpsBounded (code : List Instr) (bound : Nat) : Prop :=
  ∀ a, (Instr.JUMP a ∈ code ∨ Instr.JUMP_NO a ∈ code) → a ≤ bound

/-- Input of the program `begin for x := 1 do od end`. -/
def forProgram : List Lexeme :=
  [.kwBegin, .kwFor, .identifier "x", .assign, .number 1, .kwDo, .kwOd, .kwEnd, .eof]

/-- Input of the program `begin if 1 = 1 write(1) fi end`, where `then` is missing. -/
def missingThenProgram : List Lexeme :=
  [.kwBegin, .kwIf, .number 1, .cmp C_EQ, .number 1, .kwWrite, .lparen, .number 1,
   .rparen, .kwFi, .kwEnd, .eof]

/-- Input of `begin x := 0; while x < 3 do write ( x ) ; x := x + 1 od end`. -/
def whileProgram : List Lexeme :=
  [.kwBegin, .identifier "x", .assign, .number 0, .semicolon,
   .kwWhile, .identifier "x", .cmp C_LT, .number 3, .kwDo,
   .kwWrite, .lparen, .identifier "x", .rparen, .semicolon,
   .identifier "x", .assign, .identifier "x", .addop A_PLUS, .number 1,
   .kwOd, .kwEnd, .eof]

/-- Final session of `parse whileProgram`. -/
def whileFinal : PState :=
  { toks := [.eof], vars := [("x", 0)], lastVar := 1, error := false,
    code := [.PUSH 0, .STORE 0, .LOAD 0, .PUSH 3, .COMPARE 2, .JUMP_NO 13, .LOAD 0, .PRINT,
             .LOAD 0, .PUSH 1, .ADD, .STORE 0, .JUMP 2, .STOP],
    reserved := [5], patched := [5], diags := [],
    flushed := [[.PUSH 0, .STORE 0, .LOAD 0, .PUSH 3, .COMPARE 2, .JUMP_NO 13, .LOAD 0,
                 .PRINT, .LOAD 0, .PUSH 1, .ADD, .STORE 0, .JUMP 2, .STOP]],
    lookups := [("x", 0), ("x", 0), ("x", 0), ("x", 0), ("x", 0)] }

/-- The procedures of the translator, each taking its depth budget first. -/
def procedures : List (Nat → PState → Except Fault PState) :=
  [program, statementList, statementLoop, statement, forLoop, expression, expressionLoop,
   term, termLoop, factor, relation]

/-- Final session of `parse missingThenProgram`. -/
def missingThenFinal : PState :=
  { toks := [.eof], vars := [], lastVar := 0, error := true,
    code := [.PUSH 1, .PUSH 1, .COMPARE 0, .JUMP_NO 4, .STOP],
    reserved := [3], patched := [3],
    diags := [.mismatch T_WRITE T_THEN, .text "statement expected.",
              .mismatch T_EOF T_FI, .mismatch T_EOF T_END],
    flushed := [], lookups := [] }

/-- Names in the order of their first occurrence in a list. -/
def firstSeen (names : List String) : List String :=
  names.foldl (fun acc x => if x ∈ acc then acc else acc ++ [x]) []

/-- Shape of the variable table relative to the log of `findOrAddVariable` calls:
its names are the looked-up names in order of first lookup, without repetition,
its addresses are `0, 1, ..., lastVar - 1` in that order, and each logged call
returned the address the table holds for its name. -/
def VarInv (s : PState) : Prop :=
  s.vars.map Prod.fst = firstSeen (s.lookups.map Prod.fst) ∧
  (s.vars.map Prod.fst).Nodup ∧
  s.vars.map Prod.snd = List.range s.lastVar ∧
  ∀ x a, (x, a) ∈ s.lookups → findVar x s.vars = some a

/-- Each `LOAD` and `STORE` in the buffer carries an address returned by a logged
`findOrAddVariable` call. -/
def LoadStoreLooked (s : PState) : Prop :=
  ∀ a, (Instr.LOAD a ∈ s.code ∨ Instr.STORE a ∈ s.code) → ∃ x, (x, a) ∈ s.lookups

/-- Input of `begin a b := 1 ; c := b ; d e := 2 end`, with two missing `:=`. -/
def skippedIdentProgram : List Lexeme :=
  [.kwBegin, .identifier "a", .identifier "b", .assign, .number 1, .semicolon,
   .identifier "c", .assign, .identifier "b", .semicolon,
   .identifier "d", .identifier "e", .assign, .number 2, .kwEnd, .eof]

/-- Final session of `parse skippedIdentProgram`. -/
def skippedIdentFinal : PState :=
  { toks := [.eof], vars := [("a", 0), ("c", 1), ("b", 2), ("d", 3)], lastVar := 4,
    error := true,
    code := [.PUSH 1, .STORE 0, .LOAD 2, .STORE 1, .PUSH 2, .STORE 3, .STOP],
    reserved := [], patched := [],
    diags := [.mismatch T_IDENTIFIER T_ASSIGN, .mismatch T_IDENTIFIER T_ASSIGN],
    flushed := [], lookups := [("a", 0), ("c", 1), ("b", 2), ("d", 3)] }

/-- The operators `+` and `-` of `expression`. -/
inductive AddOp where
  | plus | minus
  deriving DecidableEq, Repr

/-- The operators `*` and `/` of `term`. -/
inductive MulOp where
  | times | divide
  deriving DecidableEq, Repr

mutual
/-- Derivations of `factor := NUMBER | IDENT | '-' factor | '(' expression ')' | 'read'`. -/
inductive Factor where
  | num (n : Int)
  | ident (x : String)
  | neg (f : Factor)
  | paren (e : Expr)
  | read
/-- Derivations of `term := factor (('*'|'/') factor)*`. -/
inductive Term where
  | mk (f : Factor) (rest : TermTail)
/-- The repetition `(('*'|'/') factor)*`. -/
inductive TermTail where
  | nil
  | cons (op : MulOp) (f : Factor) (rest : TermTail)
/-- Derivations of `expression := term (('+'|'-') term)*`. -/
inductive Expr where
  | mk (t : Term) (rest : ExprTail)
/-- The repetition `(('+'|'-') term)*`. -/
inductive ExprTail where
  | nil
  | cons (op : AddOp) (t : Term) (rest : ExprTail)
end

/-- Scanner payload of an additive operator. -/
def AddOp.arith : AddOp → Arithmetic
  | .plus => A_PLUS
  | .minus => A_MINUS

/-- Scanner payload of a multiplicative operator. -/
def MulOp.arith : MulOp → Arithmetic
  | .times => A_MULTIPLY
  | .divide => A_DIVIDE

/-- Lexeme of an additive operator. -/
def AddOp.tok (op : AddOp) : Lexeme := .addop op.arith

/-- Lexeme of a multiplicative operator. -/
def MulOp.tok (op : MulOp) : Lexeme := .mulop op.arith

/-- Instruction of an additive operator. -/
def AddOp.instr : AddOp → Instr
  | .plus => .ADD
  | .minus => .SUB

/-- Instruction of a multiplicative operator. -/
def MulOp.instr : MulOp → Instr
  | .times => .MULT
  | .divide => .DIV

mutual
/-- Token sequence of a factor. -/
def Factor.toks : Factor → List Lexeme
  | .num n => [.number n]
  | .ident x => [.identifier x]
  | .neg f => .addop A_MINUS :: f.toks
  | .paren e => .lparen :: (e.toks ++ [.rparen])
  | .read => [.kwRead]
/-- Token sequence of a term. -/
def Term.toks : Term → List Lexeme
  | .mk f rest => f.toks ++ rest.toks
/-- Token sequence of the tail of a term. -/
def TermTail.toks : TermTail → List Lexeme
  | .nil => []
  | .cons op f rest => op.tok :: (f.toks ++ rest.toks)
/-- Token sequence of an expression. -/
def Expr.toks : Expr → List Lexeme
  | .mk t rest => t.toks ++ rest.toks
/-- Token sequence of the tail of an expression. -/
def ExprTail.toks : ExprTail → List Lexeme
  | .nil => []
  | .cons op t rest => op.tok :: (t.toks ++ rest.toks)
end

mutual
/-- Postfix code of a factor, given the address of every identifier. -/
def Factor.code (addr : String → Nat) : Factor → List Instr
  | .num n => [.PUSH n]
  | .ident x => [.LOAD (addr x)]
  | .neg f => f.code addr ++ [.INVERT]
  | .paren e => e.code addr
  | .read => [.INPUT]
/-- Postfix code of a term: first factor, then each further factor followed by its operator. -/
def Term.code (addr : String → Nat) : Term → List Instr
  | .mk f rest => f.code addr ++ rest.code addr
/-- Postfix code of the tail of a term. -/
def TermTail.code (addr : String → Nat) : TermTail → List Instr
  | .nil => []
  | .cons op f rest => f.code addr ++ [op.instr] ++ rest.code addr
/-- Postfix code of an expression: first term, then each further term followed by its operator. -/
def Expr.code (addr : String → Nat) : Expr → List Instr
  | .mk t rest => t.code addr ++ rest.code addr
/-- Postfix code of the tail of an expression. -/
def ExprTail.code (addr : String → Nat) : ExprTail → List Instr
  | .nil => []
  | .cons op t rest => t.code addr ++ [op.instr] ++ rest.code addr
end

/-- Address of a name in a variable table (0 for a name that is not in it). -/
def addrOf (vars : List (String × Nat)) (x : String) : Nat := (findVar x vars).getD 0

/-- The table `v'` keeps every binding of `v`. -/
def Extends (v v' : List (String × Nat)) : Prop :=
  ∀ x a, findVar x v = some a → findVar x v' = some a

/-- The next token is no multiplicative operator. -/
def NoMul (rest : List Lexeme) : Prop := (rest.headD .eof).tag ≠ T_MULOP

/-- The next token is no additive operator. -/
def NoAdd (rest : List Lexeme) : Prop := (rest.headD .eof).tag ≠ T_ADDOP

/-- Outcome of a procedure on a derivation: the input left is `rest`, flag and
diagnostics are as before, the table has only gained bindings, and the buffer has
gained exactly `code`, read with the addresses of any later table. -/
def Emits (s : PState) (rest : List Lexeme) (code : (String → Nat) → List Instr)
    (s' : PState) : Prop :=
  s'.toks = rest ∧ s'.error = s.error ∧ s'.diags = s.diags ∧ Extends s.vars s'.vars ∧
  ∀ v, Extends s'.vars v → s'.code = s.code ++ code (addrOf v)

/-- Derivations of `relation := expression cmpOp expression`. -/
structure Rel where
  lhs : Expr
  op : Cmp
  rhs : Expr

mutual
/-- Derivations of `statement`. -/
inductive Stmt where
  | assign (x : String) (e : Expr)
  | ifThen (r : Rel) (body : StmtList)
  | ifThenElse (r : Rel) (thenBody : StmtList) (elseBody : StmtList)
  | while_ (r : Rel) (body : StmtList)
  | for_ (x : String) (e : Expr) (more : List Expr) (body : StmtList)
  | write (e : Expr)
/-- Derivations of `statementList := (statement (';' statement)*)?`. -/
inductive StmtList where
  | empty
  | seq (q : StmtSeq)
/-- Derivations of `statement (';' statement)*`. -/
inductive StmtSeq where
  | one (st : Stmt)
  | more (st : Stmt) (rest : StmtSeq)
end

/-- Token sequence of a relation. -/
def Rel.toks (r : Rel) : List Lexeme := r.lhs.toks ++ .cmp r.op :: r.rhs.toks

/-- Token sequence of `(',' expression)*`. -/
def moreToks : List Expr → List Lexeme
  | [] => []
  | e :: es => .comma :: (e.toks ++ moreToks es)

mutual
/-- Token sequence of a statement. -/
def Stmt.toks : Stmt → List Lexeme
  | .assign x e => .identifier x :: .assign :: e.toks
  | .ifThen r body => .kwIf :: (r.toks ++ .kwThen :: (body.toks ++ [.kwFi]))
  | .ifThenElse r b1 b2 =>
    .kwIf :: (r.toks ++ .kwThen :: (b1.toks ++ .kwElse :: (b2.toks ++ [.kwFi])))
  | .while_ r body => .kwWhile :: (r.toks ++ .kwDo :: (body.toks ++ [.kwOd]))
  | .for_ x e more body =>
    .kwFor :: .identifier x :: .assign ::
      (e.toks ++ (moreToks more ++ .kwDo :: (body.toks ++ [.kwOd])))
  | .write e => .kwWrite :: .lparen :: (e.toks ++ [.rparen])
/-- Token sequence of a statement list. -/
def StmtList.toks : StmtList → List Lexeme
  | .empty => []
  | .seq q => q.toks
/-- Token sequence of a non-empty statement sequence. -/
def StmtSeq.toks : StmtSeq → List Lexeme
  | .one st => st.toks
  | .more st rest => st.toks ++ .semicolon :: rest.toks
end

/-- Code of a relation: both operands, then one `COMPARE` with the discriminant. -/
def Rel.code (addr : String → Nat) (r : Rel) : List Instr :=
  r.lhs.code addr ++ r.rhs.code addr ++ [.COMPARE (cmpCode r.op)]

/-- Code of `(',' expression)*`: the expressions one after the other. -/
def moreCode (addr : String → Nat) : List Expr → List Instr
  | [] => []
  | e :: es => e.code addr ++ moreCode addr es

mutual
/-- Reference code of a statement placed at address `base`, following the
code-generation contracts of the specification. -/
def Stmt.code (addr : String → Nat) : Stmt → Nat → List Instr
  | .assign x e, _ => e.code addr ++ [.STORE (addr x)]
  | .ifThen r body, base =>
    let cr := r.code addr
    let cb := body.code addr (base + cr.length + 1)
    cr ++ [.JUMP_NO (base + cr.length + 1 + cb.length)] ++ cb
  | .ifThenElse r b1 b2, base =>
    let cr := r.code addr
    let c1 := b1.code addr (base + cr.length + 1)
    let c2 := b2.code addr (base + cr.length + 1 + c1.length + 1)
    cr ++ [.JUMP_NO (base + cr.length + 1 + c1.length + 1)] ++ c1 ++
      [.JUMP (base + cr.length + 1 + c1.length + 1 + c2.length)] ++ c2
  | .while_ r body, base =>
    let cr := r.code addr
    let cb := body.code addr (base + cr.length + 1)
    cr ++ [.JUMP_NO (base + cr.length + 1 + cb.length + 1)] ++ cb ++ [.JUMP base]
  | .for_ x e more body, base =>
    let ce := e.code addr ++ moreCode addr more
    let cb := body.code addr (base + ce.length + 1)
    ce ++ [.STORE (addr x)] ++ cb ++ [.JUMP (base + ce.length)] ++ [.NOP]
  | .write e, _ => e.code addr ++ [.PRINT]
/-- Reference code of a statement list placed at address `base`. -/
def StmtList.code (addr : String → Nat) : StmtList → Nat → List Instr
  | .empty, _ => []
  | .seq q, base => q.code addr base
/-- Reference code of a non-empty statement sequence placed at address `base`. -/
def StmtSeq.code (addr : String → Nat) : StmtSeq → Nat → List Instr
  | .one st, base => st.code addr base
  | .more st rest, base =>
    st.code addr base ++ rest.code addr (base + (st.code addr base).length)
end

/-- The next token closes a statement list: `end`, `od`, `else` or `fi`. -/
def Closer (rest : List Lexeme) : Prop :=
  (rest.headD .eof).tag = T_END ∨ (rest.headD .eof).tag = T_OD ∨
  (rest.headD .eof).tag = T_ELSE ∨ (rest.headD .eof).tag = T_FI

/-- What must follow a statement for it to end there: after an assignment, whose
last part is an expression, no arithmetic operator. -/
def Stmt.follow : Stmt → List Lexeme → Prop
  | .assign _ _, rest => NoAdd rest ∧ NoMul rest
  | _, _ => True

/-- Statement of soundness of `statementList` on one derivation at one budget. -/
def ListSound (body : StmtList) (n : Nat) : Prop :=
  ∀ (s s' : PState) (rest : List Lexeme), s.toks = body.toks ++ rest → Closer rest →
    statementList n s = .ok s' → Emits s rest (fun a => body.code a s.code.length) s'

/-- The expression consisting of one number. -/
def numE (n : Int) : Expr := .mk (.mk (.num n) .nil) .nil

/-- The expression consisting of one identifier. -/
def varE (x : String) : Expr := .mk (.mk (.ident x) .nil) .nil

/-- The expression `2 + 3 * 4`. -/
def twoPlusThreeTimesFour : Expr :=
  .mk (.mk (.num 2) .nil) (.cons .plus (.mk (.num 3) (.cons .times (.num 4) .nil)) .nil)

/-- Input of `begin if 1 = 1 then write ( 1 ) fi end`. -/
def ifProgram : List Lexeme :=
  [.kwBegin, .kwIf, .number 1, .cmp C_EQ, .number 1, .kwThen, .kwWrite, .lparen, .number 1,
   .rparen, .kwFi, .kwEnd, .eof]

/-- Final session of `parse ifProgram`. -/
def ifFinal : PState :=
  { toks := [.eof], vars := [], lastVar := 0, error := false,
    code := [.PUSH 1, .PUSH 1, .COMPARE 0, .JUMP_NO 6, .PUSH 1, .PRINT, .STOP],
    reserved := [3], patched := [3], diags := [],
    flushed := [[.PUSH 1, .PUSH 1, .COMPARE 0, .JUMP_NO 6, .PUSH 1, .PRINT, .STOP]],
    lookups := [] }

/-- Input of `begin if 1 = 2 then write ( 1 ) else write ( 2 ) fi end`. -/
def ifElseProgram : List Lexeme :=
  [.kwBegin, .kwIf, .number 1, .cmp C_EQ, .number 2, .kwThen, .kwWrite, .lparen, .number 1,
   .rparen, .kwElse, .kwWrite, .lparen, .number 2, .rparen, .kwFi, .kwEnd, .eof]

/-- Final session of `parse ifElseProgram`. -/
def ifElseFinal : PState :=
  { toks := [.eof], vars := [], lastVar := 0, error := false,
    code := [.PUSH 1, .PUSH 2, .COMPARE 0, .JUMP_NO 7, .PUSH 1, .PRINT, .JUMP 9, .PUSH 2,
             .PRINT, .STOP],
    reserved := [3, 6], patched := [3, 6], diags := [],
    flushed := [[.PUSH 1, .PUSH 2, .COMPARE 0, .JUMP_NO 7, .PUSH 1, .PRINT, .JUMP 9, .PUSH 2,
                 .PRINT, .STOP]],
    lookups := [] }

/-- The relation `x < 3`. -/
def whileRel : Rel := ⟨varE "x", C_LT, numE 3⟩

/-- The statement list `write ( x ) ; x := x + 1`. -/
def whileBody : StmtList :=
  .seq (.more (.write (varE "x"))
    (.one (.assign "x" (.mk (.mk (.ident "x") .nil) (.cons .plus (.mk (.num 1) .nil) .nil)))))

/-- Session of `parse whileProgram` when `statement` is entered at `while`. -/
def whileEntry : PState :=
  { toks := (Stmt.while_ whileRel whileBody).toks ++ [.kwEnd, .eof],
    vars := [("x", 0)], lastVar := 1, error := false,
    code := [.PUSH 0, .STORE 0], reserved := [], patched := [], diags := [], flushed := [],
    lookups := [("x", 0)] }

/-- Session in which `expression` is entered on `2 + 3 * 4`. -/
def exprEntry : PState := PState.init (twoPlusThreeTimesFour.toks ++ [Lexeme.eof])

/-- The relation `1 = 1`. -/
def ifRel : Rel := ⟨numE 1, C_EQ, numE 1⟩

/-- The statement list `write ( 1 )`. -/
def writeOne : StmtList := .seq (.one (.write (numE 1)))

/-- The statement list `write ( 2 )`. -/
def writeTwo : StmtList := .seq (.one (.write (numE 2)))

/-- Session in which `statement` is entered on `if 1 = 1 then write ( 1 ) fi`. -/
def ifEntry : PState :=
  PState.init ((Stmt.ifThen ifRel writeOne).toks ++ [Lexeme.kwEnd, Lexeme.eof])

/-- The relation `1 = 2`. -/
def ifElseRel : Rel := ⟨numE 1, C_EQ, numE 2⟩

/-- Session in which `statement` is entered on
`if 1 = 2 then write ( 1 ) else write ( 2 ) fi`. -/
def ifElseEntry : PState :=
  PState.init ((Stmt.ifThenElse ifElseRel writeOne writeTwo).toks ++
    [Lexeme.kwEnd, Lexeme.eof])

/-- Session of `parse whileProgram` when `statement` returns from the loop. -/
def whileExit : PState :=
  { toks := [Lexeme.kwEnd, Lexeme.eof], vars := [("x", 0)], lastVar := 1, error := false,
    code := [.PUSH 0, .STORE 0, .LOAD 0, .PUSH 3, .COMPARE 2, .JUMP_NO 13, .LOAD 0,
             .PRINT, .LOAD 0, .PUSH 1, .ADD, .STORE 0, .JUMP 2],
    reserved := [5], patched := [5], diags := [], flushed := [],
    lookups := [("x", 0), ("x", 0), ("x", 0), ("x", 0), ("x", 0)] }

/-! ## Further vocabulary -/

/-- The variable table is a bijection between its names and the addresses below the
next-address counter: no name occurs twice, and the addresses, in insertion order,
are `0, 1, ..., lastVar - 1`. -/
def TableInv (s : PState) : Prop :=
  (s.vars.map Prod.fst).Nodup ∧ s.vars.map Prod.snd = List.range s.lastVar

/-- A session with three variables, used to exercise `findOrAddVariable`. -/
def threeVars : PState :=
  { PState.init [Lexeme.identifier "q", Lexeme.eof] with
      vars := [("a", 0), ("c", 1), ("b", 2)], lastVar := 3 }

/-- A session whose input is `x y := 1 end`, used to exercise `mustBe`. -/
def recoverEntry : PState :=
  PState.init [Lexeme.identifier "x", Lexeme.identifier "y", Lexeme.assign,
    Lexeme.number 1, Lexeme.kwEnd, Lexeme.eof]

/-- Instructions of straight-line arithmetic code: `PUSH`, `LOAD`, `INPUT`, `ADD`,
`SUB`, `MULT`, `DIV`, `INVERT`. -/
def Instr.isArith : Instr → Bool
  | .PUSH _ | .LOAD _ | .INPUT | .ADD | .SUB | .MULT | .DIV | .INVERT => true
  | _ => false

/-- Test for a `COMPARE` instruction. -/
def Instr.isCompare : Instr → Bool
  | .COMPARE _ => true
  | _ => false

/-- Modelled from the spec: the number of operands an instruction pops from the
operand stack and the number of results it pushes; `PUSH`, `LOAD` and `INPUT` push one
value, the four binary operations and `COMPARE` replace two values by one, `INVERT`
replaces one value by one, `STORE` and `PRINT` take one value.  Jumps, `STOP` and the
placeholder are not straight-line code and have no entry. -/
def Instr.effect : Instr → Option (Nat × Nat)
  | .PUSH _ | .LOAD _ | .INPUT => some (0, 1)
  | .ADD | .SUB | .MULT | .DIV => some (2, 1)
  | .INVERT => some (1, 1)
  | .COMPARE _ => some (2, 1)
  | .STORE _ | .PRINT => some (1, 0)
  | _ => none

/-- Height of the operand stack after running straight-line code from height `h`,
counted from the height at entry; `none` when an instruction would pop below the
height at entry or is not straight-line code. -/
def stackAfter : List Instr → Nat → Option Nat
  | [], h => some h
  | i :: rest, h =>
    match i.effect with
    | some (pops, pushes) => if pops ≤ h then stackAfter rest (h - pops + pushes) else none
    | none => none

/-- The program `begin x := 0; while x < 3 do write ( x ) ; x := x + 1 od end` without
its `begin` and `end`. -/
def whileProgramBody : StmtList :=
  .seq (.more (.assign "x" (numE 0)) (.one (.while_ whileRel whileBody)))

/-- Session in which `relation` is entered on `1 = 2 < 3`. -/
def chainedEntry : PState :=
  PState.init ((Rel.mk (numE 1) C_EQ (numE 2)).toks ++
    [Lexeme.cmp C_LT, Lexeme.number 3, Lexeme.eof])

/-- The statement `for x := 1 , 2 do write ( x ) od`. -/
def forStmt : Stmt :=
  .for_ "x" (numE 1) [numE 2] (.seq (.one (.write (varE "x"))))

/-- Session in which `statement` is entered on `for x := 1 , 2 do write ( x ) od`. -/
def forEntry : PState := PState.init (forStmt.toks ++ [Lexeme.kwEnd, Lexeme.eof])

/-- Session in which `statement` returns from `for x := 1 , 2 do write ( x ) od`. -/
def forExit : PState :=
  { toks := [Lexeme.kwEnd, Lexeme.eof], vars := [("x", 0)], lastVar := 1, error := false,
    code := [.PUSH 1, .PUSH 2, .STORE 0, .LOAD 0, .PRINT, .JUMP 2, .NOP],
    reserved := [6], patched := [], diags := [], flushed := [],
    lookups := [("x", 0), ("x", 0)] }

/-- The only fault of `f` at budget `n` is an exhausted budget: no typed accessor is
called on a token of another tag. -/
def Safe (f : Nat → PState → Except Fault PState) (n : Nat) : Prop :=
  ∀ s e, f n s = .error e → e = .outOfFuel

/-- The session `s` read over another input: the last `d` tokens of the remaining
input are replaced by `rb`, everything else is kept. -/
def swap (d : Nat) (rb : List Lexeme) (s : PState) : PState :=
  { s with toks := s.toks.take (s.toks.length - d) ++ rb }

/-- Whatever `x` returns, `y` returns as well. -/
def Below {α : Type} (x y : Except Fault α) : Prop := ∀ a, x = .ok a → y = .ok a

/-- A run of `f` at budget `n` that stops with more than `d` tokens left is the same
run when the last `d` tokens of the input are replaced by `rb`. -/
def Stable (d : Nat) (rb : List Lexeme) (f : Nat → PState → Except Fault PState)
    (n : Nat) : Prop :=
  ∀ s s', f n s = .ok s' → d < s'.toks.length → f n (swap d rb s) = .ok (swap d rb s')

/-- The tokens of `whileProgram` up to and including its `end`. -/
def whileThroughEnd : List Lexeme :=
  Lexeme.kwBegin :: (whileProgramBody.toks ++ [Lexeme.kwEnd])

/-- Tokens put after the `end` of a program: a statement and a second `end`. -/
def trailingTokens : List Lexeme :=
  [.semicolon, .identifier "y", .assign, .number 7, .kwEnd, .kwWrite, .eof]

/-- Name carried by an identifier token. -/
def identName : Lexeme → Option String
  | .identifier x => some x
  | _ => none

/-- Names of the identifier tokens of a token sequence, in textual order, with
repetitions. -/
def idents (l : List Lexeme) : List String := l.filterMap identName

/-- From session `s` to the later session `s'` the tokens `c` were taken off the input;
the names passed to `findOrAddVariable` meanwhile are, in order, identifiers of `c`,
and they are all the identifiers of `c` when no diagnostic was reported meanwhile. -/
def Consumes (s s' : PState) : Prop :=
  s.diags.length ≤ s'.diags.length ∧
  ∃ c L, s.toks = c ++ s'.toks ∧
    s'.lookups.map Prod.fst = s.lookups.map Prod.fst ++ L ∧
    L.Sublist (idents c) ∧
    (s'.diags.length = s.diags.length → L = idents c)

/-- From session `s` to the later session `s'` the table has kept its bindings, and
every call of `findOrAddVariable` made meanwhile returned the address that the table
of `s'` holds for its name. -/
def Binds (s s' : PState) : Prop :=
  Extends s.vars s'.vars ∧
  ∃ nl, s'.lookups = s.lookups ++ nl ∧ ∀ p ∈ nl, findVar p.1 s'.vars = some p.2

/-- Input of `begin for x := y do od end`. -/
def forTwoNames : List Lexeme :=
  [.kwBegin, .kwFor, .identifier "x", .assign, .identifier "y", .kwDo, .kwOd, .kwEnd, .eof]

/-- The expression `a - b * a`. -/
def aMinusBTimesA : Expr :=
  .mk (.mk (.ident "a") .nil)
    (.cons .minus (.mk (.ident "b") (.cons .times (.ident "a") .nil)) .nil)

/-- Session in which `expression` is entered on `a - b * a`, with an empty table. -/
def identEntry : PState := PState.init (aMinusBTimesA.toks ++ [Lexeme.eof])

/-- Session of `parse missingThenProgram` when `mustBe(T_THEN)` is called: the
relation `1 = 1` is translated and the slot of the conditional jump is reserved. -/
def missingThenAtThen : PState :=
  { toks := [.kwWrite, .lparen, .number 1, .rparen, .kwFi, .kwEnd, .eof],
    vars := [], lastVar := 0, error := false,
    code := [.PUSH 1, .PUSH 1, .COMPARE 0, .NOP],
    reserved := [3], patched := [], diags := [], flushed := [], lookups := [] }

/-- Input of `begin if 1 = 1 write ( 1 ) then write ( 2 ) fi end`: the `then` comes
late, after a statement that is out of place. -/
def lateThenProgram : List Lexeme :=
  [.kwBegin, .kwIf, .number 1, .cmp C_EQ, .number 1, .kwWrite, .lparen, .number 1,
   .rparen, .kwThen, .kwWrite, .lparen, .number 2, .rparen, .kwFi, .kwEnd, .eof]

/-- Session of `parse lateThenProgram` when `mustBe(T_THEN)` is called. -/
def lateThenAtThen : PState :=
  { missingThenAtThen with
    toks := [.kwWrite, .lparen, .number 1, .rparen, .kwThen, .kwWrite, .lparen, .number 2,
             .rparen, .kwFi, .kwEnd, .eof] }

/-- Final session of `parse lateThenProgram`. -/
def lateThenFinal : PState :=
  { toks := [.eof], vars := [], lastVar := 0, error := true,
    code := [.PUSH 1, .PUSH 1, .COMPARE 0, .JUMP_NO 6, .PUSH 2, .PRINT, .STOP],
    reserved := [3], patched := [3], diags := [.mismatch T_WRITE T_THEN],
    flushed := [], lookups := [] }
/-! # Theorems -/

/-! ## Every procedure respects a closed relation -/

theorem bind_ok {α β : Type} {x : Except Fault α} {f : α → Except Fault β} {b : β} :
    (x >>= f) = .ok b ↔ ∃ a, x = .ok a ∧ f a = .ok b := by
  cases x <;> simp [bind, Except.bind]

theorem pure_ok {α : Type} {a b : α} : (pure a : Except Fault α) = .ok b ↔ a = b := by
  simp [pure, Except.pure]

theorem match_closed {R : PState → PState → Prop} (h : ClosedVar R) (t : Token) (s : PState) :
    R s (match_ t s).2 := by
  unfold match_; split
  · exact h.next s
  · exact h.refl s

theorem factor_closed {R : PState → PState → Prop} (h : ClosedVar R) (n : Nat)
    (ihE : Preserves R (expression n)) (ihF : Preserves R (factor n)) :
    Preserves R (factor (n + 1)) := by
  intro s s' hs
  simp only [factor] at hs
  split at hs
  · simp only [bind_ok, pure_ok] at hs
    obtain ⟨v, -, rfl⟩ := hs
    exact h.trans (h.next s) (h.emit _ _ (by simp) (by simp) (by simp) (by simp))
  · split at hs
    · simp only [bind_ok, pure_ok] at hs
      obtain ⟨v, -, rfl⟩ := hs
      exact h.load v s _ (h.next _)
    · simp only [bind_ok] at hs
      obtain ⟨m, -, hs⟩ := hs
      split at hs
      · simp only [bind_ok, pure_ok] at hs
        obtain ⟨s1, h1, rfl⟩ := hs
        exact h.trans (h.next s) (h.trans (ihF _ _ h1) (h.emit _ _ (by simp) (by simp) (by simp) (by simp)))
      · split at hs
        · simp only [bind_ok, pure_ok] at hs
          obtain ⟨s1, h1, rfl⟩ := hs
          exact h.trans (match_closed h _ s) (h.trans (ihE _ _ h1) (h.mustBe _ _))
        · split at hs
          · simp only [pure_ok] at hs
            subst hs
            exact h.trans (match_closed h _ s) (h.emit _ _ (by simp) (by simp) (by simp) (by simp))
          · simp only [pure_ok] at hs
            subst hs
            exact h.trans (match_closed h _ s) (h.report _ _)

theorem termLoop_closed {R : PState → PState → Prop} (h : ClosedVar R) (n : Nat)
    (ihF : Preserves R (factor n)) (ihL : Preserves R (termLoop n)) :
    Preserves R (termLoop (n + 1)) := by
  intro s s' hs
  simp only [termLoop] at hs
  split at hs
  · simp only [bind_ok] at hs
    obtain ⟨op, -, s1, h1, hs⟩ := hs
    refine h.trans (h.next s) (h.trans (ihF _ _ h1) (h.trans ?_ (ihL _ _ hs)))
    split
    · exact h.emit _ _ (by simp) (by simp) (by simp) (by simp)
    · exact h.emit _ _ (by simp) (by simp) (by simp) (by simp)
  · simp only [pure_ok] at hs
    subst hs
    exact h.refl s

theorem term_closed {R : PState → PState → Prop} (_h : ClosedVar R) (n : Nat)
    (ihF : Preserves R (factor n)) (ihL : Preserves R (termLoop n)) :
    Preserves R (term (n + 1)) := by
  intro s s' hs
  simp only [term, bind_ok] at hs
  obtain ⟨s1, h1, hs⟩ := hs
  exact _h.trans (ihF _ _ h1) (ihL _ _ hs)

theorem expressionLoop_closed {R : PState → PState → Prop} (h : ClosedVar R) (n : Nat)
    (ihT : Preserves R (term n)) (ihL : Preserves R (expressionLoop n)) :
    Preserves R (expressionLoop (n + 1)) := by
  intro s s' hs
  simp only [expressionLoop] at hs
  split at hs
  · simp only [bind_ok] at hs
    obtain ⟨op, -, s1, h1, hs⟩ := hs
    refine h.trans (h.next s) (h.trans (ihT _ _ h1) (h.trans ?_ (ihL _ _ hs)))
    split
    · exact h.emit _ _ (by simp) (by simp) (by simp) (by simp)
    · exact h.emit _ _ (by simp) (by simp) (by simp) (by simp)
  · simp only [pure_ok] at hs
    subst hs
    exact h.refl s

theorem expression_closed {R : PState → PState → Prop} (h : ClosedVar R) (n : Nat)
    (ihT : Preserves R (term n)) (ihL : Preserves R (expressionLoop n)) :
    Preserves R (expression (n + 1)) := by
  intro s s' hs
  simp only [expression, bind_ok] at hs
  obtain ⟨s1, h1, hs⟩ := hs
  exact h.trans (ihT _ _ h1) (ihL _ _ hs)

theorem relation_closed {R : PState → PState → Prop} (h : ClosedVar R) (n : Nat)
    (ihE : Preserves R (expression n)) :
    Preserves R (relation (n + 1)) := by
  intro s s' hs
  simp only [relation, bind_ok] at hs
  obtain ⟨s1, h1, hs⟩ := hs
  split at hs
  · simp only [bind_ok, pure_ok] at hs
    obtain ⟨c, -, s2, h2, rfl⟩ := hs
    exact h.trans (ihE _ _ h1) (h.trans (h.next _) (h.trans (ihE _ _ h2)
      (h.emit _ _ (by simp) (by simp) (by simp) (by simp))))
  · simp only [pure_ok] at hs
    subst hs
    exact h.trans (ihE _ _ h1) (h.report _ _)

theorem forLoop_closed {R : PState → PState → Prop} (h : ClosedVar R) (n : Nat)
    (ihE : Preserves R (expression n)) (ihL : Preserves R (forLoop n)) :
    Preserves R (forLoop (n + 1)) := by
  intro s s' hs
  simp only [forLoop] at hs
  split at hs
  · simp only [bind_ok] at hs
    obtain ⟨s1, h1, hs⟩ := hs
    exact h.trans (match_closed h _ s) (h.trans (ihE _ _ h1) (ihL _ _ hs))
  · simp only [pure_ok] at hs
    subst hs
    exact match_closed h _ s

theorem statementLoop_closed {R : PState → PState → Prop} (h : ClosedVar R) (n : Nat)
    (ihS : Preserves R (statement n)) (ihL : Preserves R (statementLoop n)) :
    Preserves R (statementLoop (n + 1)) := by
  intro s s' hs
  simp only [statementLoop, bind_ok] at hs
  obtain ⟨s1, h1, hs⟩ := hs
  split at hs
  · exact h.trans (ihS _ _ h1) (h.trans (match_closed h _ s1) (ihL _ _ hs))
  · simp only [pure_ok] at hs
    subst hs
    exact h.trans (ihS _ _ h1) (match_closed h _ s1)

theorem statementList_closed {R : PState → PState → Prop} (h : ClosedVar R) (n : Nat)
    (ihL : Preserves R (statementLoop n)) :
    Preserves R (statementList (n + 1)) := by
  intro s s' hs
  simp only [statementList] at hs
  split at hs
  · cases hs
    exact h.refl s
  · exact ihL _ _ hs

theorem statement_closed {R : PState → PState → Prop} (h : ClosedVar R) (n : Nat)
    (ihE : Preserves R (expression n)) (ihR : Preserves R (relation n))
    (ihF : Preserves R (forLoop n)) (ihSL : Preserves R (statementList n)) :
    Preserves R (statement (n + 1)) := by
  intro s s' hs
  simp only [statement] at hs
  split at hs
  · -- assignment
    simp only [bind_ok, pure_ok] at hs
    obtain ⟨x, -, s1, h1, rfl⟩ := hs
    exact h.store x s _ (h.trans (h.next _) (h.trans (h.mustBe _ _) (ihE _ _ h1)))
  · split at hs
    · -- if
      simp only [bind_ok] at hs
      obtain ⟨s1, h1, s2, h2, hs⟩ := hs
      have r2 : R s s2 := h.trans (match_closed h _ s) (h.trans (ihR _ _ h1)
        (h.trans (h.reserve _) (h.trans (h.mustBe _ _) (ihSL _ _ h2))))
      split at hs
      · simp only [bind_ok, pure_ok] at hs
        obtain ⟨s3, h3, rfl⟩ := hs
        exact h.trans r2 (h.trans (match_closed h _ s2) (h.trans (h.reserve _)
          (h.trans (h.patchNo _ _) (h.trans (ihSL _ _ h3)
          (h.trans (h.patch _ _) (h.mustBe _ _))))))
      · simp only [pure_ok] at hs
        subst hs
        exact h.trans r2 (h.trans (match_closed h _ s2)
          (h.trans (h.patchNo _ _) (h.mustBe _ _)))
    · split at hs
      · -- while
        simp only [bind_ok, pure_ok] at hs
        obtain ⟨s1, h1, s2, h2, rfl⟩ := hs
        have r2 : R (match_ T_WHILE s).2 (mustBe T_OD s2) :=
          h.trans (ihR _ _ h1) (h.trans (h.reserve _) (h.trans (h.mustBe _ _)
            (h.trans (ihSL _ _ h2) (h.mustBe _ _))))
        exact h.trans (match_closed h _ s) (h.trans (h.jumpBack _ _ r2) (h.patchNo _ _))
      · split at hs
        · -- for
          split at hs
          · simp only [pure_ok] at hs
            subst hs
            exact h.trans (match_closed h _ s) (h.report _ _)
          · simp only [bind_ok, pure_ok] at hs
            obtain ⟨x, -, s1, h1, s2, h2, s3, h3, rfl⟩ := hs
            have r2 : R (findOrAddVariable x (match_ T_FOR s).2).2 s2 :=
              h.trans (h.next _) (h.trans (h.mustBe _ _)
                (h.trans (ihE _ _ h1) (ihF _ _ h2)))
            have r3 : R (emit (.STORE (findOrAddVariable x (match_ T_FOR s).2).1) s2)
                (mustBe T_OD s3) :=
              h.trans (h.mustBe _ _) (h.trans (ihSL _ _ h3) (h.mustBe _ _))
            exact h.trans (match_closed h _ s)
              (h.trans (h.storeJump x _ _ _ r2 r3) (h.reserve _))
        · split at hs
          · -- write
            simp only [bind_ok, pure_ok] at hs
            obtain ⟨s1, h1, rfl⟩ := hs
            exact h.trans (match_closed h _ s) (h.trans (h.mustBe _ _)
              (h.trans (ihE _ _ h1) (h.trans (h.mustBe _ _)
              (h.emit _ _ (by simp) (by simp) (by simp) (by simp)))))
          · simp only [pure_ok] at hs
            subst hs
            exact h.report _ _

/-- All ten procedures, at every depth budget, respect a closed relation. -/
theorem closedVar_all {R : PState → PState → Prop} (h : ClosedVar R) (n : Nat) :
    Preserves R (statementList n) ∧ Preserves R (statementLoop n) ∧
    Preserves R (statement n) ∧ Preserves R (forLoop n) ∧
    Preserves R (expression n) ∧ Preserves R (expressionLoop n) ∧
    Preserves R (term n) ∧ Preserves R (termLoop n) ∧
    Preserves R (factor n) ∧ Preserves R (relation n) := by
  induction n with
  | zero =>
    refine ⟨?_, ?_, ?_, ?_, ?_, ?_, ?_, ?_, ?_, ?_⟩ <;> intro s s' hs
    · simp [statementList] at hs
    · simp [statementLoop] at hs
    · simp [statement] at hs
    · simp [forLoop] at hs
    · simp [expression] at hs
    · simp [expressionLoop] at hs
    · simp [term] at hs
    · simp [termLoop] at hs
    · simp [factor] at hs
    · simp [relation] at hs
  | succ n ih =>
    obtain ⟨iSL, iSLp, iS, iFL, iE, iEL, iT, iTL, iF, iR⟩ := ih
    exact ⟨statementList_closed h n iSLp, statementLoop_closed h n iS iSLp,
      statement_closed h n iE iR iFL iSL, forLoop_closed h n iE iFL,
      expression_closed h n iT iEL, expressionLoop_closed h n iT iEL,
      term_closed h n iF iTL, termLoop_closed h n iF iTL,
      factor_closed h n iE iF, relation_closed h n iE⟩

theorem program_closedVar {R : PState → PState → Prop} (h : ClosedVar R) (n : Nat) :
    Preserves R (program n) := by
  intro s s' hs
  simp only [program, bind_ok, pure_ok] at hs
  obtain ⟨s1, h1, rfl⟩ := hs
  exact h.trans (h.mustBe _ _) (h.trans ((closedVar_all h n).1 _ _ h1)
    (h.trans (h.mustBe _ _) (h.emit _ _ (by simp) (by simp) (by simp) (by simp))))


/-- A relation respected by every `emit` of a non-jump is closed in the weaker sense. -/
theorem Closed.toVar {R : PState → PState → Prop} (h : Closed R) : ClosedVar R where
  refl := h.refl
  trans := h.trans
  next := h.next
  mustBe := h.mustBe
  report := h.report
  lookup := h.lookup
  emit := fun i s h1 h2 _ _ => h.emit i s h1 h2
  load := fun x s0 s r => h.trans (h.lookup x s0) (h.trans r (h.emit _ _ (by simp) (by simp)))
  store := fun x s0 s r => h.trans (h.lookup x s0) (h.trans r (h.emit _ _ (by simp) (by simp)))
  storeJump := fun x s0 s2 s3 r2 r3 =>
    h.trans (h.trans (h.lookup x s0) r2)
      (h.jumpBack _ _ (h.trans (h.emit _ _ (by simp) (by simp)) r3))
  reserve := h.reserve
  patchNo := h.patchNo
  patch := h.patch
  jumpBack := h.jumpBack

theorem closed_all {R : PState → PState → Prop} (h : Closed R) (n : Nat) :
    Preserves R (statementList n) ∧ Preserves R (statementLoop n) ∧
    Preserves R (statement n) ∧ Preserves R (forLoop n) ∧
    Preserves R (expression n) ∧ Preserves R (expressionLoop n) ∧
    Preserves R (term n) ∧ Preserves R (termLoop n) ∧
    Preserves R (factor n) ∧ Preserves R (relation n) :=
  closedVar_all h.toVar n

theorem program_closed {R : PState → PState → Prop} (h : Closed R) (n : Nat) :
    Preserves R (program n) :=
  program_closedVar h.toVar n

/-! ### Effect of the primitives on the remaining input -/

@[simp] theorem emit_toks (i : Instr) (s : PState) : (emit i s).toks = s.toks := rfl
@[simp] theorem reserve_toks (s : PState) : (reserve s).2.toks = s.toks := rfl
@[simp] theorem emitAt_toks (a : Nat) (i : Instr) (s : PState) : (emitAt a i s).toks = s.toks := rfl
@[simp] theorem reportError_toks (d : Diag) (s : PState) : (reportError d s).toks = s.toks := rfl
@[simp] theorem findOrAddVariable_toks (x : String) (s : PState) :
    (findOrAddVariable x s).2.toks = s.toks := by
  unfold findOrAddVariable; split <;> rfl

theorem next_toks_le (s : PState) : (next s).toks.length ≤ s.toks.length := by
  unfold next; split
  · exact le_refl _
  · next l rest heq =>
    split
    · exact le_refl _
    · simp [heq]

theorem skipTo_length_le (t : Token) (l : List Lexeme) : (skipTo t l).length ≤ l.length := by
  induction l with
  | nil => simp [skipTo]
  | cons a l ih =>
    simp only [skipTo]; split
    · exact le_refl _
    · simp only [List.length_cons]; omega

theorem next_toks_lt {t : Token} {s : PState} (h : see t s = true) (ht : t ≠ T_EOF) :
    (next s).toks.length < s.toks.length := by
  unfold see token at h
  unfold next
  cases hs : s.toks with
  | nil => simp [hs, Lexeme.tag] at h; exact absurd h.symm ht
  | cons l rest =>
    simp only [hs, List.headD_cons, beq_iff_eq] at h
    simp [h, ht]

theorem match_toks_le (t : Token) (s : PState) : (match_ t s).2.toks.length ≤ s.toks.length := by
  unfold match_; split
  · exact next_toks_le s
  · exact le_refl _

theorem match_toks_lt {t : Token} {s : PState} (h : (match_ t s).1 = true) (ht : t ≠ T_EOF) :
    (match_ t s).2.toks.length < s.toks.length := by
  unfold match_ at h ⊢
  split
  · next hsee => exact next_toks_lt hsee ht
  · next hsee => simp [hsee] at h

theorem mustBe_toks_le (t : Token) (s : PState) : (mustBe t s).toks.length ≤ s.toks.length := by
  unfold mustBe
  split
  · exact match_toks_le t s
  · simp only [recover]
    split
    · refine le_trans (next_toks_le _) ?_
      simpa [reportError] using skipTo_length_le t s.toks
    · simpa [reportError] using skipTo_length_le t s.toks

/-- The remaining input never grows. -/
theorem closed_toks : Closed (fun s s' => s'.toks.length ≤ s.toks.length) where
  refl := fun _ => le_refl _
  trans := fun h1 h2 => le_trans h2 h1
  next := next_toks_le
  mustBe := mustBe_toks_le
  report := fun _ _ => le_refl _
  lookup := fun x s => by simp
  emit := fun _ _ _ _ => le_refl _
  reserve := fun _ => le_refl _
  patchNo := fun _ _ => le_refl _
  patch := fun _ _ => le_refl _
  jumpBack := fun _ _ h => h

/-! ### Typed accessors succeed behind their tag tests -/

theorem ok_bind {α β : Type} (a : α) (f : α → Except Fault β) :
    ((Except.ok a : Except Fault α) >>= f) = f a := rfl

theorem pure_eq_ok {α : Type} (a : α) : (pure a : Except Fault α) = .ok a := rfl

theorem see_identifier {s : PState} (h : see T_IDENTIFIER s = true) :
    ∃ x, getStringValue s = .ok x := by
  unfold see at h; unfold getStringValue
  generalize token s = l at h ⊢
  cases l <;> simp [Lexeme.tag] at h ⊢

theorem see_number {s : PState} (h : see T_NUMBER s = true) :
    ∃ v, getIntValue s = .ok v := by
  unfold see at h; unfold getIntValue
  generalize token s = l at h ⊢
  cases l <;> simp [Lexeme.tag] at h ⊢

theorem see_addop {s : PState} (h : see T_ADDOP s = true) :
    ∃ a, getArithmeticValue s = .ok a := by
  unfold see at h; unfold getArithmeticValue
  generalize token s = l at h ⊢
  cases l <;> simp [Lexeme.tag] at h ⊢

theorem see_mulop {s : PState} (h : see T_MULOP s = true) :
    ∃ a, getArithmeticValue s = .ok a := by
  unfold see at h; unfold getArithmeticValue
  generalize token s = l at h ⊢
  cases l <;> simp [Lexeme.tag] at h ⊢

theorem see_cmp {s : PState} (h : see T_CMP s = true) :
    ∃ c, getCmpValue s = .ok c := by
  unfold see at h; unfold getCmpValue
  generalize token s = l at h ⊢
  cases l <;> simp [Lexeme.tag] at h ⊢

theorem seeMinus_ok (s : PState) :
    ∃ b, seeMinus s = .ok b ∧ (b = true → see T_ADDOP s = true) := by
  unfold seeMinus
  split
  · next h =>
    obtain ⟨a, ha⟩ := see_addop h
    exact ⟨decide (a = A_MINUS), by simp [ha, ok_bind, pure_eq_ok], fun _ => h⟩
  · exact ⟨false, rfl, by simp⟩

/-! ### The depth budget is sufficient -/

theorem toks_le_of_ok (n : Nat) :
    (∀ s s', statementList n s = .ok s' → s'.toks.length ≤ s.toks.length) ∧
    (∀ s s', forLoop n s = .ok s' → s'.toks.length ≤ s.toks.length) ∧
    (∀ s s', expression n s = .ok s' → s'.toks.length ≤ s.toks.length) ∧
    (∀ s s', term n s = .ok s' → s'.toks.length ≤ s.toks.length) ∧
    (∀ s s', factor n s = .ok s' → s'.toks.length ≤ s.toks.length) ∧
    (∀ s s', relation n s = .ok s' → s'.toks.length ≤ s.toks.length) ∧
    (∀ s s', statement n s = .ok s' → s'.toks.length ≤ s.toks.length) := by
  have h := closed_all closed_toks n
  exact ⟨h.1, h.2.2.2.1, h.2.2.2.2.1, h.2.2.2.2.2.2.1, h.2.2.2.2.2.2.2.2.1,
    h.2.2.2.2.2.2.2.2.2, h.2.2.1⟩

theorem factor_total (n : Nat) (ihE : Total 5 expression n) (ihF : Total 1 factor n) :
    Total 1 factor (n + 1) := by
  intro s hb
  simp only [factor]
  split
  · next h =>
    obtain ⟨v, hv⟩ := see_number h
    simp only [hv, ok_bind, pure_eq_ok]
    exact ⟨_, rfl⟩
  · split
    · next h =>
      obtain ⟨x, hx⟩ := see_identifier h
      simp only [hx, ok_bind, pure_eq_ok]
      exact ⟨_, rfl⟩
    · obtain ⟨b, hb1, hb2⟩ := seeMinus_ok s
      simp only [hb1, ok_bind]
      split
      · next hm =>
        have hlt := next_toks_lt (hb2 hm) (by decide)
        obtain ⟨s1, h1⟩ := ihF (next s) (by omega)
        simp only [h1, ok_bind, pure_eq_ok]
        exact ⟨_, rfl⟩
      · split
        · next hm =>
          have hlt := match_toks_lt hm (by decide)
          obtain ⟨s1, h1⟩ := ihE (match_ T_LPAREN s).2 (by omega)
          simp only [h1, ok_bind, pure_eq_ok]
          exact ⟨_, rfl⟩
        · split
          · exact ⟨_, rfl⟩
          · exact ⟨_, rfl⟩

theorem termLoop_total (n : Nat) (ihF : Total 1 factor n) (ihL : Total 2 termLoop n) :
    Total 2 termLoop (n + 1) := by
  intro s hb
  simp only [termLoop]
  split
  · next h =>
    obtain ⟨a, ha⟩ := see_mulop h
    have hlt := next_toks_lt h (by decide)
    obtain ⟨s1, h1⟩ := ihF (next s) (by omega)
    have hle := (toks_le_of_ok n).2.2.2.2.1 _ _ h1
    simp only [ha, h1, ok_bind]
    split
    · exact ihL _ (by simp only [emit_toks]; omega)
    · exact ihL _ (by simp only [emit_toks]; omega)
  · exact ⟨_, rfl⟩

theorem term_total (n : Nat) (ihF : Total 1 factor n) (ihL : Total 2 termLoop n) :
    Total 3 term (n + 1) := by
  intro s hb
  simp only [term]
  obtain ⟨s1, h1⟩ := ihF s (by omega)
  have hle := (toks_le_of_ok n).2.2.2.2.1 _ _ h1
  simp only [h1, ok_bind]
  exact ihL _ (by omega)

theorem expressionLoop_total (n : Nat) (ihT : Total 3 term n)
    (ihL : Total 4 expressionLoop n) : Total 4 expressionLoop (n + 1) := by
  intro s hb
  simp only [expressionLoop]
  split
  · next h =>
    obtain ⟨a, ha⟩ := see_addop h
    have hlt := next_toks_lt h (by decide)
    obtain ⟨s1, h1⟩ := ihT (next s) (by omega)
    have hle := (toks_le_of_ok n).2.2.2.1 _ _ h1
    simp only [ha, h1, ok_bind]
    split
    · exact ihL _ (by simp only [emit_toks]; omega)
    · exact ihL _ (by simp only [emit_toks]; omega)
  · exact ⟨_, rfl⟩

theorem expression_total (n : Nat) (ihT : Total 3 term n)
    (ihL : Total 4 expressionLoop n) : Total 5 expression (n + 1) := by
  intro s hb
  simp only [expression]
  obtain ⟨s1, h1⟩ := ihT s (by omega)
  have hle := (toks_le_of_ok n).2.2.2.1 _ _ h1
  simp only [h1, ok_bind]
  exact ihL _ (by omega)

theorem relation_total (n : Nat) (ihE : Total 5 expression n) :
    Total 6 relation (n + 1) := by
  intro s hb
  simp only [relation]
  obtain ⟨s1, h1⟩ := ihE s (by omega)
  have hle := (toks_le_of_ok n).2.2.1 _ _ h1
  simp only [h1, ok_bind]
  split
  · next h =>
    obtain ⟨c, hc⟩ := see_cmp h
    have hlt := next_toks_le s1
    obtain ⟨s2, h2⟩ := ihE (next s1) (by omega)
    simp only [hc, h2, ok_bind, pure_eq_ok]
    exact ⟨_, rfl⟩
  · exact ⟨_, rfl⟩

theorem forLoop_total (n : Nat) (ihE : Total 5 expression n) (ihL : Total 6 forLoop n) :
    Total 6 forLoop (n + 1) := by
  intro s hb
  simp only [forLoop]
  split
  · next h =>
    have hlt := match_toks_lt h (by decide)
    obtain ⟨s1, h1⟩ := ihE (match_ T_COMMA s).2 (by omega)
    have hle := (toks_le_of_ok n).2.2.1 _ _ h1
    simp only [h1, ok_bind]
    exact ihL _ (by omega)
  · exact ⟨_, rfl⟩

theorem statementLoop_total (n : Nat) (ihS : Total 7 statement n)
    (ihL : Total 8 statementLoop n) : Total 8 statementLoop (n + 1) := by
  intro s hb
  simp only [statementLoop]
  obtain ⟨s1, h1⟩ := ihS s (by omega)
  have hle := (toks_le_of_ok n).2.2.2.2.2.2 _ _ h1
  simp only [h1, ok_bind]
  split
  · next h =>
    have hlt := match_toks_lt h (by decide)
    exact ihL _ (by omega)
  · exact ⟨_, rfl⟩

theorem statementList_total (n : Nat) (ihL : Total 8 statementLoop n) :
    Total 9 statementList (n + 1) := by
  intro s hb
  simp only [statementList]
  split
  · exact ⟨_, rfl⟩
  · exact ihL _ (by omega)

theorem statement_total (n : Nat) (ihE : Total 5 expression n) (ihR : Total 6 relation n)
    (ihF : Total 6 forLoop n) (ihSL : Total 9 statementList n) :
    Total 7 statement (n + 1) := by
  intro s hb
  have leSL := (toks_le_of_ok n).1
  have leFL := (toks_le_of_ok n).2.1
  have leE := (toks_le_of_ok n).2.2.1
  have leR := (toks_le_of_ok n).2.2.2.2.2.1
  simp only [statement]
  split
  · next h =>
    obtain ⟨x, hx⟩ := see_identifier h
    have h0 : (next (findOrAddVariable x s).2).toks.length < s.toks.length := by
      have := next_toks_lt (s := (findOrAddVariable x s).2) (t := T_IDENTIFIER)
        (by simpa [see, token] using h) (by decide)
      simpa using this
    have h1 := mustBe_toks_le T_ASSIGN (next (findOrAddVariable x s).2)
    obtain ⟨s1, e1⟩ := ihE (mustBe T_ASSIGN (next (findOrAddVariable x s).2)) (by omega)
    simp only [hx, e1, ok_bind, pure_eq_ok]
    exact ⟨_, rfl⟩
  · split
    · next h =>
      have h0 := match_toks_lt h (by decide)
      obtain ⟨s1, e1⟩ := ihR (match_ T_IF s).2 (by omega)
      have h1 := leR _ _ e1
      have h2 := mustBe_toks_le T_THEN (reserve s1).2
      simp only [reserve_toks] at h2
      obtain ⟨s2, e2⟩ := ihSL (mustBe T_THEN (reserve s1).2) (by omega)
      have h3 := leSL _ _ e2
      simp only [e1, e2, ok_bind]
      split
      · have h4 := match_toks_le T_ELSE s2
        obtain ⟨s3, e3⟩ := ihSL (emitAt (reserve s1).1
          (Instr.JUMP_NO (getCurrentAddress (reserve (match_ T_ELSE s2).2).2))
          (reserve (match_ T_ELSE s2).2).2)
          (by simp only [emitAt_toks, reserve_toks]; omega)
        simp only [e3, ok_bind, pure_eq_ok]
        exact ⟨_, rfl⟩
      · exact ⟨_, rfl⟩
    · split
      · next h =>
        have h0 := match_toks_lt h (by decide)
        obtain ⟨s1, e1⟩ := ihR (match_ T_WHILE s).2 (by omega)
        have h1 := leR _ _ e1
        have h2 := mustBe_toks_le T_DO (reserve s1).2
        simp only [reserve_toks] at h2
        obtain ⟨s2, e2⟩ := ihSL (mustBe T_DO (reserve s1).2) (by omega)
        simp only [e1, e2, ok_bind, pure_eq_ok]
        exact ⟨_, rfl⟩
      · split
        · next h =>
          have h0 := match_toks_lt h (by decide)
          split
          · exact ⟨_, rfl⟩
          · next hid =>
            have hid2 : see T_IDENTIFIER (match_ T_FOR s).2 = true := by
              simpa using hid
            obtain ⟨x, hx⟩ := see_identifier hid2
            have h1 : (next (findOrAddVariable x (match_ T_FOR s).2).2).toks.length
                ≤ (match_ T_FOR s).2.toks.length := by
              have := next_toks_le (findOrAddVariable x (match_ T_FOR s).2).2
              simpa using this
            have h2 := mustBe_toks_le T_ASSIGN (next (findOrAddVariable x (match_ T_FOR s).2).2)
            obtain ⟨s1, e1⟩ := ihE
              (mustBe T_ASSIGN (next (findOrAddVariable x (match_ T_FOR s).2).2)) (by omega)
            have h3 := leE _ _ e1
            obtain ⟨s2, e2⟩ := ihF s1 (by omega)
            have h4 := leFL _ _ e2
            have h5 := mustBe_toks_le T_DO (emit (Instr.STORE
              (findOrAddVariable x (match_ T_FOR s).2).1) s2)
            simp only [emit_toks] at h5
            obtain ⟨s3, e3⟩ := ihSL (mustBe T_DO (emit (Instr.STORE
              (findOrAddVariable x (match_ T_FOR s).2).1) s2)) (by omega)
            simp only [hx, e1, e2, e3, ok_bind, pure_eq_ok]
            exact ⟨_, rfl⟩
        · split
          · next h =>
            have h0 := match_toks_lt h (by decide)
            have h1 := mustBe_toks_le T_LPAREN (match_ T_WRITE s).2
            obtain ⟨s1, e1⟩ := ihE (mustBe T_LPAREN (match_ T_WRITE s).2) (by omega)
            simp only [e1, ok_bind, pure_eq_ok]
            exact ⟨_, rfl⟩
          · exact ⟨_, rfl⟩

/-- Every procedure returns once its budget covers ten units per remaining token. -/
theorem total_all (n : Nat) :
    Total 9 statementList n ∧ Total 8 statementLoop n ∧ Total 7 statement n ∧
    Total 6 forLoop n ∧ Total 5 expression n ∧ Total 4 expressionLoop n ∧
    Total 3 term n ∧ Total 2 termLoop n ∧ Total 1 factor n ∧ Total 6 relation n := by
  induction n with
  | zero =>
    refine ⟨?_, ?_, ?_, ?_, ?_, ?_, ?_, ?_, ?_, ?_⟩ <;> intro s hs <;> omega
  | succ n ih =>
    obtain ⟨iSL, iSLp, iS, iFL, iE, iEL, iT, iTL, iF, iR⟩ := ih
    exact ⟨statementList_total n iSLp, statementLoop_total n iS iSLp,
      statement_total n iE iR iFL iSL, forLoop_total n iE iFL,
      expression_total n iT iEL, expressionLoop_total n iT iEL,
      term_total n iF iTL, termLoop_total n iF iTL,
      factor_total n iE iF, relation_total n iE⟩

theorem program_total (input : List Lexeme) :
    ∃ s, program (budget input) (PState.init input) = .ok s := by
  have h0 := mustBe_toks_le T_BEGIN (PState.init input)
  have hi : (PState.init input).toks = input := rfl
  rw [hi] at h0
  obtain ⟨s1, e1⟩ := (total_all (budget input)).1 (mustBe T_BEGIN (PState.init input))
    (by unfold budget; omega)
  simp only [program, e1, ok_bind, pure_eq_ok]
  exact ⟨_, rfl⟩

/-- On every input `parse` returns a final session. -/
theorem parse_total (input : List Lexeme) : ∃ s, parse input = .ok s := by
  obtain ⟨s1, e1⟩ := program_total input
  simp only [parse, e1, ok_bind, pure_eq_ok]
  split
  · exact ⟨_, rfl⟩
  · exact ⟨_, rfl⟩


/-! ## What the scanner-side steps leave untouched -/

theorem next_eq (s : PState) : next s = { s with toks := (next s).toks } := by
  unfold next; split
  · rfl
  · split <;> rfl

theorem match_eq (t : Token) (s : PState) :
    (match_ t s).2 = { s with toks := (match_ t s).2.toks } := by
  unfold match_; split
  · exact next_eq s
  · rfl

theorem findOrAddVariable_eq (x : String) (s : PState) :
    (findOrAddVariable x s).2 =
      { s with vars := (findOrAddVariable x s).2.vars,
               lastVar := (findOrAddVariable x s).2.lastVar,
               lookups := (findOrAddVariable x s).2.lookups } := by
  unfold findOrAddVariable; split <;> rfl

@[simp] theorem next_code (s : PState) : (next s).code = s.code := by rw [next_eq]
@[simp] theorem next_error (s : PState) : (next s).error = s.error := by rw [next_eq]
@[simp] theorem next_diags (s : PState) : (next s).diags = s.diags := by rw [next_eq]
@[simp] theorem next_vars (s : PState) : (next s).vars = s.vars := by rw [next_eq]
@[simp] theorem next_lastVar (s : PState) : (next s).lastVar = s.lastVar := by rw [next_eq]
@[simp] theorem next_flushed (s : PState) : (next s).flushed = s.flushed := by rw [next_eq]
@[simp] theorem next_lookups (s : PState) : (next s).lookups = s.lookups := by rw [next_eq]

@[simp] theorem match_code (t : Token) (s : PState) : (match_ t s).2.code = s.code := by
  rw [match_eq]
@[simp] theorem match_error (t : Token) (s : PState) : (match_ t s).2.error = s.error := by
  rw [match_eq]
@[simp] theorem match_diags (t : Token) (s : PState) : (match_ t s).2.diags = s.diags := by
  rw [match_eq]
@[simp] theorem match_vars (t : Token) (s : PState) : (match_ t s).2.vars = s.vars := by
  rw [match_eq]
@[simp] theorem match_lastVar (t : Token) (s : PState) :
    (match_ t s).2.lastVar = s.lastVar := by rw [match_eq]
@[simp] theorem match_flushed (t : Token) (s : PState) :
    (match_ t s).2.flushed = s.flushed := by rw [match_eq]
@[simp] theorem match_lookups (t : Token) (s : PState) :
    (match_ t s).2.lookups = s.lookups := by rw [match_eq]

theorem mustBe_eq (t : Token) (s : PState) :
    mustBe t s = { s with toks := (mustBe t s).toks, error := (mustBe t s).error,
                          diags := (mustBe t s).diags } := by
  unfold mustBe
  split
  · conv_lhs => rw [match_eq]
    simp
  · simp only [recover]
    split
    · rw [next_eq]; rfl
    · rfl

@[simp] theorem mustBe_code (t : Token) (s : PState) : (mustBe t s).code = s.code := by
  rw [mustBe_eq]
@[simp] theorem mustBe_vars (t : Token) (s : PState) : (mustBe t s).vars = s.vars := by
  rw [mustBe_eq]
@[simp] theorem mustBe_lastVar (t : Token) (s : PState) :
    (mustBe t s).lastVar = s.lastVar := by rw [mustBe_eq]
@[simp] theorem mustBe_flushed (t : Token) (s : PState) :
    (mustBe t s).flushed = s.flushed := by rw [mustBe_eq]
@[simp] theorem mustBe_lookups (t : Token) (s : PState) :
    (mustBe t s).lookups = s.lookups := by rw [mustBe_eq]

@[simp] theorem findOrAddVariable_code (x : String) (s : PState) :
    (findOrAddVariable x s).2.code = s.code := by rw [findOrAddVariable_eq]
@[simp] theorem findOrAddVariable_error (x : String) (s : PState) :
    (findOrAddVariable x s).2.error = s.error := by rw [findOrAddVariable_eq]
@[simp] theorem findOrAddVariable_diags (x : String) (s : PState) :
    (findOrAddVariable x s).2.diags = s.diags := by rw [findOrAddVariable_eq]
@[simp] theorem findOrAddVariable_flushed (x : String) (s : PState) :
    (findOrAddVariable x s).2.flushed = s.flushed := by rw [findOrAddVariable_eq]

theorem mustBe_of_see {t : Token} {s : PState} (h : see t s = true) :
    mustBe t s = next s := by
  simp [mustBe, match_, h]

theorem mustBe_error_of_not_see {t : Token} {s : PState} (h : see t s = false) :
    (mustBe t s).error = true ∧ (mustBe t s).diags = s.diags ++ [.mismatch (token s).tag t] := by
  have e : mustBe t s = recover t (reportError (.mismatch (token s).tag t)
      { s with error := true }) := by
    simp [mustBe, match_, h, token]
  rw [e]
  constructor
  · simp only [recover]; split
    · rw [next_error]; rfl
    · rfl
  · simp only [recover]; split
    · rw [next_diags]; rfl
    · rfl

theorem mustBe_error_mono (t : Token) (s : PState) (h : s.error = true) :
    (mustBe t s).error = true := by
  cases hs : see t s
  · exact (mustBe_error_of_not_see hs).1
  · rw [mustBe_of_see hs, next_error]; exact h

theorem mustBe_diags_mono (t : Token) (s : PState) (d : Diag) (h : d ∈ s.diags) :
    d ∈ (mustBe t s).diags := by
  cases hs : see t s
  · rw [(mustBe_error_of_not_see hs).2]; exact List.mem_append_left _ h
  · rw [mustBe_of_see hs, next_diags]; exact h

/-- The recursion `skipTo` is the loop of `recover`: while the current token is
neither `t` nor end-of-input it advances once and repeats, otherwise it stops. -/
theorem skipTo_unfold (t : Token) (s : PState) :
    skipTo t s.toks =
      if (!see t s && !see T_EOF s) = true then skipTo t (next s).toks else s.toks := by
  unfold see token next
  cases hs : s.toks with
  | nil => simp [skipTo, Lexeme.tag]
  | cons l rest =>
    by_cases h1 : l.tag = t
    · simp [skipTo, h1]
    · by_cases h2 : l.tag = T_EOF
      · simp [skipTo, h2]
      · simp [skipTo, h1, h2, hs]

/-! ## Error flag, diagnostics and flush -/

/-- The error flag is never cleared. -/
theorem closed_error : Closed (fun s s' => s.error = true → s'.error = true) where
  refl := fun _ => id
  trans := fun h1 h2 h => h2 (h1 h)
  next := fun s h => by rw [next_error]; exact h
  mustBe := mustBe_error_mono
  report := fun _ _ _ => rfl
  lookup := fun x s h => by rw [findOrAddVariable_error]; exact h
  emit := fun _ _ _ _ h => h
  reserve := fun _ h => h
  patchNo := fun _ _ h => h
  patch := fun _ _ h => h
  jumpBack := fun _ _ h => h

/-- Reported diagnostics are never withdrawn. -/
theorem closed_diags : Closed (fun s s' => ∀ d, d ∈ s.diags → d ∈ s'.diags) where
  refl := fun _ _ h => h
  trans := fun h1 h2 d h => h2 d (h1 d h)
  next := fun s d h => by rw [next_diags]; exact h
  mustBe := fun t s d h => mustBe_diags_mono t s d h
  report := fun _ _ d h => List.mem_append_left _ h
  lookup := fun x s d h => by rw [findOrAddVariable_diags]; exact h
  emit := fun _ _ _ _ _ h => h
  reserve := fun _ _ h => h
  patchNo := fun _ _ _ h => h
  patch := fun _ _ _ h => h
  jumpBack := fun _ _ h => h

/-- A session that has reported a diagnostic has its error flag set. -/
theorem closed_diag_error : Closed (fun s s' =>
    (s.diags ≠ [] → s.error = true) → (s'.diags ≠ [] → s'.error = true)) where
  refl := fun _ => id
  trans := fun h1 h2 h => h2 (h1 h)
  next := fun s h => by rw [next_error, next_diags]; exact h
  mustBe := fun t s h => by
    cases hs : see t s
    · exact fun _ => (mustBe_error_of_not_see hs).1
    · rw [mustBe_of_see hs, next_error, next_diags]; exact h
  report := fun _ _ _ _ => rfl
  lookup := fun x s h => by rw [findOrAddVariable_error, findOrAddVariable_diags]; exact h
  emit := fun _ _ _ _ h => h
  reserve := fun _ h => h
  patchNo := fun _ _ h => h
  patch := fun _ _ h => h
  jumpBack := fun _ _ h => h

/-- No procedure below `parse` calls `flush`. -/
theorem closed_flushed : Closed (fun s s' => s'.flushed = s.flushed) where
  refl := fun _ => rfl
  trans := fun h1 h2 => h2.trans h1
  next := next_flushed
  mustBe := mustBe_flushed
  report := fun _ _ => rfl
  lookup := fun x s => findOrAddVariable_flushed x s
  emit := fun _ _ _ _ => rfl
  reserve := fun _ => rfl
  patchNo := fun _ _ => rfl
  patch := fun _ _ => rfl
  jumpBack := fun _ _ h => h

/-- A closed relation is respected by each entry of `procedures`. -/
theorem procedures_closedVar {R : PState → PState → Prop} (h : ClosedVar R)
    (f : Nat → PState → Except Fault PState) (hf : f ∈ procedures) (n : Nat) :
    Preserves R (f n) := by
  have hall := closedVar_all h n
  simp only [procedures, List.mem_cons, List.mem_singleton, List.not_mem_nil, or_false] at hf
  rcases hf with rfl | rfl | rfl | rfl | rfl | rfl | rfl | rfl | rfl | rfl | rfl
  · exact program_closedVar h n
  · exact hall.1
  · exact hall.2.1
  · exact hall.2.2.1
  · exact hall.2.2.2.1
  · exact hall.2.2.2.2.1
  · exact hall.2.2.2.2.2.1
  · exact hall.2.2.2.2.2.2.1
  · exact hall.2.2.2.2.2.2.2.1
  · exact hall.2.2.2.2.2.2.2.2.1
  · exact hall.2.2.2.2.2.2.2.2.2

theorem procedures_closed {R : PState → PState → Prop} (h : Closed R)
    (f : Nat → PState → Except Fault PState) (hf : f ∈ procedures) (n : Nat) :
    Preserves R (f n) :=
  procedures_closedVar h.toVar f hf n

/-- The outcome of `parse` in terms of the outcome of `program`. -/
theorem parse_outcome (input : List Lexeme) :
    ∃ sp s, program (budget input) (PState.init input) = .ok sp ∧ parse input = .ok s ∧
      sp.flushed = [] ∧ (sp.diags ≠ [] → sp.error = true) ∧
      (sp.error = false → s = flush sp) ∧ (sp.error = true → s = sp) := by
  obtain ⟨sp, hp⟩ := program_total input
  have hf : sp.flushed = [] := program_closed closed_flushed _ _ _ hp
  have hd := program_closed closed_diag_error _ _ _ hp (fun h => absurd rfl h)
  rcases Bool.eq_false_or_eq_true sp.error with he | he
  · refine ⟨sp, sp, hp, ?_, hf, hd, ?_, fun _ => rfl⟩
    · simp [parse, hp, ok_bind, he, pure_eq_ok]
    · intro h; rw [he] at h; cases h
  · refine ⟨sp, flush sp, hp, ?_, hf, hd, fun _ => rfl, ?_⟩
    · simp [parse, hp, ok_bind, he, pure_eq_ok]
    · intro h; rw [he] at h; cases h

/-! ## Reserved slots and jump targets -/

/-- C1: on the input of `begin for x := 1 do od end` the translation succeeds and
flushes `PUSH 1, STORE 0, JUMP 1, NOP, STOP`; slot 3, returned by the `reserve` call
of the `for` branch, is never passed to `emitAt` and still holds the placeholder. -/
theorem c1_for_reserved_slot_never_patched :
    ∃ s, parse forProgram = .ok s ∧ s.error = false ∧
      s.flushed = [[.PUSH 1, .STORE 0, .JUMP 1, .NOP, .STOP]] ∧
      s.reserved = [3] ∧ s.patched = [] ∧ s.code[3]? = some Instr.NOP :=
  ⟨_, rfl, rfl, rfl, rfl, rfl, rfl⟩

theorem mem_set_cases {i j : Instr} {l : List Instr} {a : Nat} (h : i ∈ l.set a j) :
    i ∈ l ∨ i = j := List.mem_or_eq_of_mem_set h

/-- Jumps stay within the buffer while it grows. -/
theorem closed_jumps : Closed (fun s s' => s.code.length ≤ s'.code.length ∧
    (JumpsBounded s.code s.code.length → JumpsBounded s'.code s'.code.length)) where
  refl := fun _ => ⟨le_refl _, id⟩
  trans := fun h1 h2 => ⟨le_trans h1.1 h2.1, fun h => h2.2 (h1.2 h)⟩
  next := fun s => by rw [next_code]; exact ⟨le_refl _, id⟩
  mustBe := fun t s => by rw [mustBe_code]; exact ⟨le_refl _, id⟩
  report := fun _ _ => ⟨le_refl _, id⟩
  lookup := fun x s => by rw [findOrAddVariable_code]; exact ⟨le_refl _, id⟩
  emit := fun i s h1 h2 => by
    refine ⟨by simp [emit], fun h a ha => ?_⟩
    simp only [emit, List.mem_append, List.mem_singleton, List.length_append,
      List.length_singleton] at ha ⊢
    rcases ha with (ha | ha) | (ha | ha)
    · exact le_trans (h a (Or.inl ha)) (Nat.le_succ _)
    · exact absurd ha.symm (h1 a)
    · exact le_trans (h a (Or.inr ha)) (Nat.le_succ _)
    · exact absurd ha.symm (h2 a)
  reserve := fun s => by
    refine ⟨by simp [reserve], fun h a ha => ?_⟩
    simp only [reserve, List.mem_append, List.mem_singleton, List.length_append,
      List.length_singleton] at ha ⊢
    rcases ha with (ha | ha) | (ha | ha)
    · exact le_trans (h a (Or.inl ha)) (Nat.le_succ _)
    · cases ha
    · exact le_trans (h a (Or.inr ha)) (Nat.le_succ _)
    · cases ha
  patchNo := fun a s => by
    refine ⟨by simp [emitAt], fun h b hb => ?_⟩
    simp only [emitAt, List.length_set, getCurrentAddress] at hb ⊢
    rcases hb with hb | hb
    · rcases mem_set_cases hb with hb | hb
      · exact h b (Or.inl hb)
      · cases hb
    · rcases mem_set_cases hb with hb | hb
      · exact h b (Or.inr hb)
      · cases hb; exact le_refl _
  patch := fun a s => by
    refine ⟨by simp [emitAt], fun h b hb => ?_⟩
    simp only [emitAt, List.length_set, getCurrentAddress] at hb ⊢
    rcases hb with hb | hb
    · rcases mem_set_cases hb with hb | hb
      · exact h b (Or.inl hb)
      · cases hb; exact le_refl _
    · rcases mem_set_cases hb with hb | hb
      · exact h b (Or.inr hb)
      · cases hb
  jumpBack := fun s0 s h => by
    refine ⟨le_trans h.1 (by simp [emit]), fun h0 a ha => ?_⟩
    have hs := h.2 h0
    simp only [emit, List.mem_append, List.mem_singleton, List.length_append,
      List.length_singleton, getCurrentAddress] at ha ⊢
    rcases ha with (ha | ha) | (ha | ha)
    · exact le_trans (hs a (Or.inl ha)) (Nat.le_succ _)
    · cases ha; exact le_trans h.1 (Nat.le_succ _)
    · exact le_trans (hs a (Or.inr ha)) (Nat.le_succ _)
    · cases ha

theorem program_jumps_lt (n : Nat) (s s' : PState) (h : program n s = .ok s')
    (h0 : JumpsBounded s.code s.code.length) :
    ∀ a, (Instr.JUMP a ∈ s'.code ∨ Instr.JUMP_NO a ∈ s'.code) → a < s'.code.length := by
  simp only [program, bind_ok, pure_ok] at h
  obtain ⟨s1, h1, rfl⟩ := h
  have r1 := closed_jumps.trans (closed_jumps.mustBe T_BEGIN s)
    (closed_jumps.trans ((closed_all closed_jumps n).1 _ _ h1) (closed_jumps.mustBe T_END s1))
  have hb := r1.2 h0
  intro a ha
  simp only [emit, List.mem_append, List.mem_singleton, List.length_append,
    List.length_singleton] at ha ⊢
  rcases ha with (ha | ha) | (ha | ha)
  · exact Nat.lt_succ_of_le (hb a (Or.inl ha))
  · cases ha
  · exact Nat.lt_succ_of_le (hb a (Or.inr ha))
  · cases ha

/-- C2: when `parse` ends with the error flag clear, the stream handed to `flush`
is the final buffer, and every `JUMP` and `JUMP_NO` in it has an operand smaller
than the length of that stream. -/
theorem c2_jump_operands_within_stream (input : List Lexeme) (s : PState)
    (h : parse input = .ok s) (herr : s.error = false) :
    s.flushed = [s.code] ∧
    ∀ a, (Instr.JUMP a ∈ s.code ∨ Instr.JUMP_NO a ∈ s.code) → a < s.code.length := by
  simp only [parse, bind_ok] at h
  obtain ⟨sp, hp, h⟩ := h
  have hj := program_jumps_lt _ _ _ hp (by intro a ha; simp [PState.init] at ha)
  have hf : sp.flushed = [] := program_closed closed_flushed _ _ _ hp
  split at h
  · simp only [pure_ok] at h
    subst h
    exact ⟨by simp [flush, hf], hj⟩
  · next hne =>
    simp only [pure_ok] at h
    subst h
    simp [herr] at hne

/-- Witness for C2 on the `while` program of the specification. -/
theorem c2_jump_operands_within_stream_witness :
    whileFinal.flushed = [whileFinal.code] ∧
    ∀ a, (Instr.JUMP a ∈ whileFinal.code ∨ Instr.JUMP_NO a ∈ whileFinal.code) →
      a < whileFinal.code.length :=
  c2_jump_operands_within_stream whileProgram whileFinal rfl rfl

/-! ## Failure is persistent and suppresses `flush` -/

/-- C6: a `statement` call on a token that starts no statement, a `factor` call on a
token that starts no factor, and a `relation` call that finds no comparison operator
after its first expression each end in `reportError`, which sets the error flag;
the flag survives every procedure, and when `parse` ends with any diagnostic
reported the flag is set and `flush` was not called. -/
theorem c6_each_error_kind_is_persistent (input : List Lexeme) :
    ∃ s, parse input = .ok s ∧
      (s.diags ≠ [] → s.error = true ∧ s.flushed = []) ∧
      (∀ n s0, see T_IDENTIFIER s0 = false → see T_IF s0 = false → see T_WHILE s0 = false →
        see T_FOR s0 = false → see T_WRITE s0 = false →
        statement (n + 1) s0 = .ok (reportError (.text "statement expected.") s0)) ∧
      (∀ n s0, see T_NUMBER s0 = false → see T_IDENTIFIER s0 = false →
        token s0 ≠ .addop A_MINUS → see T_LPAREN s0 = false → see T_READ s0 = false →
        factor (n + 1) s0 = .ok (reportError (.text "expression expected.") s0)) ∧
      (∀ n s0 s1, expression n s0 = .ok s1 → see T_CMP s1 = false →
        relation (n + 1) s0 = .ok (reportError (.text "comparison operator expected.") s1)) ∧
      (∀ d s0, (reportError d s0).error = true ∧ d ∈ (reportError d s0).diags) ∧
      (∀ f ∈ procedures, ∀ n s0 s1, f n s0 = .ok s1 →
        (s0.error = true → s1.error = true) ∧ ∀ d ∈ s0.diags, d ∈ s1.diags) := by
  obtain ⟨sp, s, hp, hs, hf, hd, h1, h2⟩ := parse_outcome input
  refine ⟨s, hs, ?_, ?_, ?_, ?_, ?_, ?_⟩
  · intro hne
    rcases Bool.eq_false_or_eq_true sp.error with he | he
    · have := h2 he
      subst this
      exact ⟨he, hf⟩
    · have := h1 he
      subst this
      rw [hd (by simpa [flush] using hne)] at he
      cases he
  · intro n s0 a b c d e
    simp [statement, match_, a, b, c, d, e, pure_eq_ok]
  · intro n s0 a b c d e
    have hm : seeMinus s0 = .ok false := by
      unfold seeMinus
      split
      · next hsee =>
        unfold see at hsee
        unfold getArithmeticValue
        generalize token s0 = l at hsee c
        cases l <;> simp [Lexeme.tag] at hsee c ⊢
        simp [ok_bind, pure_eq_ok, c]
      · rfl
    simp [factor, match_, a, b, hm, ok_bind, d, e, pure_eq_ok]
  · intro n s0 s1 he hc
    simp [relation, he, ok_bind, hc, pure_eq_ok]
  · intro d s0
    simp [reportError]
  · intro f hf n s0 s1 h
    exact ⟨procedures_closed closed_error f hf n s0 s1 h,
      procedures_closed closed_diags f hf n s0 s1 h⟩

/-- Witness for C6: on the input with the missing `then` the diagnostic of the
`statement` error site is present at the end, the flag is set and nothing is flushed. -/
theorem c6_each_error_kind_is_persistent_witness :
    Diag.text "statement expected." ∈ missingThenFinal.diags ∧
    missingThenFinal.error = true ∧ missingThenFinal.flushed = [] := by
  obtain ⟨s, hs, h1, -⟩ := c6_each_error_kind_is_persistent missingThenProgram
  have e : parse missingThenProgram = .ok missingThenFinal := rfl
  rw [e] at hs
  cases hs
  exact ⟨by decide, h1 (by decide)⟩

/-! ## Variable addressing -/

theorem findVar_none_iff (x : String) (l : List (String × Nat)) :
    findVar x l = none ↔ x ∉ l.map Prod.fst := by
  induction l with
  | nil => simp [findVar]
  | cons p l ih =>
    obtain ⟨k, v⟩ := p
    simp only [findVar, List.map_cons, List.mem_cons, not_or]
    split
    · next h => simp [h]
    · next h => simp [ih, Ne.symm h]

theorem findVar_append_of_some {x : String} {a : Nat} {l : List (String × Nat)}
    (l' : List (String × Nat)) (h : findVar x l = some a) : findVar x (l ++ l') = some a := by
  induction l with
  | nil => simp [findVar] at h
  | cons p l ih =>
    obtain ⟨k, v⟩ := p
    simp only [findVar, List.cons_append] at h ⊢
    split
    · next hk => simpa [hk] using h
    · next hk => simp only [hk, if_false] at h; exact ih h

theorem findVar_append_of_none {x : String} {l : List (String × Nat)}
    (l' : List (String × Nat)) (h : findVar x l = none) :
    findVar x (l ++ l') = findVar x l' := by
  induction l with
  | nil => rfl
  | cons p l ih =>
    obtain ⟨k, v⟩ := p
    simp only [findVar, List.cons_append] at h ⊢
    split
    · next hk => simp [hk] at h
    · next hk => simp only [hk, if_false] at h; exact ih h

theorem firstSeen_append (l : List String) (x : String) :
    firstSeen (l ++ [x]) = if x ∈ firstSeen l then firstSeen l else firstSeen l ++ [x] := by
  simp [firstSeen, List.foldl_append]

/-- The call `findOrAddVariable x` logs `x` with the address it returns. -/
theorem findOrAddVariable_lookups (x : String) (s : PState) :
    (findOrAddVariable x s).2.lookups = s.lookups ++ [(x, (findOrAddVariable x s).1)] := by
  unfold findOrAddVariable; split <;> rfl

theorem findOrAddVariable_varInv (x : String) (s : PState) (h : VarInv s) :
    VarInv (findOrAddVariable x s).2 := by
  obtain ⟨h1, h2, h3, h4⟩ := h
  unfold findOrAddVariable
  cases hf : findVar x s.vars with
  | none =>
    have hx : x ∉ s.vars.map Prod.fst := (findVar_none_iff x s.vars).1 hf
    refine ⟨?_, ?_, ?_, ?_⟩
    · simp only [List.map_append, List.map_cons, List.map_nil, firstSeen_append]
      rw [← h1, if_neg hx]
    · simp only [List.map_append, List.map_cons, List.map_nil]
      exact List.Nodup.append h2 (List.nodup_singleton x) (by simpa using hx)
    · simp only [List.map_append, List.map_cons, List.map_nil, List.range_succ, h3]
    · intro y a hy
      simp only [List.mem_append, List.mem_singleton, Prod.mk.injEq] at hy
      rcases hy with hy | ⟨rfl, rfl⟩
      · exact findVar_append_of_some _ (h4 y a hy)
      · rw [findVar_append_of_none _ hf]; simp [findVar]
  | some a =>
    have hx : x ∈ s.vars.map Prod.fst := by
      by_contra hc
      rw [(findVar_none_iff x s.vars).2 hc] at hf
      cases hf
    refine ⟨?_, h2, h3, ?_⟩
    · simp only [List.map_append, List.map_cons, List.map_nil, firstSeen_append]
      rw [← h1, if_pos hx]
    · intro y b hy
      simp only [List.mem_append, List.mem_singleton, Prod.mk.injEq] at hy
      rcases hy with hy | ⟨rfl, rfl⟩
      · exact h4 y b hy
      · exact hf

/-- The shape of the variable table is kept by every step. -/
theorem closed_varInv : Closed (fun s s' => VarInv s → VarInv s') where
  refl := fun _ => id
  trans := fun h1 h2 h => h2 (h1 h)
  next := fun s h => by
    unfold VarInv at h ⊢
    simpa using h
  mustBe := fun t s h => by
    unfold VarInv at h ⊢
    simpa using h
  report := fun _ _ h => h
  lookup := findOrAddVariable_varInv
  emit := fun _ _ _ _ h => h
  reserve := fun _ h => h
  patchNo := fun _ _ h => h
  patch := fun _ _ h => h
  jumpBack := fun _ _ h => h

/-- Logged lookups are never withdrawn. -/
theorem closed_lookups : Closed (fun s s' => ∀ p, p ∈ s.lookups → p ∈ s'.lookups) where
  refl := fun _ _ h => h
  trans := fun h1 h2 p h => h2 p (h1 p h)
  next := fun s p h => by rw [next_lookups]; exact h
  mustBe := fun t s p h => by rw [mustBe_lookups]; exact h
  report := fun _ _ _ h => h
  lookup := fun x s p h => by
    rw [findOrAddVariable_lookups]; exact List.mem_append_left _ h
  emit := fun _ _ _ _ _ h => h
  reserve := fun _ _ h => h
  patchNo := fun _ _ _ h => h
  patch := fun _ _ _ h => h
  jumpBack := fun _ _ h => h

theorem loadStoreLooked_emit_other {s : PState} {i : Instr} (h : LoadStoreLooked s)
    (h1 : ∀ a, i ≠ .LOAD a) (h2 : ∀ a, i ≠ .STORE a) : LoadStoreLooked (emit i s) := by
  intro a ha
  simp only [emit, List.mem_append, List.mem_singleton] at ha
  rcases ha with (ha | ha) | (ha | ha)
  · exact h a (Or.inl ha)
  · exact absurd ha.symm (h1 a)
  · exact h a (Or.inr ha)
  · exact absurd ha.symm (h2 a)

theorem loadStoreLooked_emitAt {s : PState} {i : Instr} (k : Nat) (h : LoadStoreLooked s)
    (h1 : ∀ a, i ≠ .LOAD a) (h2 : ∀ a, i ≠ .STORE a) : LoadStoreLooked (emitAt k i s) := by
  intro a ha
  simp only [emitAt] at ha
  rcases ha with ha | ha
  · rcases mem_set_cases ha with ha | ha
    · exact h a (Or.inl ha)
    · exact absurd ha.symm (h1 a)
  · rcases mem_set_cases ha with ha | ha
    · exact h a (Or.inr ha)
    · exact absurd ha.symm (h2 a)

theorem loadStoreLooked_emit_var {s : PState} {i : Instr} {a : Nat} {x : String}
    (h : LoadStoreLooked s) (hx : (x, a) ∈ s.lookups) (hi : i = .LOAD a ∨ i = .STORE a) :
    LoadStoreLooked (emit i s) := by
  intro b hb
  simp only [emit, List.mem_append, List.mem_singleton] at hb
  rcases hb with (hb | hb) | (hb | hb)
  · exact h b (Or.inl hb)
  · rcases hi with rfl | rfl
    · cases hb; exact ⟨x, hx⟩
    · cases hb
  · exact h b (Or.inr hb)
  · rcases hi with rfl | rfl
    · cases hb
    · cases hb; exact ⟨x, hx⟩

/-- Lookups persist, and every `LOAD`/`STORE` operand stems from a logged lookup. -/
theorem closed_loadStore : ClosedVar (fun s s' =>
    (∀ p, p ∈ s.lookups → p ∈ s'.lookups) ∧ (LoadStoreLooked s → LoadStoreLooked s')) where
  refl := fun _ => ⟨fun _ h => h, id⟩
  trans := fun h1 h2 => ⟨fun p h => h2.1 p (h1.1 p h), fun h => h2.2 (h1.2 h)⟩
  next := fun s => ⟨closed_lookups.next s, fun h => by
    unfold LoadStoreLooked at h ⊢; simpa using h⟩
  mustBe := fun t s => ⟨closed_lookups.mustBe t s, fun h => by
    unfold LoadStoreLooked at h ⊢; simpa using h⟩
  report := fun _ _ => ⟨fun _ h => h, id⟩
  lookup := fun x s => ⟨closed_lookups.lookup x s, fun h a ha => by
    rw [findOrAddVariable_code] at ha
    obtain ⟨y, hy⟩ := h a ha
    exact ⟨y, closed_lookups.lookup x s _ hy⟩⟩
  emit := fun i s _ _ h3 h4 => ⟨fun _ h => h, fun h => loadStoreLooked_emit_other h h3 h4⟩
  load := fun x s0 s r => ⟨fun p h => r.1 p (closed_lookups.lookup x s0 p h), fun h => by
    have h1 : LoadStoreLooked (findOrAddVariable x s0).2 := by
      intro a ha
      rw [findOrAddVariable_code] at ha
      obtain ⟨y, hy⟩ := h a ha
      exact ⟨y, closed_lookups.lookup x s0 _ hy⟩
    exact loadStoreLooked_emit_var (x := x) (r.2 h1)
      (r.1 _ (by rw [findOrAddVariable_lookups]; simp)) (Or.inl rfl)⟩
  store := fun x s0 s r => ⟨fun p h => r.1 p (closed_lookups.lookup x s0 p h), fun h => by
    have h1 : LoadStoreLooked (findOrAddVariable x s0).2 := by
      intro a ha
      rw [findOrAddVariable_code] at ha
      obtain ⟨y, hy⟩ := h a ha
      exact ⟨y, closed_lookups.lookup x s0 _ hy⟩
    exact loadStoreLooked_emit_var (x := x) (r.2 h1)
      (r.1 _ (by rw [findOrAddVariable_lookups]; simp)) (Or.inr rfl)⟩
  storeJump := fun x s0 s2 s3 r2 r3 =>
    ⟨fun p h => r3.1 p (r2.1 p (closed_lookups.lookup x s0 p h)), fun h => by
      have h1 : LoadStoreLooked (findOrAddVariable x s0).2 := by
        intro a ha
        rw [findOrAddVariable_code] at ha
        obtain ⟨y, hy⟩ := h a ha
        exact ⟨y, closed_lookups.lookup x s0 _ hy⟩
      have h2 := loadStoreLooked_emit_var (x := x) (i := .STORE (findOrAddVariable x s0).1)
        (r2.2 h1) (r2.1 _ (by rw [findOrAddVariable_lookups]; simp)) (Or.inr rfl)
      exact loadStoreLooked_emit_other (r3.2 h2) (by simp) (by simp)⟩
  reserve := fun s => ⟨fun _ h => h, fun h => by
    have := loadStoreLooked_emit_other (i := .NOP) h (by simp) (by simp)
    intro a ha
    exact this a ha⟩
  patchNo := fun a s => ⟨fun _ h => h, fun h =>
    loadStoreLooked_emitAt a h (by simp) (by simp)⟩
  patch := fun a s => ⟨fun _ h => h, fun h =>
    loadStoreLooked_emitAt a h (by simp) (by simp)⟩
  jumpBack := fun s0 s r => ⟨r.1, fun h =>
    loadStoreLooked_emit_other (r.2 h) (by simp) (by simp)⟩

/-- C3 as stated fails: on `begin a b := 1 ; c := b ; d e := 2 end` the identifier
`e` occurs in the input but has no address after `parse`, and `b`, whose first
occurrence precedes that of `c`, has the larger address. -/
theorem c3_skipped_identifier_counterexample :
    parse skippedIdentProgram = .ok skippedIdentFinal ∧
    Lexeme.identifier "e" ∈ skippedIdentProgram ∧
    findVar "e" skippedIdentFinal.vars = none ∧
    skippedIdentProgram.indexOf (Lexeme.identifier "b") <
      skippedIdentProgram.indexOf (Lexeme.identifier "c") ∧
    findVar "b" skippedIdentFinal.vars = some 2 ∧
    findVar "c" skippedIdentFinal.vars = some 1 := by
  refine ⟨rfl, by decide, rfl, by decide, rfl, rfl⟩

/-! ## The procedures on derivations of the grammar -/

theorem Extends.refl (v : List (String × Nat)) : Extends v v := fun _ _ h => h

theorem Extends.trans {a b c : List (String × Nat)} (h1 : Extends a b) (h2 : Extends b c) :
    Extends a c := fun x n h => h2 x n (h1 x n h)

theorem findOrAddVariable_extends (x : String) (s : PState) :
    Extends s.vars (findOrAddVariable x s).2.vars := by
  intro y a h
  unfold findOrAddVariable
  split
  · exact findVar_append_of_some _ h
  · exact h

theorem findOrAddVariable_findVar (x : String) (s : PState) :
    findVar x (findOrAddVariable x s).2.vars = some (findOrAddVariable x s).1 := by
  unfold findOrAddVariable
  split
  · next hn => simp only []; rw [findVar_append_of_none _ hn]; simp [findVar]
  · next a ha => exact ha

theorem token_cons {s : PState} {l : Lexeme} {rest : List Lexeme} (h : s.toks = l :: rest) :
    token s = l := by
  simp [token, h]

theorem see_cons {s : PState} {l : Lexeme} {rest : List Lexeme} (h : s.toks = l :: rest)
    (t : Token) : see t s = (l.tag == t) := by
  simp [see, token, h]

theorem next_cons {s : PState} {l : Lexeme} {rest : List Lexeme} (h : s.toks = l :: rest)
    (hl : l.tag ≠ T_EOF) : (next s).toks = rest := by
  simp [next, h, hl]

theorem Emits.compose {s s1 s2 : PState} {r1 r2 : List Lexeme}
    {c1 c2 c : (String → Nat) → List Instr}
    (h1 : Emits s r1 c1 s1) (h2 : Emits s1 r2 c2 s2)
    (hc : ∀ v, Extends s2.vars v → c (addrOf v) = c1 (addrOf v) ++ c2 (addrOf v)) :
    Emits s r2 c s2 := by
  obtain ⟨-, e1, d1, x1, k1⟩ := h1
  obtain ⟨t2, e2, d2, x2, k2⟩ := h2
  refine ⟨t2, e2.trans e1, d2.trans d1, x1.trans x2, fun v hv => ?_⟩
  rw [k2 v hv, k1 v (x2.trans hv), hc v hv, List.append_assoc]

theorem Emits.seq {s s1 s2 : PState} {r1 r2 : List Lexeme}
    {c1 c2 : (String → Nat) → List Instr}
    (h1 : Emits s r1 c1 s1) (h2 : Emits s1 r2 c2 s2) :
    Emits s r2 (fun a => c1 a ++ c2 a) s2 :=
  h1.compose h2 (fun _ _ => rfl)

theorem Emits.next {s : PState} {l : Lexeme} {rest : List Lexeme} (h : s.toks = l :: rest)
    (hl : l.tag ≠ T_EOF) : Emits s rest (fun _ => []) (next s) :=
  ⟨next_cons h hl, next_error s, next_diags s, by rw [next_vars]; exact Extends.refl _,
    fun _ _ => by simp⟩

theorem Emits.emit (i : Instr) {s : PState} {rest : List Lexeme} (h : s.toks = rest) :
    Emits s rest (fun _ => [i]) (Milan.emit i s) :=
  ⟨h, rfl, rfl, Extends.refl _, fun _ _ => rfl⟩

theorem Emits.mustBe {s : PState} {l : Lexeme} {rest : List Lexeme} {t : Token}
    (h : s.toks = l :: rest) (hl : l.tag = t) (ht : t ≠ T_EOF) :
    Emits s rest (fun _ => []) (mustBe t s) := by
  have hs : see t s = true := by rw [see_cons h]; simp [hl]
  rw [mustBe_of_see hs]
  exact Emits.next h (by rw [hl]; exact ht)

theorem Emits.var {s s1 : PState} {x : String} {rest : List Lexeme}
    {c : (String → Nat) → List Instr}
    (h : Emits (findOrAddVariable x s).2 rest c s1) :
    Emits s rest (fun a => c a ++ [.LOAD (a x)])
      (Milan.emit (.LOAD (findOrAddVariable x s).1) s1) ∧
    Emits s rest (fun a => c a ++ [.STORE (a x)])
      (Milan.emit (.STORE (findOrAddVariable x s).1) s1) := by
  obtain ⟨t1, e1, d1, x1, k1⟩ := h
  have ha : ∀ v, Extends s1.vars v → addrOf v x = (findOrAddVariable x s).1 := by
    intro v hv
    unfold addrOf
    rw [hv x _ (x1 x _ (findOrAddVariable_findVar x s))]
    rfl
  constructor
  · refine ⟨t1, by simpa using e1, by simpa using d1,
      (findOrAddVariable_extends x s).trans x1, fun v hv => ?_⟩
    have := k1 v hv
    simp only [findOrAddVariable_code] at this
    simp only [Milan.emit, this, ha v hv, List.append_assoc]
  · refine ⟨t1, by simpa using e1, by simpa using d1,
      (findOrAddVariable_extends x s).trans x1, fun v hv => ?_⟩
    have := k1 v hv
    simp only [findOrAddVariable_code] at this
    simp only [Milan.emit, this, ha v hv, List.append_assoc]

theorem Emits.congr {s s' : PState} {rest : List Lexeme} {c c' : (String → Nat) → List Instr}
    (h : Emits s rest c s') (hc : ∀ v, Extends s'.vars v → c' (addrOf v) = c (addrOf v)) :
    Emits s rest c' s' := by
  obtain ⟨t1, e1, d1, x1, k1⟩ := h
  exact ⟨t1, e1, d1, x1, fun v hv => by rw [hc v hv]; exact k1 v hv⟩

theorem noMul_exprTail (tl : ExprTail) {rest : List Lexeme} (h : NoMul rest) :
    NoMul (tl.toks ++ rest) := by
  cases tl with
  | nil => simpa [ExprTail.toks] using h
  | cons op t tl => cases op <;> simp [ExprTail.toks, NoMul, AddOp.tok, Lexeme.tag]

mutual

theorem factor_sound : ∀ (f : Factor) (n : Nat) (s s' : PState) (rest : List Lexeme),
    s.toks = f.toks ++ rest → factor n s = .ok s' → Emits s rest f.code s'
  | _, 0, s, s', rest, _, h => by simp [factor] at h
  | .num v, n + 1, s, s', rest, ht, h => by
    simp only [Factor.toks, List.singleton_append] at ht
    simp [factor, see_cons ht, Lexeme.tag, getIntValue, token_cons ht, ok_bind,
      pure_eq_ok] at h
    subst h
    exact ((Emits.next ht (by simp [Lexeme.tag])).seq
      (Emits.emit _ (next_cons ht (by simp [Lexeme.tag])))).congr (fun _ _ => rfl)
  | .ident x, n + 1, s, s', rest, ht, h => by
    simp only [Factor.toks, List.singleton_append] at ht
    simp [factor, see_cons ht, Lexeme.tag, getStringValue, token_cons ht, ok_bind,
      pure_eq_ok] at h
    subst h
    have ht' : (findOrAddVariable x s).2.toks = .identifier x :: rest := by simpa using ht
    exact (Emits.var (Emits.next ht' (by simp [Lexeme.tag]))).1.congr (fun _ _ => rfl)
  | .neg f, n + 1, s, s', rest, ht, h => by
    simp only [Factor.toks, List.cons_append] at ht
    simp [factor, see_cons ht, Lexeme.tag, seeMinus, getArithmeticValue, token_cons ht,
      ok_bind, pure_eq_ok, bind_ok] at h
    obtain ⟨s1, h1, rfl⟩ := h
    have hn := Emits.next ht (by simp [Lexeme.tag])
    have hf := factor_sound f n (next s) s1 rest hn.1 h1
    exact ((hn.seq hf).seq (Emits.emit _ hf.1)).congr (fun _ _ => by simp [Factor.code])
  | .paren e, n + 1, s, s', rest, ht, h => by
    simp only [Factor.toks, List.cons_append, List.append_assoc, List.singleton_append,
      List.nil_append] at ht
    simp [factor, match_, see_cons ht, Lexeme.tag, seeMinus, ok_bind, pure_eq_ok,
      bind_ok] at h
    obtain ⟨s1, h1, rfl⟩ := h
    have hn := Emits.next ht (by simp [Lexeme.tag])
    have he := expression_sound e n (next s) s1 (.rparen :: rest) hn.1
      (by simp [NoAdd, Lexeme.tag]) (by simp [NoMul, Lexeme.tag]) h1
    exact ((hn.seq he).seq (Emits.mustBe he.1 (by simp [Lexeme.tag]) (by decide))).congr
      (fun _ _ => by simp [Factor.code])
  | .read, n + 1, s, s', rest, ht, h => by
    simp only [Factor.toks, List.singleton_append] at ht
    simp [factor, match_, see_cons ht, Lexeme.tag, seeMinus, ok_bind, pure_eq_ok] at h
    subst h
    exact ((Emits.next ht (by simp [Lexeme.tag])).seq
      (Emits.emit _ (next_cons ht (by simp [Lexeme.tag])))).congr (fun _ _ => rfl)

theorem termLoop_sound : ∀ (tl : TermTail) (n : Nat) (s s' : PState) (rest : List Lexeme),
    s.toks = tl.toks ++ rest → NoMul rest → termLoop n s = .ok s' → Emits s rest tl.code s'
  | _, 0, s, s', rest, _, _, h => by simp [termLoop] at h
  | .nil, n + 1, s, s', rest, ht, hm, h => by
    simp only [TermTail.toks, List.nil_append] at ht
    have hs : see T_MULOP s = false := by
      simp only [see, token, ht]
      simpa [NoMul] using hm
    simp [termLoop, hs, pure_eq_ok] at h
    subst h
    exact ⟨ht, rfl, rfl, Extends.refl _, fun _ _ => by simp [TermTail.code]⟩
  | .cons op f tl, n + 1, s, s', rest, ht, hm, h => by
    simp only [TermTail.toks, List.cons_append, List.append_assoc] at ht
    have hs : see T_MULOP s = true := by
      rw [see_cons ht]; cases op <;> simp [MulOp.tok, Lexeme.tag]
    have hg : getArithmeticValue s = .ok op.arith := by
      unfold getArithmeticValue; rw [token_cons ht]; rfl
    simp only [termLoop, hs, if_true, hg, ok_bind, bind_ok] at h
    obtain ⟨s1, h1, h⟩ := h
    have hn := Emits.next ht (by cases op <;> simp [MulOp.tok, Lexeme.tag])
    have hf := factor_sound f n (next s) s1 (tl.toks ++ rest) hn.1 h1
    have he : Emits s1 (tl.toks ++ rest) (fun _ => [op.instr])
        (if op.arith = A_MULTIPLY then emit .MULT s1 else emit .DIV s1) := by
      cases op
      · simpa [MulOp.instr, MulOp.arith] using Emits.emit .MULT hf.1
      · simpa [MulOp.instr, MulOp.arith] using Emits.emit .DIV hf.1
    have hl := termLoop_sound tl n _ s' rest he.1 hm h
    exact (((hn.seq hf).seq he).seq hl).congr (fun _ _ => by simp [TermTail.code])

theorem term_sound : ∀ (t : Term) (n : Nat) (s s' : PState) (rest : List Lexeme),
    s.toks = t.toks ++ rest → NoMul rest → term n s = .ok s' → Emits s rest t.code s'
  | _, 0, s, s', rest, _, _, h => by simp [term] at h
  | .mk f tl, n + 1, s, s', rest, ht, hm, h => by
    simp only [Term.toks, List.append_assoc] at ht
    simp only [term, bind_ok] at h
    obtain ⟨s1, h1, h⟩ := h
    have hf := factor_sound f n s s1 (tl.toks ++ rest) ht h1
    have hl := termLoop_sound tl n s1 s' rest hf.1 hm h
    exact (hf.seq hl).congr (fun _ _ => by simp [Term.code])

theorem expressionLoop_sound : ∀ (tl : ExprTail) (n : Nat) (s s' : PState)
    (rest : List Lexeme), s.toks = tl.toks ++ rest → NoAdd rest → NoMul rest →
    expressionLoop n s = .ok s' → Emits s rest tl.code s'
  | _, 0, s, s', rest, _, _, _, h => by simp [expressionLoop] at h
  | .nil, n + 1, s, s', rest, ht, ha, _, h => by
    simp only [ExprTail.toks, List.nil_append] at ht
    have hs : see T_ADDOP s = false := by
      simp only [see, token, ht]
      simpa [NoAdd] using ha
    simp [expressionLoop, hs, pure_eq_ok] at h
    subst h
    exact ⟨ht, rfl, rfl, Extends.refl _, fun _ _ => by simp [ExprTail.code]⟩
  | .cons op t tl, n + 1, s, s', rest, ht, ha, hm, h => by
    simp only [ExprTail.toks, List.cons_append, List.append_assoc] at ht
    have hs : see T_ADDOP s = true := by
      rw [see_cons ht]; cases op <;> simp [AddOp.tok, Lexeme.tag]
    have hg : getArithmeticValue s = .ok op.arith := by
      unfold getArithmeticValue; rw [token_cons ht]; rfl
    simp only [expressionLoop, hs, if_true, hg, ok_bind, bind_ok] at h
    obtain ⟨s1, h1, h⟩ := h
    have hn := Emits.next ht (by cases op <;> simp [AddOp.tok, Lexeme.tag])
    have hf := term_sound t n (next s) s1 (tl.toks ++ rest) hn.1 (noMul_exprTail tl hm) h1
    have he : Emits s1 (tl.toks ++ rest) (fun _ => [op.instr])
        (if op.arith = A_PLUS then emit .ADD s1 else emit .SUB s1) := by
      cases op
      · simpa [AddOp.instr, AddOp.arith] using Emits.emit .ADD hf.1
      · simpa [AddOp.instr, AddOp.arith] using Emits.emit .SUB hf.1
    have hl := expressionLoop_sound tl n _ s' rest he.1 ha hm h
    exact (((hn.seq hf).seq he).seq hl).congr (fun _ _ => by simp [ExprTail.code])

theorem expression_sound : ∀ (e : Expr) (n : Nat) (s s' : PState) (rest : List Lexeme),
    s.toks = e.toks ++ rest → NoAdd rest → NoMul rest → expression n s = .ok s' →
    Emits s rest e.code s'
  | _, 0, s, s', rest, _, _, _, h => by simp [expression] at h
  | .mk t tl, n + 1, s, s', rest, ht, ha, hm, h => by
    simp only [Expr.toks, List.append_assoc] at ht
    simp only [expression, bind_ok] at h
    obtain ⟨s1, h1, h⟩ := h
    have hf := term_sound t n s s1 (tl.toks ++ rest) ht (noMul_exprTail tl hm) h1
    have hl := expressionLoop_sound tl n s1 s' rest hf.1 ha hm h
    exact (hf.seq hl).congr (fun _ _ => by simp [Expr.code])

end

theorem Emits.reserve {s : PState} {rest : List Lexeme} (h : s.toks = rest) :
    Emits s rest (fun _ => [.NOP]) (Milan.reserve s).2 :=
  ⟨h, rfl, rfl, Extends.refl _, fun _ _ => rfl⟩

theorem Emits.length {s s' : PState} {rest : List Lexeme} {c : (String → Nat) → List Instr}
    (h : Emits s rest c s') (v : List (String × Nat)) (hv : Extends s'.vars v) :
    s'.code.length = s.code.length + (c (addrOf v)).length := by
  rw [h.2.2.2.2 v hv, List.length_append]

theorem set_mid (pre ext : List Instr) (i j : Instr) :
    (pre ++ (i :: ext)).set pre.length j = pre ++ (j :: ext) := by
  induction pre with
  | nil => rfl
  | cons p pre ih => simp [List.set, ih]

/-- Patching the slot reserved right after `c1` turns the placeholder into the jump
whose operand is the current end of the buffer. -/
theorem Emits.patched {s s2 : PState} {rest : List Lexeme}
    {c1 c2 : (String → Nat) → List Instr} (k : Nat) (mk : Nat → Instr)
    (h : Emits s rest (fun a => c1 a ++ [.NOP] ++ c2 a) s2)
    (hk : ∀ v, Extends s2.vars v → k = s.code.length + (c1 (addrOf v)).length) :
    Emits s rest
      (fun a => c1 a ++ [mk (s.code.length + (c1 a).length + 1 + (c2 a).length)] ++ c2 a)
      (emitAt k (mk (getCurrentAddress s2)) s2) := by
  obtain ⟨t1, e1, d1, x1, k1⟩ := h
  refine ⟨t1, e1, d1, x1, fun v hv => ?_⟩
  have hv' : Extends s2.vars v := hv
  have hc := k1 v hv'
  have hl : getCurrentAddress s2 =
      s.code.length + (c1 (addrOf v)).length + 1 + (c2 (addrOf v)).length := by
    simp only [getCurrentAddress, hc, List.length_append, List.length_singleton]
    omega
  have hk' : k = (s.code ++ c1 (addrOf v)).length := by
    rw [List.length_append]; exact hk v hv'
  simp only [emitAt, hl, hc, hk']
  rw [show s.code ++ (c1 (addrOf v) ++ [Instr.NOP] ++ c2 (addrOf v)) =
    (s.code ++ c1 (addrOf v)) ++ (Instr.NOP :: c2 (addrOf v)) by simp]
  rw [set_mid]
  simp

theorem match_cons_eq {s : PState} {l : Lexeme} {rest : List Lexeme} {t : Token}
    (h : s.toks = l :: rest) (hl : l.tag = t) : match_ t s = (true, next s) := by
  simp [match_, see_cons h, hl]

theorem match_cons_ne {s : PState} {l : Lexeme} {rest : List Lexeme} {t : Token}
    (h : s.toks = l :: rest) (hl : l.tag ≠ t) : match_ t s = (false, s) := by
  simp [match_, see_cons h, hl]

theorem relation_sound (r : Rel) (n : Nat) (s s' : PState) (rest : List Lexeme)
    (ht : s.toks = r.toks ++ rest) (ha : NoAdd rest) (hm : NoMul rest)
    (h : relation n s = .ok s') : Emits s rest r.code s' := by
  cases n with
  | zero => simp [relation] at h
  | succ n =>
    simp only [Rel.toks, List.append_assoc, List.cons_append] at ht
    simp only [relation, bind_ok] at h
    obtain ⟨s1, h1, h⟩ := h
    have he1 := expression_sound r.lhs n s s1 _ ht (by simp [NoAdd, Lexeme.tag])
      (by simp [NoMul, Lexeme.tag]) h1
    have hs : see T_CMP s1 = true := by rw [see_cons he1.1]; rfl
    have hg : getCmpValue s1 = .ok r.op := by
      unfold getCmpValue; rw [token_cons he1.1]
    simp only [hs, if_true, hg, ok_bind, bind_ok, pure_ok] at h
    obtain ⟨s2, h2, rfl⟩ := h
    have hn := Emits.next he1.1 (by simp [Lexeme.tag])
    have he2 := expression_sound r.rhs n (next s1) s2 rest hn.1 ha hm h2
    exact (((he1.seq hn).seq he2).seq (Emits.emit _ he2.1)).congr
      (fun _ _ => by simp [Rel.code])

theorem noAdd_moreToks (es : List Expr) {rest : List Lexeme} (h : NoAdd rest) :
    NoAdd (moreToks es ++ rest) := by
  cases es with
  | nil => simpa [moreToks] using h
  | cons e es => simp [moreToks, NoAdd, Lexeme.tag]

theorem noMul_moreToks (es : List Expr) {rest : List Lexeme} (h : NoMul rest) :
    NoMul (moreToks es ++ rest) := by
  cases es with
  | nil => simpa [moreToks] using h
  | cons e es => simp [moreToks, NoMul, Lexeme.tag]

theorem forLoop_sound (es : List Expr) : ∀ (n : Nat) (s s' : PState) (rest : List Lexeme),
    s.toks = moreToks es ++ rest → (rest.headD .eof).tag ≠ T_COMMA → NoAdd rest →
    NoMul rest → forLoop n s = .ok s' → Emits s rest (fun a => moreCode a es) s' := by
  induction es with
  | nil =>
    intro n s s' rest ht hc _ _ h
    cases n with
    | zero => simp [forLoop] at h
    | succ n =>
      simp only [moreToks, List.nil_append] at ht
      have hs : match_ T_COMMA s = (false, s) := by
        have : see T_COMMA s = false := by
          simp only [see, token, ht]
          simpa using hc
        simp [match_, this]
      simp [forLoop, hs, pure_eq_ok] at h
      subst h
      exact ⟨ht, rfl, rfl, Extends.refl _, fun _ _ => by simp [moreCode]⟩
  | cons e es ih =>
    intro n s s' rest ht hc ha hm h
    cases n with
    | zero => simp [forLoop] at h
    | succ n =>
      simp only [moreToks, List.cons_append, List.append_assoc] at ht
      simp [forLoop, match_cons_eq (t := T_COMMA) ht rfl, bind_ok] at h
      obtain ⟨s1, h1, h⟩ := h
      have hn := Emits.next ht (by simp [Lexeme.tag])
      have he := expression_sound e n (next s) s1 _ hn.1 (noAdd_moreToks es ha)
        (noMul_moreToks es hm) h1
      have hl := ih n s1 s' rest he.1 hc ha hm h
      exact ((hn.seq he).seq hl).congr (fun _ _ => by simp [moreCode])

/-- Every statement starts with a token that occurs in no other role. -/
theorem stmt_head (st : Stmt) : ∃ l tl, st.toks = l :: tl ∧
    (l.tag = T_IDENTIFIER ∨ l.tag = T_IF ∨ l.tag = T_WHILE ∨ l.tag = T_FOR ∨
      l.tag = T_WRITE) := by
  cases st with
  | assign x e => exact ⟨_, _, rfl, Or.inl rfl⟩
  | ifThen r b => exact ⟨_, _, rfl, Or.inr (Or.inl rfl)⟩
  | ifThenElse r b1 b2 => exact ⟨_, _, rfl, Or.inr (Or.inl rfl)⟩
  | while_ r b => exact ⟨_, _, rfl, Or.inr (Or.inr (Or.inl rfl))⟩
  | for_ x e m b => exact ⟨_, _, rfl, Or.inr (Or.inr (Or.inr (Or.inl rfl)))⟩
  | write e => exact ⟨_, _, rfl, Or.inr (Or.inr (Or.inr (Or.inr rfl)))⟩

theorem closer_follow {rest : List Lexeme} (h : Closer rest) (st : Stmt) :
    st.follow rest ∧ (rest.headD .eof).tag ≠ T_SEMICOLON := by
  have h1 : NoAdd rest ∧ NoMul rest ∧ (rest.headD .eof).tag ≠ T_SEMICOLON := by
    unfold NoAdd NoMul
    rcases h with h | h | h | h <;> rw [h] <;> decide
  refine ⟨?_, h1.2.2⟩
  cases st <;> simp [Stmt.follow, h1.1, h1.2.1]

theorem semicolon_follow (tl : List Lexeme) (st : Stmt) :
    st.follow (.semicolon :: tl) := by
  cases st <;> simp [Stmt.follow, NoAdd, NoMul, Lexeme.tag]

@[simp] theorem reserve_code (s : PState) : (reserve s).2.code = s.code ++ [.NOP] := rfl
@[simp] theorem reserve_fst (s : PState) : (reserve s).1 = s.code.length := rfl
@[simp] theorem reserve_vars (s : PState) : (reserve s).2.vars = s.vars := rfl
@[simp] theorem emit_code (i : Instr) (s : PState) : (emit i s).code = s.code ++ [i] := rfl
@[simp] theorem emit_vars (i : Instr) (s : PState) : (emit i s).vars = s.vars := rfl
@[simp] theorem emitAt_vars (k : Nat) (i : Instr) (s : PState) :
    (emitAt k i s).vars = s.vars := rfl

theorem assign_case (x : String) (e : Expr) (n : Nat) (s s' : PState) (rest : List Lexeme)
    (ht : s.toks = (Stmt.assign x e).toks ++ rest) (hf : (Stmt.assign x e).follow rest)
    (h : statement (n + 1) s = .ok s') :
    Emits s rest (fun a => (Stmt.assign x e).code a s.code.length) s' := by
  simp only [Stmt.toks, List.cons_append] at ht
  have hsee : see T_IDENTIFIER s = true := by rw [see_cons ht]; rfl
  have hg : getStringValue s = .ok x := by unfold getStringValue; rw [token_cons ht]
  simp only [statement, hsee, if_true, hg, ok_bind, bind_ok, pure_ok] at h
  obtain ⟨s1, h1, rfl⟩ := h
  have ht' : (findOrAddVariable x s).2.toks =
      .identifier x :: .assign :: (e.toks ++ rest) := by simpa using ht
  have hn := Emits.next ht' (by simp [Lexeme.tag])
  have hm := Emits.mustBe (t := T_ASSIGN) hn.1 rfl (by decide)
  have he := expression_sound e n _ s1 rest hm.1 hf.1 hf.2 h1
  exact (Emits.var ((hn.seq hm).seq he)).2.congr (fun _ _ => by simp [Stmt.code])

theorem write_case (e : Expr) (n : Nat) (s s' : PState) (rest : List Lexeme)
    (ht : s.toks = (Stmt.write e).toks ++ rest)
    (h : statement (n + 1) s = .ok s') :
    Emits s rest (fun a => (Stmt.write e).code a s.code.length) s' := by
  simp only [Stmt.toks, List.cons_append, List.append_assoc, List.nil_append] at ht
  have c1 : see T_IDENTIFIER s = false := by rw [see_cons ht]; rfl
  have m1 : match_ T_IF s = (false, s) := match_cons_ne ht (by decide)
  have m2 : match_ T_WHILE s = (false, s) := match_cons_ne ht (by decide)
  have m3 : match_ T_FOR s = (false, s) := match_cons_ne ht (by decide)
  have m4 : match_ T_WRITE s = (true, next s) := match_cons_eq ht rfl
  simp [statement, c1, m1, m2, m3, m4, bind_ok, pure_eq_ok] at h
  obtain ⟨s1, h1, rfl⟩ := h
  have hn := Emits.next ht (by simp [Lexeme.tag])
  have hm := Emits.mustBe (t := T_LPAREN) hn.1 rfl (by decide)
  have he := expression_sound e n _ s1 (.rparen :: rest) hm.1 (by simp [NoAdd, Lexeme.tag])
    (by simp [NoMul, Lexeme.tag]) h1
  have hr := Emits.mustBe (t := T_RPAREN) he.1 rfl (by decide)
  exact ((((hn.seq hm).seq he).seq hr).seq (Emits.emit _ hr.1)).congr
    (fun _ _ => by simp [Stmt.code])

theorem ifThen_case (r : Rel) (body : StmtList) (n : Nat) (ih : ListSound body n)
    (s s' : PState) (rest : List Lexeme)
    (ht : s.toks = (Stmt.ifThen r body).toks ++ rest)
    (h : statement (n + 1) s = .ok s') :
    Emits s rest (fun a => (Stmt.ifThen r body).code a s.code.length) s' := by
  simp only [Stmt.toks, List.cons_append, List.append_assoc, List.nil_append] at ht
  have c1 : see T_IDENTIFIER s = false := by rw [see_cons ht]; rfl
  have m1 : match_ T_IF s = (true, next s) := match_cons_eq ht rfl
  simp only [statement, c1, m1, if_true, bind_ok, Bool.false_eq_true, if_false] at h
  obtain ⟨s1, h1, s2, h2, h⟩ := h
  have hn := Emits.next ht (by simp [Lexeme.tag])
  have hr := relation_sound r n (next s) s1 _ hn.1 (by simp [NoAdd, Lexeme.tag])
    (by simp [NoMul, Lexeme.tag]) h1
  have hres := Emits.reserve hr.1
  have hmb := Emits.mustBe (t := T_THEN) hres.1 rfl (by decide)
  have hb := ih _ s2 (.kwFi :: rest) hmb.1 (by simp [Closer, Lexeme.tag]) h2
  have me : match_ T_ELSE s2 = (false, s2) := match_cons_ne hb.1 (by decide)
  simp only [me, Bool.false_eq_true, if_false, pure_ok] at h
  subst h
  have hx : Extends s1.vars s2.vars := ((hres.seq hmb).seq hb).2.2.2.1
  have hall : Emits s (.kwFi :: rest) (fun a => r.code a ++ [.NOP] ++
      body.code a (s.code.length + (r.code a).length + 1)) s2 :=
    ((((hn.seq hr).seq hres).seq hmb).seq hb).congr (fun v hv => by
      have hl := (hn.seq hr).length v (hx.trans hv)
      simp only [List.nil_append] at hl
      simp [hl])
  have hp := hall.patched (reserve s1).1 Instr.JUMP_NO (fun v hv => by
    have hl := (hn.seq hr).length v (hx.trans hv)
    simpa using hl)
  have hfi := Emits.mustBe (t := T_FI) hp.1 rfl (by decide)
  exact (hp.seq hfi).congr (fun _ _ => by simp [Stmt.code])

theorem while_case (r : Rel) (body : StmtList) (n : Nat) (ih : ListSound body n)
    (s s' : PState) (rest : List Lexeme)
    (ht : s.toks = (Stmt.while_ r body).toks ++ rest)
    (h : statement (n + 1) s = .ok s') :
    Emits s rest (fun a => (Stmt.while_ r body).code a s.code.length) s' := by
  simp only [Stmt.toks, List.cons_append, List.append_assoc, List.nil_append] at ht
  have c1 : see T_IDENTIFIER s = false := by rw [see_cons ht]; rfl
  have m1 : match_ T_IF s = (false, s) := match_cons_ne ht (by decide)
  have m2 : match_ T_WHILE s = (true, next s) := match_cons_eq ht rfl
  simp only [statement, c1, m1, m2, if_true, bind_ok, Bool.false_eq_true, if_false,
    pure_ok] at h
  obtain ⟨s1, h1, s2, h2, h⟩ := h
  subst h
  have hn := Emits.next ht (by simp [Lexeme.tag])
  have hr := relation_sound r n (next s) s1 _ hn.1 (by simp [NoAdd, Lexeme.tag])
    (by simp [NoMul, Lexeme.tag]) h1
  have hres := Emits.reserve hr.1
  have hmb := Emits.mustBe (t := T_DO) hres.1 rfl (by decide)
  have hb := ih _ s2 (.kwOd :: rest) hmb.1 (by simp [Closer, Lexeme.tag]) h2
  have hod := Emits.mustBe (t := T_OD) hb.1 rfl (by decide)
  have hj := Emits.emit (.JUMP (getCurrentAddress (next s))) hod.1
  have hx : Extends s1.vars (emit (.JUMP (getCurrentAddress (next s))) (mustBe T_OD s2)).vars :=
    ((((hres.seq hmb).seq hb).seq hod).seq hj).2.2.2.1
  have hall : Emits s rest (fun a => r.code a ++ [.NOP] ++
      (body.code a (s.code.length + (r.code a).length + 1) ++ [.JUMP s.code.length]))
      (emit (.JUMP (getCurrentAddress (next s))) (mustBe T_OD s2)) :=
    ((((((hn.seq hr).seq hres).seq hmb).seq hb).seq hod).seq hj).congr (fun v hv => by
      have hl := (hn.seq hr).length v (hx.trans hv)
      simp only [List.nil_append] at hl
      simp [hl, getCurrentAddress])
  have hp := hall.patched (reserve s1).1 Instr.JUMP_NO (fun v hv => by
    have hl := (hn.seq hr).length v (hx.trans hv)
    simpa using hl)
  exact hp.congr (fun _ _ => by simp [Stmt.code]; omega)

theorem ifThenElse_case (r : Rel) (b1 b2 : StmtList) (n : Nat) (ih1 : ListSound b1 n)
    (ih2 : ListSound b2 n) (s s' : PState) (rest : List Lexeme)
    (ht : s.toks = (Stmt.ifThenElse r b1 b2).toks ++ rest)
    (h : statement (n + 1) s = .ok s') :
    Emits s rest (fun a => (Stmt.ifThenElse r b1 b2).code a s.code.length) s' := by
  simp only [Stmt.toks, List.cons_append, List.append_assoc, List.nil_append] at ht
  have c1 : see T_IDENTIFIER s = false := by rw [see_cons ht]; rfl
  have m1 : match_ T_IF s = (true, next s) := match_cons_eq ht rfl
  simp only [statement, c1, m1, if_true, bind_ok, Bool.false_eq_true, if_false] at h
  obtain ⟨s1, h1, s2, h2, h⟩ := h
  have hn := Emits.next ht (by simp [Lexeme.tag])
  have hr := relation_sound r n (next s) s1 _ hn.1 (by simp [NoAdd, Lexeme.tag])
    (by simp [NoMul, Lexeme.tag]) h1
  have hres := Emits.reserve hr.1
  have hmb := Emits.mustBe (t := T_THEN) hres.1 rfl (by decide)
  have hb := ih1 _ s2 (.kwElse :: (b2.toks ++ .kwFi :: rest)) hmb.1
    (by simp [Closer, Lexeme.tag]) h2
  have me : match_ T_ELSE s2 = (true, next s2) := match_cons_eq hb.1 rfl
  simp only [me, if_true, bind_ok, pure_ok] at h
  obtain ⟨s3, h3, h⟩ := h
  subst h
  have hx : Extends s1.vars s2.vars := ((hres.seq hmb).seq hb).2.2.2.1
  have hall1 : Emits s (.kwElse :: (b2.toks ++ .kwFi :: rest)) (fun a => r.code a ++ [.NOP] ++
      b1.code a (s.code.length + (r.code a).length + 1)) s2 :=
    ((((hn.seq hr).seq hres).seq hmb).seq hb).congr (fun v hv => by
      have hl := (hn.seq hr).length v (hx.trans hv)
      simp only [List.nil_append] at hl
      simp [hl])
  have hne := Emits.next hall1.1 (by simp [Lexeme.tag])
  have hres2 := Emits.reserve hne.1
  have hall2 : Emits s (b2.toks ++ .kwFi :: rest) (fun a => r.code a ++ [.NOP] ++
      (b1.code a (s.code.length + (r.code a).length + 1) ++ [.NOP]))
      (reserve (next s2)).2 :=
    ((hall1.seq hne).seq hres2).congr (fun _ _ => by simp)
  have hp1 := hall2.patched (reserve s1).1 Instr.JUMP_NO (fun v hv => by
    have hv2 : Extends s2.vars v := by
      have := ((hne.seq hres2).2.2.2.1)
      exact this.trans hv
    have hl := (hn.seq hr).length v (hx.trans hv2)
    simpa using hl)
  have hb2 := ih2 _ s3 (.kwFi :: rest) hp1.1 (by simp [Closer, Lexeme.tag]) h3
  have hall3 : Emits s (.kwFi :: rest) (fun a =>
      (r.code a ++ [.JUMP_NO (s.code.length + (r.code a).length + 1 +
          (b1.code a (s.code.length + (r.code a).length + 1)).length + 1)] ++
        b1.code a (s.code.length + (r.code a).length + 1)) ++ [.NOP] ++
      b2.code a (s.code.length + (r.code a).length + 1 +
        (b1.code a (s.code.length + (r.code a).length + 1)).length + 1)) s3 :=
    (hp1.seq hb2).congr (fun v hv => by
      have hv2 : Extends s2.vars v := by
        have h1 := (hne.seq hres2).2.2.2.1
        have h2 : Extends (reserve (next s2)).2.vars s3.vars := by
          have := hb2.2.2.2.1
          simpa using this
        exact (h1.trans h2).trans hv
      have hl := hall1.length v hv2
      simp only [List.length_append, List.length_singleton] at hl
      simp [emitAt, hl]
      refine ⟨by omega, ?_⟩
      congr 1
      omega)
  have hp2 := hall3.patched (reserve (next s2)).1 Instr.JUMP (fun v hv => by
    have hv2 : Extends s2.vars v := by
      have h1 := (hne.seq hres2).2.2.2.1
      have h2 : Extends (reserve (next s2)).2.vars s3.vars := by
        have := hb2.2.2.2.1
        simpa using this
      exact (h1.trans h2).trans hv
    have hl := hall1.length v hv2
    simp only [List.length_append, List.length_singleton] at hl ⊢
    simp only [reserve_fst, next_code, hl])
  have hfi := Emits.mustBe (t := T_FI) hp2.1 rfl (by decide)
  exact (hp2.seq hfi).congr (fun _ _ => by
    simp [Stmt.code]
    omega)

theorem for_case (x : String) (e : Expr) (more : List Expr) (body : StmtList) (n : Nat)
    (ih : ListSound body n) (s s' : PState) (rest : List Lexeme)
    (ht : s.toks = (Stmt.for_ x e more body).toks ++ rest)
    (h : statement (n + 1) s = .ok s') :
    Emits s rest (fun a => (Stmt.for_ x e more body).code a s.code.length) s' := by
  simp only [Stmt.toks, List.cons_append, List.append_assoc, List.nil_append] at ht
  have c1 : see T_IDENTIFIER s = false := by rw [see_cons ht]; rfl
  have m1 : match_ T_IF s = (false, s) := match_cons_ne ht (by decide)
  have m2 : match_ T_WHILE s = (false, s) := match_cons_ne ht (by decide)
  have m3 : match_ T_FOR s = (true, next s) := match_cons_eq ht rfl
  have hn0 := Emits.next ht (by simp [Lexeme.tag])
  have c2 : see T_IDENTIFIER (next s) = true := by rw [see_cons hn0.1]; rfl
  have hg : getStringValue (next s) = .ok x := by
    unfold getStringValue; rw [token_cons hn0.1]
  simp only [statement, c1, m1, m2, m3, c2, hg, if_true, bind_ok, Bool.false_eq_true,
    if_false, pure_ok, ok_bind, Bool.not_true] at h
  obtain ⟨s1, h1, s2, h2, s3, h3, h⟩ := h
  subst h
  have ht' : (findOrAddVariable x (next s)).2.toks = .identifier x :: .assign ::
      (e.toks ++ (moreToks more ++ .kwDo :: (body.toks ++ .kwOd :: rest))) := by
    simpa using hn0.1
  have hn1 := Emits.next ht' (by simp [Lexeme.tag])
  have hm := Emits.mustBe (t := T_ASSIGN) hn1.1 rfl (by decide)
  have he := expression_sound e n _ s1 _ hm.1
    (noAdd_moreToks more (by simp [NoAdd, Lexeme.tag]))
    (noMul_moreToks more (by simp [NoMul, Lexeme.tag])) h1
  have hl := forLoop_sound more n s1 s2 (.kwDo :: (body.toks ++ .kwOd :: rest)) he.1
    (by simp [Lexeme.tag]) (by simp [NoAdd, Lexeme.tag]) (by simp [NoMul, Lexeme.tag]) h2
  have hpre := ((hn1.seq hm).seq he).seq hl
  have hv := (Emits.var hpre).2
  have hdo := Emits.mustBe (t := T_DO) hv.1 rfl (by decide)
  have hb := ih _ s3 (.kwOd :: rest) hdo.1 (by simp [Closer, Lexeme.tag]) h3
  have hod := Emits.mustBe (t := T_OD) hb.1 rfl (by decide)
  have hj := Emits.emit (.JUMP (getCurrentAddress s2)) hod.1
  have hres := Emits.reserve hj.1
  have hx : Extends s2.vars
      (reserve (emit (.JUMP (getCurrentAddress s2)) (mustBe T_OD s3))).2.vars := by
    have := ((((hdo.seq hb).seq hod).seq hj).seq hres).2.2.2.1
    simpa using this
  exact ((((((hn0.seq hv).seq hdo).seq hb).seq hod).seq hj).seq hres).congr (fun v hv => by
    have hl2 := hpre.length v (hx.trans hv)
    simp only [findOrAddVariable_code, next_code, List.nil_append] at hl2
    simp [Stmt.code, getCurrentAddress, hl2])

mutual

/-- The translator on the tokens of a statement produces the reference code. -/
theorem statement_sound : ∀ (st : Stmt) (n : Nat) (s s' : PState) (rest : List Lexeme),
    s.toks = st.toks ++ rest → st.follow rest → statement n s = .ok s' →
    Emits s rest (fun a => st.code a s.code.length) s'
  | _, 0, s, s', rest, _, _, h => by simp [statement] at h
  | .assign x e, n + 1, s, s', rest, ht, hf, h => assign_case x e n s s' rest ht hf h
  | .write e, n + 1, s, s', rest, ht, _, h => write_case e n s s' rest ht h
  | .ifThen r body, n + 1, s, s', rest, ht, _, h =>
    ifThen_case r body n (fun s0 s1 r0 => statementList_sound body n s0 s1 r0) s s' rest ht h
  | .ifThenElse r b1 b2, n + 1, s, s', rest, ht, _, h =>
    ifThenElse_case r b1 b2 n (fun s0 s1 r0 => statementList_sound b1 n s0 s1 r0)
      (fun s0 s1 r0 => statementList_sound b2 n s0 s1 r0) s s' rest ht h
  | .while_ r body, n + 1, s, s', rest, ht, _, h =>
    while_case r body n (fun s0 s1 r0 => statementList_sound body n s0 s1 r0) s s' rest ht h
  | .for_ x e more body, n + 1, s, s', rest, ht, _, h =>
    for_case x e more body n (fun s0 s1 r0 => statementList_sound body n s0 s1 r0)
      s s' rest ht h

/-- The translator on the tokens of a statement list produces the reference code. -/
theorem statementList_sound : ∀ (body : StmtList) (n : Nat) (s s' : PState)
    (rest : List Lexeme), s.toks = body.toks ++ rest → Closer rest →
    statementList n s = .ok s' → Emits s rest (fun a => body.code a s.code.length) s'
  | _, 0, s, s', rest, _, _, h => by simp [statementList] at h
  | .empty, n + 1, s, s', rest, ht, hc, h => by
    simp only [StmtList.toks, List.nil_append] at ht
    have hsee : (see T_END s || see T_OD s || see T_ELSE s || see T_FI s) = true := by
      simp only [see, token, ht]
      rcases hc with hc | hc | hc | hc <;> rw [hc] <;> rfl
    simp only [statementList, hsee, if_true] at h
    cases h
    exact ⟨ht, rfl, rfl, Extends.refl _, fun _ _ => by simp [StmtList.code]⟩
  | .seq q, n + 1, s, s', rest, ht, hc, h => by
    simp only [StmtList.toks] at ht
    have hsee : (see T_END s || see T_OD s || see T_ELSE s || see T_FI s) = false := by
      cases q with
      | one st =>
        obtain ⟨l, tl, hl, hk⟩ := stmt_head st
        simp only [StmtSeq.toks, hl, List.cons_append] at ht
        simp only [see_cons ht]
        rcases hk with hk | hk | hk | hk | hk <;> rw [hk] <;> rfl
      | more st q =>
        obtain ⟨l, tl, hl, hk⟩ := stmt_head st
        simp only [StmtSeq.toks, hl, List.cons_append] at ht
        simp only [see_cons ht]
        rcases hk with hk | hk | hk | hk | hk <;> rw [hk] <;> rfl
    simp only [statementList, hsee, Bool.false_eq_true, if_false] at h
    exact (statementLoop_sound q n s s' rest ht hc h).congr
      (fun _ _ => by simp [StmtList.code])

/-- The loop of `statementList` on a non-empty sequence produces the reference code. -/
theorem statementLoop_sound : ∀ (q : StmtSeq) (n : Nat) (s s' : PState)
    (rest : List Lexeme), s.toks = q.toks ++ rest → Closer rest →
    statementLoop n s = .ok s' → Emits s rest (fun a => q.code a s.code.length) s'
  | _, 0, s, s', rest, _, _, h => by simp [statementLoop] at h
  | .one st, n + 1, s, s', rest, ht, hc, h => by
    simp only [StmtSeq.toks] at ht
    simp only [statementLoop, bind_ok] at h
    obtain ⟨s1, h1, h⟩ := h
    have hs := statement_sound st n s s1 rest ht (closer_follow hc st).1 h1
    have hm : match_ T_SEMICOLON s1 = (false, s1) := by
      have : see T_SEMICOLON s1 = false := by
        simp only [see, token, hs.1]
        simpa using (closer_follow hc st).2
      simp [match_, this]
    simp only [hm, Bool.false_eq_true, if_false, pure_ok] at h
    subst h
    exact hs.congr (fun _ _ => by simp [StmtSeq.code])
  | .more st q, n + 1, s, s', rest, ht, hc, h => by
    simp only [StmtSeq.toks, List.append_assoc, List.cons_append] at ht
    simp only [statementLoop, bind_ok] at h
    obtain ⟨s1, h1, h⟩ := h
    have hs := statement_sound st n s s1 _ ht (semicolon_follow _ st) h1
    have hm : match_ T_SEMICOLON s1 = (true, next s1) := match_cons_eq hs.1 rfl
    simp only [hm, if_true] at h
    have hn := Emits.next hs.1 (by simp [Lexeme.tag])
    have hq := statementLoop_sound q n (next s1) s' rest hn.1 hc h
    exact ((hs.seq hn).seq hq).congr (fun v hv => by
      have hl := hs.length v ((hn.seq hq).2.2.2.1.trans hv)
      simp [StmtSeq.code, hl])

end

/-! ## Code emitted for well-formed expressions and statements -/

/-- On the tokens of an expression, followed by no arithmetic operator, `expression`
returns with the reference outcome once the budget covers the input. -/
theorem expression_complete (e : Expr) (s : PState) (rest : List Lexeme) (n : Nat)
    (ht : s.toks = e.toks ++ rest) (ha : NoAdd rest) (hm : NoMul rest)
    (hn : 10 * s.toks.length + 5 ≤ n) :
    ∃ s', expression n s = .ok s' ∧ Emits s rest e.code s' := by
  obtain ⟨s', h⟩ := (total_all n).2.2.2.2.1 s hn
  exact ⟨s', h, expression_sound e n s s' rest ht ha hm h⟩

/-- On the tokens of a statement `statement` returns with the reference outcome once
the budget covers the input. -/
theorem statement_complete (st : Stmt) (s : PState) (rest : List Lexeme) (n : Nat)
    (ht : s.toks = st.toks ++ rest) (hf : st.follow rest)
    (hn : 10 * s.toks.length + 7 ≤ n) :
    ∃ s', statement n s = .ok s' ∧ Emits s rest (fun a => st.code a s.code.length) s' := by
  obtain ⟨s', h⟩ := (total_all n).2.2.1 s hn
  exact ⟨s', h, statement_sound st n s s' rest ht hf h⟩

/-- C8: on the tokens of `if r then S fi` the procedure `statement` consumes exactly
those tokens, reports nothing, and appends the code of `r`, then `JUMP_NO L`, then the
code of `S`, where `L` is the address right after the last instruction of `S`; on
`begin if 1 = 1 then write ( 1 ) fi end` the stream is
`PUSH 1, PUSH 1, COMPARE 0, JUMP_NO 6, PUSH 1, PRINT, STOP`. -/
theorem c8_if_without_else (r : Rel) (body : StmtList) (s : PState) (rest : List Lexeme)
    (n : Nat) (ht : s.toks = (Stmt.ifThen r body).toks ++ rest)
    (hn : 10 * s.toks.length + 7 ≤ n) :
    (∃ s', statement n s = .ok s' ∧ s'.toks = rest ∧ s'.error = s.error ∧
      s'.diags = s.diags ∧
      s'.code = s.code ++ r.code (addrOf s'.vars) ++
        [.JUMP_NO (s.code.length + (r.code (addrOf s'.vars)).length + 1 +
          (body.code (addrOf s'.vars)
            (s.code.length + (r.code (addrOf s'.vars)).length + 1)).length)] ++
        body.code (addrOf s'.vars) (s.code.length + (r.code (addrOf s'.vars)).length + 1)) ∧
    parse ifProgram = .ok ifFinal := by
  obtain ⟨s', h, h1, h2, h3, -, h5⟩ :=
    statement_complete (.ifThen r body) s rest n ht trivial hn
  refine ⟨⟨s', h, h1, h2, h3, ?_⟩, rfl⟩
  rw [h5 _ (Extends.refl _)]
  simp [Stmt.code]

/-- Witness for C8 on `if 1 = 1 then write ( 1 ) fi`. -/
theorem c8_if_without_else_witness :
    ∃ s', statement 200 ifEntry = .ok s' ∧ s'.toks = [.kwEnd, .eof] ∧
      s'.code = [.PUSH 1, .PUSH 1, .COMPARE 0, .JUMP_NO 6, .PUSH 1, .PRINT] := by
  obtain ⟨⟨s', h, h1, -, -, h4⟩, -⟩ := c8_if_without_else ifRel writeOne ifEntry
    [Lexeme.kwEnd, Lexeme.eof] 200 rfl (by decide)
  exact ⟨s', h, h1, by rw [h4]; rfl⟩

/-- C9: on the tokens of `if r then S1 else S2 fi` the procedure `statement` consumes
exactly those tokens, reports nothing, and appends the code of `r`, `JUMP_NO Lelse`,
the code of `S1`, `JUMP Lend`, the code of `S2`, where `Lelse` is the address right
after the `JUMP` (the first instruction of `S2`) and `Lend` the address right after
the code of `S2`; on `begin if 1 = 2 then write ( 1 ) else write ( 2 ) fi end` the
stream is `PUSH 1, PUSH 2, COMPARE 0, JUMP_NO 7, PUSH 1, PRINT, JUMP 9, PUSH 2, PRINT,
STOP`. -/
theorem c9_if_with_else (r : Rel) (b1 b2 : StmtList) (s : PState) (rest : List Lexeme)
    (n : Nat) (ht : s.toks = (Stmt.ifThenElse r b1 b2).toks ++ rest)
    (hn : 10 * s.toks.length + 7 ≤ n) :
    (∃ s' cr c1 c2, statement n s = .ok s' ∧ s'.toks = rest ∧ s'.error = s.error ∧
      s'.diags = s.diags ∧
      cr = r.code (addrOf s'.vars) ∧
      c1 = b1.code (addrOf s'.vars) (s.code.length + cr.length + 1) ∧
      c2 = b2.code (addrOf s'.vars) (s.code.length + cr.length + 1 + c1.length + 1) ∧
      s'.code = s.code ++ cr ++ [.JUMP_NO (s.code.length + cr.length + 1 + c1.length + 1)] ++
        c1 ++ [.JUMP (s.code.length + cr.length + 1 + c1.length + 1 + c2.length)] ++ c2) ∧
    parse ifElseProgram = .ok ifElseFinal := by
  obtain ⟨s', h, h1, h2, h3, -, h5⟩ :=
    statement_complete (.ifThenElse r b1 b2) s rest n ht trivial hn
  refine ⟨⟨s', _, _, _, h, h1, h2, h3, rfl, rfl, rfl, ?_⟩, rfl⟩
  rw [h5 _ (Extends.refl _)]
  simp [Stmt.code]

/-- Witness for C9 on `if 1 = 2 then write ( 1 ) else write ( 2 ) fi`. -/
theorem c9_if_with_else_witness :
    ∃ s', statement 200 ifElseEntry = .ok s' ∧ s'.toks = [.kwEnd, .eof] ∧
      s'.code = [.PUSH 1, .PUSH 2, .COMPARE 0, .JUMP_NO 7, .PUSH 1, .PRINT, .JUMP 9,
        .PUSH 2, .PRINT] := by
  obtain ⟨⟨s', cr, c1, c2, h, h1, -, -, rfl, rfl, rfl, h4⟩, -⟩ :=
    c9_if_with_else ifElseRel writeOne writeTwo ifElseEntry
      [Lexeme.kwEnd, Lexeme.eof] 200 rfl (by decide)
  exact ⟨s', h, h1, by rw [h4]; rfl⟩

/-- C10: on the tokens of `while r do S od` the procedure `statement` consumes exactly
those tokens, reports nothing, and appends the code of `r`, `JUMP_NO Lexit`, the code
of `S`, `JUMP Ltop`, where `Ltop` is the address of the first instruction of the code
of `r` and `Lexit` the address right after the `JUMP`; on
`begin x := 0; while x < 3 do write ( x ) ; x := x + 1 od end` the stream is
`PUSH 0, STORE 0, LOAD 0, PUSH 3, COMPARE 2, JUMP_NO 13, LOAD 0, PRINT, LOAD 0, PUSH 1,
ADD, STORE 0, JUMP 2, STOP`. -/
theorem c10_while_loop (r : Rel) (body : StmtList) (s : PState) (rest : List Lexeme)
    (n : Nat) (ht : s.toks = (Stmt.while_ r body).toks ++ rest)
    (hn : 10 * s.toks.length + 7 ≤ n) :
    (∃ s' cr cb, statement n s = .ok s' ∧ s'.toks = rest ∧ s'.error = s.error ∧
      s'.diags = s.diags ∧
      cr = r.code (addrOf s'.vars) ∧
      cb = body.code (addrOf s'.vars) (s.code.length + cr.length + 1) ∧
      s'.code = s.code ++ cr ++
        [.JUMP_NO (s.code.length + cr.length + 1 + cb.length + 1)] ++ cb ++
        [.JUMP s.code.length]) ∧
    parse whileProgram = .ok whileFinal := by
  obtain ⟨s', h, h1, h2, h3, -, h5⟩ :=
    statement_complete (.while_ r body) s rest n ht trivial hn
  refine ⟨⟨s', _, _, h, h1, h2, h3, rfl, rfl, ?_⟩, rfl⟩
  rw [h5 _ (Extends.refl _)]
  simp [Stmt.code]

/-- Witness for C10 on the loop of the `while` program, entered after `x := 0;`. -/
theorem c10_while_loop_witness :
    ∃ s', statement 300 whileEntry = .ok s' ∧ s'.toks = [.kwEnd, .eof] ∧
      s'.code = [.PUSH 0, .STORE 0, .LOAD 0, .PUSH 3, .COMPARE 2, .JUMP_NO 13, .LOAD 0,
        .PRINT, .LOAD 0, .PUSH 1, .ADD, .STORE 0, .JUMP 2] := by
  obtain ⟨⟨s', cr, cb, h, h1, -, -, rfl, rfl, -⟩, -⟩ :=
    c10_while_loop whileRel whileBody whileEntry [Lexeme.kwEnd, Lexeme.eof] 300 rfl
      (by decide)
  have hs : statement 300 whileEntry = .ok whileExit := rfl
  rw [hs] at h
  cases h
  exact ⟨_, hs, rfl, rfl⟩

/-! ## Halt instruction and termination -/

theorem program_unfold (n : Nat) (s s' : PState) (h : program n s = .ok s') :
    ∃ s1, statementList n (mustBe T_BEGIN s) = .ok s1 ∧ s' = emit .STOP (mustBe T_END s1) := by
  simp only [program, bind_ok, pure_ok] at h
  obtain ⟨s1, h1, rfl⟩ := h
  exact ⟨s1, h1, rfl⟩

/-- C11: on every input `program` returns, and the last instruction of the buffer is
then `STOP`; `program` is `mustBe(T_BEGIN)`, `statementList`, `mustBe(T_END)` and then
one `emit(STOP)`, so the buffer it leaves is the buffer left by `statementList`
followed by exactly one `STOP`. -/
theorem c11_program_ends_with_stop (input : List Lexeme) :
    (∃ sp, program (budget input) (PState.init input) = .ok sp ∧
      sp.code.getLast? = some Instr.STOP ∧ sp.code[sp.code.length - 1]? = some Instr.STOP) ∧
    (∀ n s s', program n s = .ok s' →
      ∃ s1, statementList n (mustBe T_BEGIN s) = .ok s1 ∧
        s' = emit .STOP (mustBe T_END s1) ∧ s'.code = s1.code ++ [.STOP] ∧
        s'.code.getLast? = some Instr.STOP) := by
  have key : ∀ n s s', program n s = .ok s' →
      ∃ s1, statementList n (mustBe T_BEGIN s) = .ok s1 ∧
        s' = emit .STOP (mustBe T_END s1) ∧ s'.code = s1.code ++ [.STOP] ∧
        s'.code.getLast? = some Instr.STOP := by
    intro n s s' h
    obtain ⟨s1, h1, rfl⟩ := program_unfold n s s' h
    exact ⟨s1, h1, rfl, by simp, by simp⟩
  refine ⟨?_, key⟩
  obtain ⟨sp, hp⟩ := program_total input
  obtain ⟨s1, -, -, hc, hl⟩ := key _ _ _ hp
  refine ⟨sp, hp, hl, ?_⟩
  rw [hc]
  simp

/-- Witness for C11 on the input with the missing `then`, a program with errors. -/
theorem c11_program_ends_with_stop_witness :
    missingThenFinal.error = true ∧ missingThenFinal.code.getLast? = some Instr.STOP := by
  obtain ⟨s1, -, -, -, hl⟩ := (c11_program_ends_with_stop missingThenProgram).2
    (budget missingThenProgram) (PState.init missingThenProgram) missingThenFinal rfl
  exact ⟨rfl, hl⟩

theorem next_of_eof {s : PState} (h : see T_EOF s = true) : next s = s := by
  unfold see token at h
  unfold next
  cases hs : s.toks with
  | nil => rfl
  | cons l rest =>
    simp only [hs, List.headD_cons, beq_iff_eq] at h
    simp [h]

theorem skipTo_of_eof (t : Token) {s : PState} (h : see T_EOF s = true) :
    skipTo t s.toks = s.toks := by
  rw [skipTo_unfold]
  simp [h]

theorem match_snd_of_not {t : Token} {s : PState} (h : ¬ (match_ t s).1 = true) :
    (match_ t s).2 = s := by
  unfold match_ at h ⊢
  split
  · next hs => simp [hs] at h
  · rfl

theorem recover_toks_le (t : Token) (s : PState) :
    (recover t s).toks.length ≤ s.toks.length := by
  simp only [recover]
  split
  · exact le_trans (next_toks_le _) (skipTo_length_le t s.toks)
  · exact skipTo_length_le t s.toks

/-- C12: `parse` returns on every input.  Each of `statementList`, `statement`,
`expression`, `term` and `factor` returns, without growing the remaining input, as
soon as its budget covers ten units per remaining token plus a constant below ten.
Every loop continues, and `factor` re-enters itself or `expression`, only on a state
with fewer tokens than at the start of the iteration; `statement` either consumes its
first token or returns at once with a diagnostic; a successful tag test on a token
other than end-of-input followed by `next` removes a token; at end-of-input `next`
changes nothing, the loop of `recover` stops, and `recover` never grows the input. -/
theorem c12_parse_terminates (input : List Lexeme) :
    (∃ s, parse input = .ok s) ∧
    (∀ n s, 10 * s.toks.length + 9 ≤ n →
      ∃ s', statementList n s = .ok s' ∧ s'.toks.length ≤ s.toks.length) ∧
    (∀ n s, 10 * s.toks.length + 7 ≤ n →
      ∃ s', statement n s = .ok s' ∧ s'.toks.length ≤ s.toks.length) ∧
    (∀ n s, 10 * s.toks.length + 5 ≤ n →
      ∃ s', expression n s = .ok s' ∧ s'.toks.length ≤ s.toks.length) ∧
    (∀ n s, 10 * s.toks.length + 3 ≤ n →
      ∃ s', term n s = .ok s' ∧ s'.toks.length ≤ s.toks.length) ∧
    (∀ n s, 10 * s.toks.length + 1 ≤ n →
      ∃ s', factor n s = .ok s' ∧ s'.toks.length ≤ s.toks.length) ∧
    (∀ n s s', statementLoop (n + 1) s = .ok s' →
      ∃ s1, statement n s = .ok s1 ∧
        (s' = s1 ∨ ((match_ T_SEMICOLON s1).2.toks.length < s.toks.length ∧
          statementLoop n (match_ T_SEMICOLON s1).2 = .ok s'))) ∧
    (∀ n s s', expressionLoop (n + 1) s = .ok s' →
      s' = s ∨ ∃ s1 s2, term n (next s) = .ok s1 ∧ s2.toks = s1.toks ∧
        s2.toks.length < s.toks.length ∧ expressionLoop n s2 = .ok s') ∧
    (∀ n s s', termLoop (n + 1) s = .ok s' →
      s' = s ∨ ∃ s1 s2, factor n (next s) = .ok s1 ∧ s2.toks = s1.toks ∧
        s2.toks.length < s.toks.length ∧ termLoop n s2 = .ok s') ∧
    (∀ n s s', forLoop (n + 1) s = .ok s' →
      s' = s ∨ ∃ s1, expression n (match_ T_COMMA s).2 = .ok s1 ∧
        s1.toks.length < s.toks.length ∧ forLoop n s1 = .ok s') ∧
    (∀ n s s', factor (n + 1) s = .ok s' → token s = .addop A_MINUS →
      (next s).toks.length < s.toks.length ∧
      ∃ s1, factor n (next s) = .ok s1 ∧ s' = emit .INVERT s1) ∧
    (∀ n s s', factor (n + 1) s = .ok s' → token s = .lparen →
      (next s).toks.length < s.toks.length ∧
      ∃ s1, expression n (next s) = .ok s1 ∧ s' = mustBe T_RPAREN s1) ∧
    (∀ n s s', statement (n + 1) s = .ok s' →
      see T_IDENTIFIER s = false → see T_IF s = false → see T_WHILE s = false →
      see T_FOR s = false → see T_WRITE s = false →
      s' = reportError (.text "statement expected.") s) ∧
    (∀ t s, t ≠ T_EOF → see t s = true → (next s).toks.length < s.toks.length) ∧
    (∀ t s, t ≠ T_EOF → (match_ t s).1 = true →
      (match_ t s).2.toks.length < s.toks.length) ∧
    (∀ s, see T_EOF s = true → next s = s) ∧
    (∀ t s, see T_EOF s = true → skipTo t s.toks = s.toks) ∧
    (∀ t s, (recover t s).toks.length ≤ s.toks.length ∧
      (mustBe t s).toks.length ≤ s.toks.length) := by
  have hall := fun n => total_all n
  have hle := fun n => toks_le_of_ok n
  refine ⟨parse_total input, ?_, ?_, ?_, ?_, ?_, ?_, ?_, ?_, ?_, ?_, ?_, ?_, ?_, ?_, ?_, ?_, ?_⟩
  · intro n s hn
    obtain ⟨s', h⟩ := (hall n).1 s hn
    exact ⟨s', h, (hle n).1 _ _ h⟩
  · intro n s hn
    obtain ⟨s', h⟩ := (hall n).2.2.1 s hn
    exact ⟨s', h, (hle n).2.2.2.2.2.2 _ _ h⟩
  · intro n s hn
    obtain ⟨s', h⟩ := (hall n).2.2.2.2.1 s hn
    exact ⟨s', h, (hle n).2.2.1 _ _ h⟩
  · intro n s hn
    obtain ⟨s', h⟩ := (hall n).2.2.2.2.2.2.1 s hn
    exact ⟨s', h, (hle n).2.2.2.1 _ _ h⟩
  · intro n s hn
    obtain ⟨s', h⟩ := (hall n).2.2.2.2.2.2.2.2.1 s hn
    exact ⟨s', h, (hle n).2.2.2.2.1 _ _ h⟩
  · intro n s s' h
    simp only [statementLoop, bind_ok] at h
    obtain ⟨s1, h1, h⟩ := h
    refine ⟨s1, h1, ?_⟩
    have hl := (hle n).2.2.2.2.2.2 _ _ h1
    split at h
    · next hm =>
      exact Or.inr ⟨lt_of_lt_of_le (match_toks_lt hm (by decide)) hl, h⟩
    · next hm =>
      simp only [pure_ok] at h
      subst h
      exact Or.inl (match_snd_of_not hm)
  · intro n s s' h
    simp only [expressionLoop] at h
    split at h
    · next hs =>
      simp only [bind_ok] at h
      obtain ⟨op, -, s1, h1, h⟩ := h
      have hl := (hle n).2.2.2.1 _ _ h1
      have hlt := next_toks_lt hs (by decide)
      refine Or.inr ⟨s1, _, h1, ?_, ?_, h⟩
      · split <;> rfl
      · have : (if op = A_PLUS then emit .ADD s1 else emit .SUB s1).toks = s1.toks := by
          split <;> rfl
        rw [this]; omega
    · simp only [pure_ok] at h
      exact Or.inl h.symm
  · intro n s s' h
    simp only [termLoop] at h
    split at h
    · next hs =>
      simp only [bind_ok] at h
      obtain ⟨op, -, s1, h1, h⟩ := h
      have hl := (hle n).2.2.2.2.1 _ _ h1
      have hlt := next_toks_lt hs (by decide)
      refine Or.inr ⟨s1, _, h1, ?_, ?_, h⟩
      · split <;> rfl
      · have : (if op = A_MULTIPLY then emit .MULT s1 else emit .DIV s1).toks = s1.toks := by
          split <;> rfl
        rw [this]; omega
    · simp only [pure_ok] at h
      exact Or.inl h.symm
  · intro n s s' h
    simp only [forLoop] at h
    split at h
    · next hm =>
      simp only [bind_ok] at h
      obtain ⟨s1, h1, h⟩ := h
      have hl := (hle n).2.2.1 _ _ h1
      have hlt := match_toks_lt hm (by decide)
      exact Or.inr ⟨s1, h1, by omega, h⟩
    · next hm =>
      simp only [pure_ok] at h
      subst h
      exact Or.inl (match_snd_of_not hm)
  · intro n s s' h ht
    have h1 : see T_NUMBER s = false := by simp [see, ht, Lexeme.tag]
    have h2 : see T_IDENTIFIER s = false := by simp [see, ht, Lexeme.tag]
    have h3 : see T_ADDOP s = true := by simp [see, ht, Lexeme.tag]
    have h4 : seeMinus s = .ok true := by
      simp [seeMinus, h3, getArithmeticValue, ht, ok_bind, pure_eq_ok]
    simp only [factor, h1, h2, h4, ok_bind, Bool.false_eq_true, if_false, if_true, bind_ok,
      pure_ok] at h
    obtain ⟨s1, e1, rfl⟩ := h
    exact ⟨next_toks_lt h3 (by decide), s1, e1, rfl⟩
  · intro n s s' h ht
    have h1 : see T_NUMBER s = false := by simp [see, ht, Lexeme.tag]
    have h2 : see T_IDENTIFIER s = false := by simp [see, ht, Lexeme.tag]
    have h3 : see T_ADDOP s = false := by simp [see, ht, Lexeme.tag]
    have h4 : seeMinus s = .ok false := by simp [seeMinus, h3, pure_eq_ok]
    have h5 : see T_LPAREN s = true := by simp [see, ht, Lexeme.tag]
    have h6 : match_ T_LPAREN s = (true, next s) := by simp [match_, h5]
    simp only [factor, h1, h2, h4, h6, ok_bind, Bool.false_eq_true, if_false, if_true,
      bind_ok, pure_ok] at h
    obtain ⟨s1, e1, rfl⟩ := h
    exact ⟨next_toks_lt h5 (by decide), s1, e1, rfl⟩
  · intro n s s' h a b c d e
    simp [statement, match_, a, b, c, d, e, pure_eq_ok] at h
    exact h.symm
  · intro t s ht h
    exact next_toks_lt h ht
  · intro t s ht h
    exact match_toks_lt h ht
  · intro s h
    exact next_of_eof h
  · intro t s h
    exact skipTo_of_eof t h
  · intro t s
    exact ⟨recover_toks_le t s, mustBe_toks_le t s⟩

/-- Witness for C12: on the input with the missing `then`, whose recovery runs to
end-of-input, `parse` returns the final session. -/
theorem c12_parse_terminates_witness :
    ∃ s, parse missingThenProgram = .ok s ∧ s.toks = [Lexeme.eof] := by
  obtain ⟨s, hs⟩ := (c12_parse_terminates missingThenProgram).1
  have e : parse missingThenProgram = .ok missingThenFinal := rfl
  rw [e] at hs
  cases hs
  exact ⟨_, e, rfl⟩

/-! ## The variable table and `mustBe` -/

theorem findVar_mem {x : String} {a : Nat} {l : List (String × Nat)}
    (h : findVar x l = some a) : (x, a) ∈ l := by
  induction l with
  | nil => simp [findVar] at h
  | cons p l ih =>
    obtain ⟨k, v⟩ := p
    simp only [findVar] at h
    split at h
    · next hk => cases h; simp [hk]
    · exact List.mem_cons_of_mem _ (ih h)

theorem findVar_of_mem {x : String} {a : Nat} {l : List (String × Nat)}
    (hn : (l.map Prod.fst).Nodup) (h : (x, a) ∈ l) : findVar x l = some a := by
  induction l with
  | nil => simp at h
  | cons p l ih =>
    obtain ⟨k, v⟩ := p
    simp only [List.map_cons, List.nodup_cons] at hn
    simp only [List.mem_cons, Prod.mk.injEq] at h
    simp only [findVar]
    rcases h with ⟨rfl, rfl⟩ | h
    · simp
    · have hne : k ≠ x := by
        rintro rfl
        exact hn.1 (List.mem_map_of_mem Prod.fst h)
      simp [hne, ih hn.2 h]

/-- Under `TableInv` the table is a bijection onto the addresses below `lastVar`. -/
theorem tableInv_bijection {s : PState} (h : TableInv s) :
    (∀ x a, findVar x s.vars = some a → a < s.lastVar) ∧
    (∀ a, a < s.lastVar → ∃ x, findVar x s.vars = some a ∧
      ∀ y, findVar y s.vars = some a → y = x) := by
  obtain ⟨h1, h2⟩ := h
  have hsnd : (s.vars.map Prod.snd).Nodup := by rw [h2]; exact List.nodup_range _
  constructor
  · intro x a hx
    have : a ∈ s.vars.map Prod.snd := List.mem_map_of_mem Prod.snd (findVar_mem hx)
    rw [h2] at this
    simpa using this
  · intro a ha
    have : a ∈ s.vars.map Prod.snd := by rw [h2]; simpa using ha
    obtain ⟨⟨x, b⟩, hp, rfl⟩ := List.mem_map.1 this
    refine ⟨x, findVar_of_mem h1 hp, fun y hy => ?_⟩
    have hq := findVar_mem hy
    have := List.inj_on_of_nodup_map hsnd hq hp rfl
    exact (Prod.mk.inj this).1

/-- C15: `findOrAddVariable` keeps the table a bijection between its names and the
addresses below the counter.  For a name already in the table it returns the stored
address and changes neither table nor counter; for a new name it returns the old
counter, appends exactly that binding and increments the counter; every earlier
binding is still there afterwards. -/
theorem c15_findOrAddVariable_keeps_table (x : String) (s : PState) (h : TableInv s) :
    TableInv (findOrAddVariable x s).2 ∧
    ((∀ y a, findVar y (findOrAddVariable x s).2.vars = some a →
        a < (findOrAddVariable x s).2.lastVar) ∧
      (∀ a, a < (findOrAddVariable x s).2.lastVar →
        ∃ y, findVar y (findOrAddVariable x s).2.vars = some a ∧
          ∀ z, findVar z (findOrAddVariable x s).2.vars = some a → z = y)) ∧
    (∀ a, findVar x s.vars = some a →
      (findOrAddVariable x s).1 = a ∧ (findOrAddVariable x s).2.vars = s.vars ∧
      (findOrAddVariable x s).2.lastVar = s.lastVar) ∧
    (findVar x s.vars = none →
      (findOrAddVariable x s).1 = s.lastVar ∧
      (findOrAddVariable x s).2.vars = s.vars ++ [(x, s.lastVar)] ∧
      (findOrAddVariable x s).2.lastVar = s.lastVar + 1) ∧
    (∀ y a, findVar y s.vars = some a →
      findVar y (findOrAddVariable x s).2.vars = some a) ∧
    findVar x (findOrAddVariable x s).2.vars = some (findOrAddVariable x s).1 := by
  have hinv : TableInv (findOrAddVariable x s).2 := by
    obtain ⟨h1, h2⟩ := h
    unfold findOrAddVariable
    cases hf : findVar x s.vars with
    | none =>
      have hx : x ∉ s.vars.map Prod.fst := (findVar_none_iff x s.vars).1 hf
      refine ⟨?_, ?_⟩
      · simp only [List.map_append, List.map_cons, List.map_nil]
        exact List.Nodup.append h1 (List.nodup_singleton x) (by simpa using hx)
      · simp only [List.map_append, List.map_cons, List.map_nil, List.range_succ, h2]
    | some a => exact ⟨h1, h2⟩
  refine ⟨hinv, tableInv_bijection hinv, ?_, ?_, findOrAddVariable_extends x s,
    findOrAddVariable_findVar x s⟩
  · intro a ha
    simp [findOrAddVariable, ha]
  · intro hn
    simp [findOrAddVariable, hn]

/-- Witness for C15: a lookup of the known name `b` and of the new name `q` in a
table with three variables. -/
theorem c15_findOrAddVariable_keeps_table_witness :
    (findOrAddVariable "b" threeVars).1 = 2 ∧
    (findOrAddVariable "b" threeVars).2.vars = threeVars.vars ∧
    (findOrAddVariable "q" threeVars).1 = 3 ∧
    (findOrAddVariable "q" threeVars).2.vars = threeVars.vars ++ [("q", 3)] ∧
    (findOrAddVariable "q" threeVars).2.lastVar = 4 ∧
    TableInv (findOrAddVariable "q" threeVars).2 := by
  have hi : TableInv threeVars := ⟨by decide, by decide⟩
  have hb := (c15_findOrAddVariable_keeps_table "b" threeVars hi).2.2.1 2 rfl
  have hq := (c15_findOrAddVariable_keeps_table "q" threeVars hi).2.2.2.1 rfl
  exact ⟨hb.1, hb.2.1, hq.1, hq.2.1, hq.2.2,
    (c15_findOrAddVariable_keeps_table "q" threeVars hi).1⟩

theorem skipTo_found (t : Token) (pre : List Lexeme) (l : Lexeme) (post : List Lexeme)
    (hl : l.tag = t ∨ l.tag = T_EOF) (hp : ∀ p ∈ pre, p.tag ≠ t ∧ p.tag ≠ T_EOF) :
    skipTo t (pre ++ l :: post) = l :: post := by
  induction pre with
  | nil => simp [skipTo, hl]
  | cons p pre ih =>
    have h1 := hp p (List.mem_cons_self _ _)
    simp only [List.cons_append, skipTo, h1.1, h1.2, or_self, if_false]
    exact ih (fun q hq => hp q (List.mem_cons_of_mem _ hq))

theorem skipTo_exhausted (t : Token) (pre : List Lexeme)
    (hp : ∀ p ∈ pre, p.tag ≠ t ∧ p.tag ≠ T_EOF) : skipTo t pre = [] := by
  induction pre with
  | nil => rfl
  | cons p pre ih =>
    have h1 := hp p (List.mem_cons_self _ _)
    simp only [skipTo, h1.1, h1.2, or_self, if_false]
    exact ih (fun q hq => hp q (List.mem_cons_of_mem _ hq))

theorem see_toks_congr {a b : PState} (h : a.toks = b.toks) (t : Token) :
    see t a = see t b := by
  simp [see, token, h]

theorem next_toks_congr {a b : PState} (h : a.toks = b.toks) :
    (next a).toks = (next b).toks := by
  unfold next
  rw [h]
  cases b.toks with
  | nil => simpa using h
  | cons l rest => simp only []; split <;> simp_all

theorem mustBe_toks_of_not_see {t : Token} {s : PState} (h : see t s = false) :
    (mustBe t s).toks =
      (if see t { s with toks := skipTo t s.toks } = true
        then next { s with toks := skipTo t s.toks }
        else { s with toks := skipTo t s.toks }).toks := by
  have e : mustBe t s = recover t (reportError (.mismatch (token s).tag t)
      { s with error := true }) := by
    simp [mustBe, match_, h, token]
  rw [e]
  simp only [recover]
  have hc : see t { reportError (.mismatch (token s).tag t) { s with error := true } with
      toks := skipTo t (reportError (.mismatch (token s).tag t)
        { s with error := true }).toks } = see t { s with toks := skipTo t s.toks } :=
    see_toks_congr rfl t
  rw [hc]
  split
  · exact next_toks_congr rfl
  · rfl

/-- C16: if the current token has tag `t`, `mustBe(t)` is one `next()` and leaves flag
and diagnostics as they are; otherwise it sets the flag, reports the mismatch and
discards tokens up to the first token with tag `t` or end-of-input: when such a token
with tag `t` comes first it is consumed as well and the input continues right after
it, and when end-of-input comes first the current token is end-of-input.  In every
case the buffer, the variable table and the address counter are unchanged. -/
theorem c16_mustBe_matches_or_recovers (t : Token) (s : PState) :
    (see t s = true → mustBe t s = next s ∧ (mustBe t s).error = s.error ∧
      (mustBe t s).diags = s.diags) ∧
    (∀ l post, s.toks = l :: post → l.tag = t → t ≠ T_EOF → (mustBe t s).toks = post) ∧
    (see t s = false → (mustBe t s).error = true ∧
      (mustBe t s).diags = s.diags ++ [.mismatch (token s).tag t]) ∧
    (∀ pre l post, see t s = false → s.toks = pre ++ l :: post → l.tag = t →
      (∀ p ∈ pre, p.tag ≠ t ∧ p.tag ≠ T_EOF) →
      (mustBe t s).toks = (next { s with toks := l :: post }).toks ∧
      (t ≠ T_EOF → (mustBe t s).toks = post)) ∧
    (∀ pre rest, see t s = false → s.toks = pre ++ rest →
      (∀ p ∈ pre, p.tag ≠ t ∧ p.tag ≠ T_EOF) → (rest.headD .eof).tag = T_EOF →
      (mustBe t s).toks = rest ∧ (token (mustBe t s)).tag = T_EOF) ∧
    (mustBe t s).code = s.code ∧ (mustBe t s).vars = s.vars ∧
    (mustBe t s).lastVar = s.lastVar := by
  refine ⟨?_, ?_, mustBe_error_of_not_see, ?_, ?_, mustBe_code t s, mustBe_vars t s,
    mustBe_lastVar t s⟩
  · intro h
    rw [mustBe_of_see h]
    exact ⟨rfl, next_error s, next_diags s⟩
  · intro l post hs hl ht
    have h : see t s = true := by rw [see_cons hs]; simp [hl]
    rw [mustBe_of_see h]
    exact next_cons hs (by rw [hl]; exact ht)
  · intro pre l post h hs hl hp
    have hk : skipTo t s.toks = l :: post := by
      rw [hs]; exact skipTo_found t pre l post (Or.inl hl) hp
    have hsee : see t { s with toks := l :: post } = true := by
      simp [see, token, hl]
    have e : (mustBe t s).toks = (next { s with toks := l :: post }).toks := by
      rw [mustBe_toks_of_not_see h, hk, hsee]
      rfl
    refine ⟨e, fun ht => ?_⟩
    rw [e]
    exact next_cons rfl (by rw [hl]; exact ht)
  · intro pre rest h hs hp hr
    have hk : skipTo t s.toks = rest := by
      rw [hs]
      cases rest with
      | nil => simpa using skipTo_exhausted t pre hp
      | cons e r => exact skipTo_found t pre e r (Or.inr (by simpa using hr)) hp
    have hn : (next { s with toks := rest }).toks = rest := by
      have : see T_EOF { s with toks := rest } = true := by
        simp only [see, token]
        simpa using hr
      rw [next_of_eof this]
    have e : (mustBe t s).toks = rest := by
      rw [mustBe_toks_of_not_see h, hk]
      split
      · exact hn
      · rfl
    exact ⟨e, by simp only [token, e]; exact hr⟩

/-- Witness for C16: on the input `x y := 1 end`, `mustBe(T_IDENTIFIER)` consumes
`x`, and `mustBe(T_ASSIGN)` discards `x y`, consumes `:=` and sets the error flag. -/
theorem c16_mustBe_matches_or_recovers_witness :
    (mustBe T_IDENTIFIER recoverEntry).toks =
      [Lexeme.identifier "y", Lexeme.assign, Lexeme.number 1, Lexeme.kwEnd, Lexeme.eof] ∧
    (mustBe T_IDENTIFIER recoverEntry).error = false ∧
    (mustBe T_ASSIGN recoverEntry).toks = [Lexeme.number 1, Lexeme.kwEnd, Lexeme.eof] ∧
    (mustBe T_ASSIGN recoverEntry).error = true := by
  have h1 := c16_mustBe_matches_or_recovers T_IDENTIFIER recoverEntry
  have h2 := c16_mustBe_matches_or_recovers T_ASSIGN recoverEntry
  refine ⟨h1.2.1 _ _ rfl rfl (by decide), ?_, ?_, (h2.2.2.1 rfl).1⟩
  · rw [(h1.1 rfl).2.1]; rfl
  · exact (h2.2.2.2.1 [Lexeme.identifier "x", Lexeme.identifier "y"] Lexeme.assign
      [Lexeme.number 1, Lexeme.kwEnd, Lexeme.eof] rfl rfl rfl (by decide)).2 (by decide)

/-! ## Well-formed programs -/

theorem factor_complete (f : Factor) (s : PState) (rest : List Lexeme) (n : Nat)
    (ht : s.toks = f.toks ++ rest) (hn : 10 * s.toks.length + 1 ≤ n) :
    ∃ s', factor n s = .ok s' ∧ Emits s rest f.code s' := by
  obtain ⟨s', h⟩ := (total_all n).2.2.2.2.2.2.2.2.1 s hn
  exact ⟨s', h, factor_sound f n s s' rest ht h⟩

theorem term_complete (t : Term) (s : PState) (rest : List Lexeme) (n : Nat)
    (ht : s.toks = t.toks ++ rest) (hm : NoMul rest) (hn : 10 * s.toks.length + 3 ≤ n) :
    ∃ s', term n s = .ok s' ∧ Emits s rest t.code s' := by
  obtain ⟨s', h⟩ := (total_all n).2.2.2.2.2.2.1 s hn
  exact ⟨s', h, term_sound t n s s' rest ht hm h⟩

theorem relation_complete (r : Rel) (s : PState) (rest : List Lexeme) (n : Nat)
    (ht : s.toks = r.toks ++ rest) (ha : NoAdd rest) (hm : NoMul rest)
    (hn : 10 * s.toks.length + 6 ≤ n) :
    ∃ s', relation n s = .ok s' ∧ Emits s rest r.code s' := by
  obtain ⟨s', h⟩ := (total_all n).2.2.2.2.2.2.2.2.2 s hn
  exact ⟨s', h, relation_sound r n s s' rest ht ha hm h⟩

theorem statementList_complete (body : StmtList) (s : PState) (rest : List Lexeme) (n : Nat)
    (ht : s.toks = body.toks ++ rest) (hc : Closer rest)
    (hn : 10 * s.toks.length + 9 ≤ n) :
    ∃ s', statementList n s = .ok s' ∧
      Emits s rest (fun a => body.code a s.code.length) s' := by
  obtain ⟨s', h⟩ := (total_all n).1 s hn
  exact ⟨s', h, statementList_sound body n s s' rest ht hc h⟩

/-- On the tokens of `begin`, a statement list and `end`, `program` produces the
reference code of the list followed by `STOP`, whatever follows `end`. -/
theorem program_sound (body : StmtList) (n : Nat) (s s' : PState) (rest : List Lexeme)
    (ht : s.toks = Lexeme.kwBegin :: (body.toks ++ Lexeme.kwEnd :: rest))
    (h : program n s = .ok s') :
    Emits s rest (fun a => body.code a s.code.length ++ [.STOP]) s' := by
  obtain ⟨s1, h1, rfl⟩ := program_unfold n s s' h
  have hb := Emits.mustBe (t := T_BEGIN) ht rfl (by decide)
  have hl := statementList_sound body n _ s1 (Lexeme.kwEnd :: rest) hb.1
    (by simp [Closer, Lexeme.tag]) h1
  have he := Emits.mustBe (t := T_END) hl.1 rfl (by decide)
  exact (((hb.seq hl).seq he).seq (Emits.emit .STOP he.1)).congr (fun _ _ => by simp)

/-- On a well-formed program followed by any tokens, `parse` succeeds and flushes the
reference code. -/
theorem parse_wellformed (body : StmtList) (rest : List Lexeme) :
    ∃ s, parse (Lexeme.kwBegin :: (body.toks ++ Lexeme.kwEnd :: rest)) = .ok s ∧
      s.error = false ∧ s.diags = [] ∧ s.flushed = [s.code] ∧ s.toks = rest ∧
      s.code = body.code (addrOf s.vars) 0 ++ [.STOP] := by
  obtain ⟨sp, s, hp, hs, hf, -, h1, -⟩ :=
    parse_outcome (Lexeme.kwBegin :: (body.toks ++ Lexeme.kwEnd :: rest))
  have he := program_sound body _ _ sp rest rfl hp
  have herr : sp.error = false := he.2.1
  have := h1 herr
  subst this
  refine ⟨_, hs, herr, he.2.2.1, by simp [flush, hf], he.1, ?_⟩
  have := he.2.2.2.2 _ (Extends.refl _)
  simpa [flush, PState.init] using this

/-- C13: on the tokens of `begin`, a derivation of `statementList`, `end` and
end-of-input, `parse` ends with the error flag clear, no diagnostic, one flush, the
current token at end-of-input and the reference code in the buffer; and each of
`factor`, `term`, `expression`, `relation`, `statement` and `statementList`, entered
on the tokens of one of its derivations, returns with exactly the tokens after the
derivation left, and with flag and diagnostics unchanged. -/
theorem c13_wellformed_program_accepted (body : StmtList) :
    (∃ s, parse (Lexeme.kwBegin :: (body.toks ++ [Lexeme.kwEnd, Lexeme.eof])) = .ok s ∧
      s.error = false ∧ s.diags = [] ∧ s.flushed = [s.code] ∧ s.toks = [Lexeme.eof] ∧
      s.code = body.code (addrOf s.vars) 0 ++ [.STOP]) ∧
    (∀ (f : Factor) s rest n, s.toks = f.toks ++ rest → 10 * s.toks.length + 1 ≤ n →
      ∃ s', factor n s = .ok s' ∧ s'.toks = rest ∧ s'.error = s.error ∧
        s'.diags = s.diags) ∧
    (∀ (t : Term) s rest n, s.toks = t.toks ++ rest → NoMul rest →
      10 * s.toks.length + 3 ≤ n →
      ∃ s', term n s = .ok s' ∧ s'.toks = rest ∧ s'.error = s.error ∧ s'.diags = s.diags) ∧
    (∀ (e : Expr) s rest n, s.toks = e.toks ++ rest → NoAdd rest → NoMul rest →
      10 * s.toks.length + 5 ≤ n →
      ∃ s', expression n s = .ok s' ∧ s'.toks = rest ∧ s'.error = s.error ∧
        s'.diags = s.diags) ∧
    (∀ (r : Rel) s rest n, s.toks = r.toks ++ rest → NoAdd rest → NoMul rest →
      10 * s.toks.length + 6 ≤ n →
      ∃ s', relation n s = .ok s' ∧ s'.toks = rest ∧ s'.error = s.error ∧
        s'.diags = s.diags) ∧
    (∀ (st : Stmt) s rest n, s.toks = st.toks ++ rest → st.follow rest →
      10 * s.toks.length + 7 ≤ n →
      ∃ s', statement n s = .ok s' ∧ s'.toks = rest ∧ s'.error = s.error ∧
        s'.diags = s.diags) ∧
    (∀ (l : StmtList) s rest n, s.toks = l.toks ++ rest → Closer rest →
      10 * s.toks.length + 9 ≤ n →
      ∃ s', statementList n s = .ok s' ∧ s'.toks = rest ∧ s'.error = s.error ∧
        s'.diags = s.diags) := by
  refine ⟨parse_wellformed body [Lexeme.eof], ?_, ?_, ?_, ?_, ?_, ?_⟩
  · intro f s rest n ht hn
    obtain ⟨s', h, e⟩ := factor_complete f s rest n ht hn
    exact ⟨s', h, e.1, e.2.1, e.2.2.1⟩
  · intro t s rest n ht hm hn
    obtain ⟨s', h, e⟩ := term_complete t s rest n ht hm hn
    exact ⟨s', h, e.1, e.2.1, e.2.2.1⟩
  · intro e0 s rest n ht ha hm hn
    obtain ⟨s', h, e⟩ := expression_complete e0 s rest n ht ha hm hn
    exact ⟨s', h, e.1, e.2.1, e.2.2.1⟩
  · intro r s rest n ht ha hm hn
    obtain ⟨s', h, e⟩ := relation_complete r s rest n ht ha hm hn
    exact ⟨s', h, e.1, e.2.1, e.2.2.1⟩
  · intro st s rest n ht hf hn
    obtain ⟨s', h, e⟩ := statement_complete st s rest n ht hf hn
    exact ⟨s', h, e.1, e.2.1, e.2.2.1⟩
  · intro l s rest n ht hc hn
    obtain ⟨s', h, e⟩ := statementList_complete l s rest n ht hc hn
    exact ⟨s', h, e.1, e.2.1, e.2.2.1⟩

/-- Witness for C13: the `while` program is such a token sequence, and `statement`
entered at its loop returns in front of `end`. -/
theorem c13_wellformed_program_accepted_witness :
    Lexeme.kwBegin :: (whileProgramBody.toks ++ [Lexeme.kwEnd, Lexeme.eof]) = whileProgram ∧
    whileFinal.error = false ∧ whileFinal.diags = [] ∧
    whileFinal.flushed = [whileFinal.code] ∧
    (∃ s', statement 300 whileEntry = .ok s' ∧ s'.toks = [Lexeme.kwEnd, Lexeme.eof]) := by
  have hw : Lexeme.kwBegin :: (whileProgramBody.toks ++ [Lexeme.kwEnd, Lexeme.eof]) =
      whileProgram := rfl
  obtain ⟨⟨s, hs, h1, h2, h3, -, -⟩, -, -, -, -, hst, -⟩ :=
    c13_wellformed_program_accepted whileProgramBody
  rw [hw] at hs
  have e : parse whileProgram = .ok whileFinal := rfl
  rw [e] at hs
  cases hs
  obtain ⟨s', h, ht, -, -⟩ := hst (.while_ whileRel whileBody) whileEntry
    [Lexeme.kwEnd, Lexeme.eof] 300 rfl trivial (by decide)
  exact ⟨hw, h1, h2, h3, s', h, ht⟩

/-! ## Shape and stack effect of the emitted code -/

mutual

theorem factor_code_arith : ∀ (f : Factor) (a : String → Nat) (i : Instr),
    i ∈ f.code a → i.isArith = true
  | .num v, a, i, h => by simp [Factor.code] at h; subst h; rfl
  | .ident x, a, i, h => by simp [Factor.code] at h; subst h; rfl
  | .neg f, a, i, h => by
    simp only [Factor.code, List.mem_append, List.mem_singleton] at h
    rcases h with h | h
    · exact factor_code_arith f a i h
    · subst h; rfl
  | .paren e, a, i, h => by
    simp only [Factor.code] at h
    exact expr_code_arith e a i h
  | .read, a, i, h => by simp [Factor.code] at h; subst h; rfl

theorem term_code_arith : ∀ (t : Term) (a : String → Nat) (i : Instr),
    i ∈ t.code a → i.isArith = true
  | .mk f tl, a, i, h => by
    simp only [Term.code, List.mem_append] at h
    rcases h with h | h
    · exact factor_code_arith f a i h
    · exact termTail_code_arith tl a i h

theorem termTail_code_arith : ∀ (tl : TermTail) (a : String → Nat) (i : Instr),
    i ∈ tl.code a → i.isArith = true
  | .nil, a, i, h => by simp [TermTail.code] at h
  | .cons op f tl, a, i, h => by
    simp only [TermTail.code, List.mem_append, List.mem_singleton] at h
    rcases h with (h | h) | h
    · exact factor_code_arith f a i h
    · subst h; cases op <;> rfl
    · exact termTail_code_arith tl a i h

theorem expr_code_arith : ∀ (e : Expr) (a : String → Nat) (i : Instr),
    i ∈ e.code a → i.isArith = true
  | .mk t tl, a, i, h => by
    simp only [Expr.code, List.mem_append] at h
    rcases h with h | h
    · exact term_code_arith t a i h
    · exact exprTail_code_arith tl a i h

theorem exprTail_code_arith : ∀ (tl : ExprTail) (a : String → Nat) (i : Instr),
    i ∈ tl.code a → i.isArith = true
  | .nil, a, i, h => by simp [ExprTail.code] at h
  | .cons op t tl, a, i, h => by
    simp only [ExprTail.code, List.mem_append, List.mem_singleton] at h
    rcases h with (h | h) | h
    · exact term_code_arith t a i h
    · subst h; cases op <;> rfl
    · exact exprTail_code_arith tl a i h

end

theorem stackAfter_append {c1 : List Instr} {h h1 : Nat} (c2 : List Instr)
    (e : stackAfter c1 h = some h1) : stackAfter (c1 ++ c2) h = stackAfter c2 h1 := by
  induction c1 generalizing h with
  | nil => simp only [stackAfter] at e; cases e; rfl
  | cons i c1 ih =>
    simp only [stackAfter, List.cons_append] at e ⊢
    cases hi : i.effect with
    | none => simp [hi] at e
    | some p =>
      obtain ⟨pops, pushes⟩ := p
      simp only [hi] at e ⊢
      split
      · next hp => simp only [hp, if_true] at e; exact ih e
      · next hp => simp [hp] at e

mutual

theorem factor_stack : ∀ (f : Factor) (a : String → Nat) (h : Nat),
    stackAfter (f.code a) h = some (h + 1)
  | .num v, a, h => by simp [Factor.code, stackAfter, Instr.effect]
  | .ident x, a, h => by simp [Factor.code, stackAfter, Instr.effect]
  | .neg f, a, h => by
    simp only [Factor.code]
    rw [stackAfter_append _ (factor_stack f a h)]
    simp [stackAfter, Instr.effect]
  | .paren e, a, h => by
    simp only [Factor.code]
    exact expr_stack e a h
  | .read, a, h => by simp [Factor.code, stackAfter, Instr.effect]

theorem term_stack : ∀ (t : Term) (a : String → Nat) (h : Nat),
    stackAfter (t.code a) h = some (h + 1)
  | .mk f tl, a, h => by
    simp only [Term.code]
    rw [stackAfter_append _ (factor_stack f a h)]
    exact termTail_stack tl a h

theorem termTail_stack : ∀ (tl : TermTail) (a : String → Nat) (h : Nat),
    stackAfter (tl.code a) (h + 1) = some (h + 1)
  | .nil, a, h => by simp [TermTail.code, stackAfter]
  | .cons op f tl, a, h => by
    simp only [TermTail.code, List.append_assoc]
    rw [stackAfter_append _ (factor_stack f a (h + 1))]
    have : stackAfter [op.instr] (h + 1 + 1) = some (h + 1) := by
      cases op <;> simp [MulOp.instr, stackAfter, Instr.effect]
    rw [stackAfter_append _ this]
    exact termTail_stack tl a h

theorem expr_stack : ∀ (e : Expr) (a : String → Nat) (h : Nat),
    stackAfter (e.code a) h = some (h + 1)
  | .mk t tl, a, h => by
    simp only [Expr.code]
    rw [stackAfter_append _ (term_stack t a h)]
    exact exprTail_stack tl a h

theorem exprTail_stack : ∀ (tl : ExprTail) (a : String → Nat) (h : Nat),
    stackAfter (tl.code a) (h + 1) = some (h + 1)
  | .nil, a, h => by simp [ExprTail.code, stackAfter]
  | .cons op t tl, a, h => by
    simp only [ExprTail.code, List.append_assoc]
    rw [stackAfter_append _ (term_stack t a (h + 1))]
    have : stackAfter [op.instr] (h + 1 + 1) = some (h + 1) := by
      cases op <;> simp [AddOp.instr, stackAfter, Instr.effect]
    rw [stackAfter_append _ this]
    exact exprTail_stack tl a h

end

theorem rel_stack (r : Rel) (a : String → Nat) (h : Nat) :
    stackAfter (r.code a) h = some (h + 1) := by
  simp only [Rel.code, List.append_assoc]
  rw [stackAfter_append _ (expr_stack r.lhs a h),
    stackAfter_append _ (expr_stack r.rhs a (h + 1))]
  simp [stackAfter, Instr.effect]

theorem countP_compare_expr (e : Expr) (a : String → Nat) :
    (e.code a).countP Instr.isCompare = 0 := by
  rw [List.countP_eq_zero]
  intro i hi
  have := expr_code_arith e a i hi
  cases i <;> simp [Instr.isArith, Instr.isCompare] at this ⊢

/-- C14: on the tokens of a relation `e1 cmp e2` the procedure `relation` consumes
exactly those tokens and appends the code of `e1`, the code of `e2` and one `COMPARE`
with the discriminant of `cmp`; what it appends contains exactly one `COMPARE`; a
comparison operator right after the relation is not consumed and is the current
token afterwards.  The discriminants are 0 for equal, 1 for not-equal, 2 for less,
3 for greater, 4 for less-or-equal and 5 for greater-or-equal. -/
theorem c14_relation_emits_one_compare (r : Rel) (s : PState) (rest : List Lexeme) (n : Nat)
    (ht : s.toks = r.toks ++ rest) (ha : NoAdd rest) (hm : NoMul rest)
    (hn : 10 * s.toks.length + 6 ≤ n) :
    (∃ s', relation n s = .ok s' ∧ s'.toks = rest ∧ s'.error = s.error ∧
      s'.diags = s.diags ∧
      s'.code = s.code ++ r.lhs.code (addrOf s'.vars) ++ r.rhs.code (addrOf s'.vars) ++
        [.COMPARE (cmpCode r.op)] ∧
      (s'.code.drop s.code.length).countP Instr.isCompare = 1 ∧
      (∀ c2 rest', rest = Lexeme.cmp c2 :: rest' → token s' = Lexeme.cmp c2)) ∧
    cmpCode C_EQ = 0 ∧ cmpCode C_NE = 1 ∧ cmpCode C_LT = 2 ∧ cmpCode C_GT = 3 ∧
    cmpCode C_LE = 4 ∧ cmpCode C_GE = 5 := by
  obtain ⟨s', h, h1, h2, h3, -, h5⟩ := relation_complete r s rest n ht ha hm hn
  have hc : s'.code = s.code ++ r.lhs.code (addrOf s'.vars) ++ r.rhs.code (addrOf s'.vars) ++
      [.COMPARE (cmpCode r.op)] := by
    rw [h5 _ (Extends.refl _)]
    simp [Rel.code]
  refine ⟨⟨s', h, h1, h2, h3, hc, ?_, ?_⟩, rfl, rfl, rfl, rfl, rfl, rfl⟩
  · rw [hc]
    simp only [List.append_assoc, List.drop_left, List.countP_append,
      countP_compare_expr]
    rfl
  · intro c2 rest' hr
    simp [token, h1, hr]

/-- Witness for C14: on `1 = 2 < 3` the procedure `relation` emits
`PUSH 1, PUSH 2, COMPARE 0` and stops in front of `<`. -/
theorem c14_relation_emits_one_compare_witness :
    ∃ s', relation 200 chainedEntry = .ok s' ∧
      s'.code = [.PUSH 1, .PUSH 2, .COMPARE 0] ∧ token s' = Lexeme.cmp C_LT := by
  obtain ⟨⟨s', h, -, -, -, hc, -, ht⟩, -⟩ :=
    c14_relation_emits_one_compare (Rel.mk (numE 1) C_EQ (numE 2)) chainedEntry
      [Lexeme.cmp C_LT, Lexeme.number 3, Lexeme.eof] 200 rfl
      (by simp [NoAdd, Lexeme.tag]) (by simp [NoMul, Lexeme.tag]) (by decide)
  exact ⟨s', h, by rw [hc]; rfl, ht _ _ rfl⟩

/-- C17: on the tokens of an expression, `expression` appends only `PUSH`, `LOAD`,
`INPUT`, `ADD`, `SUB`, `MULT`, `DIV` and `INVERT`, and what it appends, run from any
stack height, never pops below that height and ends one above it.  What `relation`
appends on a relation likewise ends one above the height at entry, and what
`statement` appends on an assignment or on a `write` ends at the height at entry. -/
theorem c17_expression_leaves_one_value (e : Expr) (s : PState) (rest : List Lexeme)
    (n : Nat) (ht : s.toks = e.toks ++ rest) (ha : NoAdd rest) (hm : NoMul rest)
    (hn : 10 * s.toks.length + 5 ≤ n) :
    (∃ s' c, expression n s = .ok s' ∧ s'.code = s.code ++ c ∧
      (∀ i ∈ c, i.isArith = true) ∧ stackAfter c 0 = some 1 ∧
      ∀ h, stackAfter c h = some (h + 1)) ∧
    (∀ (r : Rel) s0 rest0 n0, s0.toks = r.toks ++ rest0 → NoAdd rest0 → NoMul rest0 →
      10 * s0.toks.length + 6 ≤ n0 →
      ∃ s1 c, relation n0 s0 = .ok s1 ∧ s1.code = s0.code ++ c ∧
        ∀ h, stackAfter c h = some (h + 1)) ∧
    (∀ x e0 s0 rest0 n0, s0.toks = (Stmt.assign x e0).toks ++ rest0 → NoAdd rest0 →
      NoMul rest0 → 10 * s0.toks.length + 7 ≤ n0 →
      ∃ s1 c, statement n0 s0 = .ok s1 ∧ s1.code = s0.code ++ c ∧
        ∀ h, stackAfter c h = some h) ∧
    (∀ e0 s0 rest0 n0, s0.toks = (Stmt.write e0).toks ++ rest0 →
      10 * s0.toks.length + 7 ≤ n0 →
      ∃ s1 c, statement n0 s0 = .ok s1 ∧ s1.code = s0.code ++ c ∧
        ∀ h, stackAfter c h = some h) := by
  refine ⟨?_, ?_, ?_, ?_⟩
  · obtain ⟨s', h, e1⟩ := expression_complete e s rest n ht ha hm hn
    exact ⟨s', _, h, e1.2.2.2.2 _ (Extends.refl _), expr_code_arith e _,
      expr_stack e _ 0, expr_stack e _⟩
  · intro r s0 rest0 n0 h0 a0 m0 hn0
    obtain ⟨s1, h, e1⟩ := relation_complete r s0 rest0 n0 h0 a0 m0 hn0
    exact ⟨s1, _, h, e1.2.2.2.2 _ (Extends.refl _), rel_stack r _⟩
  · intro x e0 s0 rest0 n0 h0 a0 m0 hn0
    obtain ⟨s1, h, e1⟩ := statement_complete (.assign x e0) s0 rest0 n0 h0 ⟨a0, m0⟩ hn0
    refine ⟨s1, _, h, e1.2.2.2.2 _ (Extends.refl _), fun k => ?_⟩
    simp only [Stmt.code]
    rw [stackAfter_append _ (expr_stack e0 _ k)]
    simp [stackAfter, Instr.effect]
  · intro e0 s0 rest0 n0 h0 hn0
    obtain ⟨s1, h, e1⟩ := statement_complete (.write e0) s0 rest0 n0 h0 trivial hn0
    refine ⟨s1, _, h, e1.2.2.2.2 _ (Extends.refl _), fun k => ?_⟩
    simp only [Stmt.code]
    rw [stackAfter_append _ (expr_stack e0 _ k)]
    simp [stackAfter, Instr.effect]

/-- Witness for C17: the code of `2 + 3 * 4` ends one above the height at entry. -/
theorem c17_expression_leaves_one_value_witness :
    ∃ s' c, expression 65 exprEntry = .ok s' ∧ s'.code = c ∧
      c = [.PUSH 2, .PUSH 3, .PUSH 4, .MULT, .ADD] ∧ stackAfter c 0 = some 1 := by
  obtain ⟨⟨s', c, h, hc, -, h0, -⟩, -⟩ := c17_expression_leaves_one_value
    twoPlusThreeTimesFour exprEntry [Lexeme.eof] 65 rfl
    (by simp [NoAdd, Lexeme.tag]) (by simp [NoMul, Lexeme.tag]) (by decide)
  have hs : expression 65 exprEntry = .ok
      { exprEntry with toks := [Lexeme.eof],
                       code := [.PUSH 2, .PUSH 3, .PUSH 4, .MULT, .ADD] } := rfl
  rw [hs] at h
  cases h
  exact ⟨_, _, hs, rfl, rfl, rfl⟩

/-- The bindings of the variable table survive every step. -/
theorem closed_extends : Closed (fun s s' => Extends s.vars s'.vars) where
  refl := fun _ => Extends.refl _
  trans := fun h1 h2 => h1.trans h2
  next := fun s => by rw [next_vars]; exact Extends.refl _
  mustBe := fun t s => by rw [mustBe_vars]; exact Extends.refl _
  report := fun _ _ => Extends.refl _
  lookup := findOrAddVariable_extends
  emit := fun _ _ _ _ => Extends.refl _
  reserve := fun _ => Extends.refl _
  patchNo := fun _ _ => Extends.refl _
  patch := fun _ _ => Extends.refl _
  jumpBack := fun _ _ h => h

theorem getElem_mid (pre post : List Instr) (x : Instr) :
    (pre ++ x :: post)[pre.length]? = some x := by
  rw [List.getElem?_append_right (le_refl _)]
  simp

/-- A `for` statement ends with its `reserve` call, and the variable it looked up is
still bound to the same address. -/
theorem for_shape (x : String) (tl : List Lexeme) (n : Nat) (s s' : PState)
    (ht : s.toks = Lexeme.kwFor :: Lexeme.identifier x :: tl)
    (h : statement (n + 1) s = .ok s') :
    ∃ z, s' = (reserve z).2 ∧
      findVar x s'.vars = some (findOrAddVariable x (next s)).1 := by
  have c1 : see T_IDENTIFIER s = false := by rw [see_cons ht]; rfl
  have m1 : match_ T_IF s = (false, s) := match_cons_ne ht (by decide)
  have m2 : match_ T_WHILE s = (false, s) := match_cons_ne ht (by decide)
  have m3 : match_ T_FOR s = (true, next s) := match_cons_eq ht rfl
  have hn0 := next_cons ht (by simp [Lexeme.tag])
  have c2 : see T_IDENTIFIER (next s) = true := by rw [see_cons hn0]; rfl
  have hg : getStringValue (next s) = .ok x := by
    unfold getStringValue; rw [token_cons hn0]
  simp only [statement, c1, m1, m2, m3, c2, hg, if_true, bind_ok, Bool.false_eq_true,
    if_false, pure_ok, ok_bind, Bool.not_true] at h
  obtain ⟨s1, h1, s2, h2, s3, h3, h⟩ := h
  subst h
  refine ⟨_, rfl, ?_⟩
  have hall := closed_all closed_extends n
  have hx : Extends (findOrAddVariable x (next s)).2.vars s3.vars := by
    have e1 := hall.2.2.2.2.1 _ _ h1
    have e2 := hall.2.2.2.1 _ _ h2
    have e3 := hall.1 _ _ h3
    simp only [mustBe_vars, next_vars, emit_vars] at e1 e3
    exact (e1.trans e2).trans e3
  have := hx x _ (findOrAddVariable_findVar x (next s))
  simpa using this

/-- C18: on the tokens of `for x := e1 , ... , ek do S od` the procedure `statement`
consumes exactly those tokens, reports nothing, and appends the code of `e1`, ...,
`ek`, then `STORE addr(x)`, the code of `S`, `JUMP Ltop` and one placeholder, where
`Ltop` is the address of the `STORE`, `addr(x)` is the address bound to `x` in the
table, and the placeholder, the last instruction, is the slot returned by the last
`reserve` call. -/
theorem c18_for_loop (x : String) (e : Expr) (more : List Expr) (body : StmtList)
    (s : PState) (rest : List Lexeme) (n : Nat)
    (ht : s.toks = (Stmt.for_ x e more body).toks ++ rest)
    (hn : 10 * s.toks.length + 7 ≤ n) :
    ∃ s' ce cb, statement n s = .ok s' ∧ s'.toks = rest ∧ s'.error = s.error ∧
      s'.diags = s.diags ∧
      ce = e.code (addrOf s'.vars) ++ moreCode (addrOf s'.vars) more ∧
      cb = body.code (addrOf s'.vars) (s.code.length + ce.length + 1) ∧
      s'.code = s.code ++ ce ++ [.STORE (addrOf s'.vars x)] ++ cb ++
        [.JUMP (s.code.length + ce.length)] ++ [.NOP] ∧
      s'.code[s.code.length + ce.length]? = some (.STORE (addrOf s'.vars x)) ∧
      findVar x s'.vars = some (addrOf s'.vars x) ∧
      s'.reserved.getLast? = some (s'.code.length - 1) ∧
      s'.code.getLast? = some .NOP := by
  obtain ⟨s', h, h1, h2, h3, -, h5⟩ :=
    statement_complete (.for_ x e more body) s rest n ht trivial hn
  have hc : s'.code = s.code ++ (e.code (addrOf s'.vars) ++ moreCode (addrOf s'.vars) more) ++
      [.STORE (addrOf s'.vars x)] ++
      body.code (addrOf s'.vars) (s.code.length +
        (e.code (addrOf s'.vars) ++ moreCode (addrOf s'.vars) more).length + 1) ++
      [.JUMP (s.code.length +
        (e.code (addrOf s'.vars) ++ moreCode (addrOf s'.vars) more).length)] ++ [.NOP] := by
    rw [h5 _ (Extends.refl _)]
    simp [Stmt.code]
  cases n with
  | zero => simp [statement] at h
  | succ n =>
    obtain ⟨z, hz, hv⟩ := for_shape x _ n s s'
      (by simpa [Stmt.toks] using ht) h
    refine ⟨s', _, _, h, h1, h2, h3, rfl, rfl, hc, ?_, ?_, ?_, ?_⟩
    · have hc2 : s'.code =
          (s.code ++ (e.code (addrOf s'.vars) ++ moreCode (addrOf s'.vars) more)) ++
          (Instr.STORE (addrOf s'.vars x) :: (body.code (addrOf s'.vars) (s.code.length +
            (e.code (addrOf s'.vars) ++ moreCode (addrOf s'.vars) more).length + 1) ++
            [.JUMP (s.code.length +
              (e.code (addrOf s'.vars) ++ moreCode (addrOf s'.vars) more).length)] ++
            [.NOP])) := by
        rw [hc]; simp
      rw [hc2, ← List.length_append]
      exact getElem_mid _ _ _
    · rw [hv]
      simp [addrOf, hv]
    · rw [hz]
      simp [reserve]
    · rw [hc]
      exact List.getLast?_concat _

/-- Witness for C18 on `for x := 1 , 2 do write ( x ) od`. -/
theorem c18_for_loop_witness :
    ∃ s', statement 300 forEntry = .ok s' ∧
      s'.code = [.PUSH 1, .PUSH 2, .STORE 0, .LOAD 0, .PRINT, .JUMP 2, .NOP] ∧
      s'.reserved = [6] ∧ s'.patched = [] := by
  obtain ⟨s', ce, cb, h, -⟩ := c18_for_loop "x" (numE 1) [numE 2]
    (.seq (.one (.write (varE "x")))) forEntry [Lexeme.kwEnd, Lexeme.eof] 300 rfl
    (by decide)
  have hs : statement 300 forEntry = .ok forExit := rfl
  rw [hs] at h
  cases h
  exact ⟨_, hs, rfl, rfl, rfl⟩

/-! ## Typed accessors are called behind their tag tests -/

theorem bind_error {α β : Type} {x : Except Fault α} {f : α → Except Fault β} {e : Fault} :
    (x >>= f) = .error e ↔ x = .error e ∨ ∃ a, x = .ok a ∧ f a = .error e := by
  cases x <;> simp [bind, Except.bind]

theorem pure_ne_error {α : Type} {a : α} {e : Fault} :
    ¬ (pure a : Except Fault α) = .error e := by
  simp [pure, Except.pure]

theorem factor_safe (n : Nat) (ihE : Safe expression n) (ihF : Safe factor n) :
    Safe factor (n + 1) := by
  intro s e h
  simp only [factor] at h
  split at h
  · next hs =>
    obtain ⟨v, hv⟩ := see_number hs
    simp [hv, ok_bind, pure_eq_ok] at h
  · split at h
    · next hs =>
      obtain ⟨x, hx⟩ := see_identifier hs
      simp [hx, ok_bind, pure_eq_ok] at h
    · obtain ⟨b, hb, -⟩ := seeMinus_ok s
      simp only [hb, ok_bind] at h
      split at h
      · simp only [bind_error] at h
        rcases h with h | ⟨a, -, h⟩
        · exact ihF _ _ h
        · exact absurd h pure_ne_error
      · split at h
        · simp only [bind_error] at h
          rcases h with h | ⟨a, -, h⟩
          · exact ihE _ _ h
          · exact absurd h pure_ne_error
        · split at h <;> exact absurd h pure_ne_error

theorem termLoop_safe (n : Nat) (ihF : Safe factor n) (ihL : Safe termLoop n) :
    Safe termLoop (n + 1) := by
  intro s e h
  simp only [termLoop] at h
  split at h
  · next hs =>
    obtain ⟨a, ha⟩ := see_mulop hs
    simp only [ha, ok_bind, bind_error] at h
    rcases h with h | ⟨s1, -, h⟩
    · exact ihF _ _ h
    · exact ihL _ _ h
  · exact absurd h pure_ne_error

theorem term_safe (n : Nat) (ihF : Safe factor n) (ihL : Safe termLoop n) :
    Safe term (n + 1) := by
  intro s e h
  simp only [term, bind_error] at h
  rcases h with h | ⟨s1, -, h⟩
  · exact ihF _ _ h
  · exact ihL _ _ h

theorem expressionLoop_safe (n : Nat) (ihT : Safe term n) (ihL : Safe expressionLoop n) :
    Safe expressionLoop (n + 1) := by
  intro s e h
  simp only [expressionLoop] at h
  split at h
  · next hs =>
    obtain ⟨a, ha⟩ := see_addop hs
    simp only [ha, ok_bind, bind_error] at h
    rcases h with h | ⟨s1, -, h⟩
    · exact ihT _ _ h
    · exact ihL _ _ h
  · exact absurd h pure_ne_error

theorem expression_safe (n : Nat) (ihT : Safe term n) (ihL : Safe expressionLoop n) :
    Safe expression (n + 1) := by
  intro s e h
  simp only [expression, bind_error] at h
  rcases h with h | ⟨s1, -, h⟩
  · exact ihT _ _ h
  · exact ihL _ _ h

theorem relation_safe (n : Nat) (ihE : Safe expression n) : Safe relation (n + 1) := by
  intro s e h
  simp only [relation, bind_error] at h
  rcases h with h | ⟨s1, -, h⟩
  · exact ihE _ _ h
  · split at h
    · next hs =>
      obtain ⟨c, hc⟩ := see_cmp hs
      simp only [hc, ok_bind, bind_error] at h
      rcases h with h | ⟨s2, -, h⟩
      · exact ihE _ _ h
      · exact absurd h pure_ne_error
    · exact absurd h pure_ne_error

theorem forLoop_safe (n : Nat) (ihE : Safe expression n) (ihL : Safe forLoop n) :
    Safe forLoop (n + 1) := by
  intro s e h
  simp only [forLoop] at h
  split at h
  · simp only [bind_error] at h
    rcases h with h | ⟨s1, -, h⟩
    · exact ihE _ _ h
    · exact ihL _ _ h
  · exact absurd h pure_ne_error

theorem statementLoop_safe (n : Nat) (ihS : Safe statement n) (ihL : Safe statementLoop n) :
    Safe statementLoop (n + 1) := by
  intro s e h
  simp only [statementLoop, bind_error] at h
  rcases h with h | ⟨s1, -, h⟩
  · exact ihS _ _ h
  · split at h
    · exact ihL _ _ h
    · exact absurd h pure_ne_error

theorem statementList_safe (n : Nat) (ihL : Safe statementLoop n) :
    Safe statementList (n + 1) := by
  intro s e h
  simp only [statementList] at h
  split at h
  · cases h
  · exact ihL _ _ h

theorem statement_safe (n : Nat) (ihE : Safe expression n) (ihR : Safe relation n)
    (ihF : Safe forLoop n) (ihSL : Safe statementList n) : Safe statement (n + 1) := by
  intro s e h
  simp only [statement] at h
  split at h
  · next hs =>
    obtain ⟨x, hx⟩ := see_identifier hs
    simp only [hx, ok_bind, bind_error] at h
    rcases h with h | ⟨s1, -, h⟩
    · exact ihE _ _ h
    · exact absurd h pure_ne_error
  · split at h
    · simp only [bind_error] at h
      rcases h with h | ⟨s1, -, h | ⟨s2, -, h⟩⟩
      · exact ihR _ _ h
      · exact ihSL _ _ h
      · split at h
        · simp only [bind_error] at h
          rcases h with h | ⟨s3, -, h⟩
          · exact ihSL _ _ h
          · exact absurd h pure_ne_error
        · exact absurd h pure_ne_error
    · split at h
      · simp only [bind_error] at h
        rcases h with h | ⟨s1, -, h | ⟨s2, -, h⟩⟩
        · exact ihR _ _ h
        · exact ihSL _ _ h
        · exact absurd h pure_ne_error
      · split at h
        · split at h
          · exact absurd h pure_ne_error
          · next hid =>
            have hid2 : see T_IDENTIFIER (match_ T_FOR s).2 = true := by simpa using hid
            obtain ⟨x, hx⟩ := see_identifier hid2
            simp only [hx, ok_bind, bind_error] at h
            rcases h with h | ⟨s1, -, h | ⟨s2, -, h | ⟨s3, -, h⟩⟩⟩
            · exact ihE _ _ h
            · exact ihF _ _ h
            · exact ihSL _ _ h
            · exact absurd h pure_ne_error
        · split at h
          · simp only [bind_error] at h
            rcases h with h | ⟨s1, -, h⟩
            · exact ihE _ _ h
            · exact absurd h pure_ne_error
          · exact absurd h pure_ne_error

/-- No procedure ever faults on a typed accessor. -/
theorem safe_all (n : Nat) :
    Safe statementList n ∧ Safe statementLoop n ∧ Safe statement n ∧ Safe forLoop n ∧
    Safe expression n ∧ Safe expressionLoop n ∧ Safe term n ∧ Safe termLoop n ∧
    Safe factor n ∧ Safe relation n := by
  induction n with
  | zero =>
    refine ⟨?_, ?_, ?_, ?_, ?_, ?_, ?_, ?_, ?_, ?_⟩ <;> intro s e h
    · simp [statementList] at h; exact h.symm
    · simp [statementLoop] at h; exact h.symm
    · simp [statement] at h; exact h.symm
    · simp [forLoop] at h; exact h.symm
    · simp [expression] at h; exact h.symm
    · simp [expressionLoop] at h; exact h.symm
    · simp [term] at h; exact h.symm
    · simp [termLoop] at h; exact h.symm
    · simp [factor] at h; exact h.symm
    · simp [relation] at h; exact h.symm
  | succ n ih =>
    obtain ⟨iSL, iSLp, iS, iFL, iE, iEL, iT, iTL, iF, iR⟩ := ih
    exact ⟨statementList_safe n iSLp, statementLoop_safe n iS iSLp,
      statement_safe n iE iR iFL iSL, forLoop_safe n iE iFL,
      expression_safe n iT iEL, expressionLoop_safe n iT iEL,
      term_safe n iF iTL, termLoop_safe n iF iTL,
      factor_safe n iE iF, relation_safe n iE⟩

theorem program_safe (n : Nat) : Safe program n := by
  intro s e h
  simp only [program, bind_error] at h
  rcases h with h | ⟨s1, -, h⟩
  · exact (safe_all n).1 _ _ h
  · exact absurd h pure_ne_error

/-- C19: a typed accessor answers exactly when the current token has its tag
(`getArithmeticValue` for both operator tags), and calling it on another tag is the
fault `badAccess`; no procedure of the translator, at any budget and on any session,
ends in that fault, and `parse` returns a session on every input. -/
theorem c19_accessors_called_on_matching_tag (input : List Lexeme) :
    (∃ s, parse input = .ok s) ∧
    (∀ f ∈ procedures, ∀ n s, f n s ≠ .error .badAccess) ∧
    (∀ s, (∃ x, getStringValue s = .ok x) ↔ see T_IDENTIFIER s = true) ∧
    (∀ s, (∃ v, getIntValue s = .ok v) ↔ see T_NUMBER s = true) ∧
    (∀ s, (∃ a, getArithmeticValue s = .ok a) ↔
      (see T_ADDOP s = true ∨ see T_MULOP s = true)) ∧
    (∀ s, (∃ c, getCmpValue s = .ok c) ↔ see T_CMP s = true) ∧
    (∀ s, see T_IDENTIFIER s = false → getStringValue s = .error .badAccess) ∧
    (∀ s, see T_NUMBER s = false → getIntValue s = .error .badAccess) ∧
    (∀ s, see T_ADDOP s = false → see T_MULOP s = false →
      getArithmeticValue s = .error .badAccess) ∧
    (∀ s, see T_CMP s = false → getCmpValue s = .error .badAccess) := by
  refine ⟨parse_total input, ?_, ?_, ?_, ?_, ?_, ?_, ?_, ?_, ?_⟩
  · intro f hf n s h
    have hall := safe_all n
    simp only [procedures, List.mem_cons, List.mem_singleton, List.not_mem_nil,
      or_false] at hf
    have key : Safe f n := by
      rcases hf with rfl | rfl | rfl | rfl | rfl | rfl | rfl | rfl | rfl | rfl | rfl
      · exact program_safe n
      · exact hall.1
      · exact hall.2.1
      · exact hall.2.2.1
      · exact hall.2.2.2.1
      · exact hall.2.2.2.2.1
      · exact hall.2.2.2.2.2.1
      · exact hall.2.2.2.2.2.2.1
      · exact hall.2.2.2.2.2.2.2.1
      · exact hall.2.2.2.2.2.2.2.2.1
      · exact hall.2.2.2.2.2.2.2.2.2
    have := key s _ h
    cases this
  · intro s
    unfold see getStringValue
    generalize token s = l
    cases l <;> simp [Lexeme.tag]
  · intro s
    unfold see getIntValue
    generalize token s = l
    cases l <;> simp [Lexeme.tag]
  · intro s
    unfold see getArithmeticValue
    generalize token s = l
    cases l <;> simp [Lexeme.tag]
  · intro s
    unfold see getCmpValue
    generalize token s = l
    cases l <;> simp [Lexeme.tag]
  · intro s
    unfold see getStringValue
    generalize token s = l
    cases l <;> simp [Lexeme.tag]
  · intro s
    unfold see getIntValue
    generalize token s = l
    cases l <;> simp [Lexeme.tag]
  · intro s
    unfold see getArithmeticValue
    generalize token s = l
    cases l <;> simp [Lexeme.tag]
  · intro s
    unfold see getCmpValue
    generalize token s = l
    cases l <;> simp [Lexeme.tag]

/-- Witness for C19: on the input with skipped identifiers, where identifiers occur
at places at which no accessor is called, `parse` returns. -/
theorem c19_accessors_called_on_matching_tag_witness :
    parse skippedIdentProgram = .ok skippedIdentFinal ∧
    parse skippedIdentProgram ≠ .error .badAccess := by
  obtain ⟨s, hs⟩ := (c19_accessors_called_on_matching_tag skippedIdentProgram).1
  have e : parse skippedIdentProgram = .ok skippedIdentFinal := rfl
  exact ⟨e, by rw [e]; simp⟩

/-! ## Input after the closing `end` -/

/-! ### The budget does not matter -/

theorem below_refl {α : Type} (x : Except Fault α) : Below x x := fun _ h => h

theorem below_bind {α β : Type} {x y : Except Fault α} {f g : α → Except Fault β}
    (hx : Below x y) (hf : ∀ a, Below (f a) (g a)) : Below (x >>= f) (y >>= g) := by
  intro b h
  obtain ⟨a, ha, hb⟩ := bind_ok.1 h
  exact bind_ok.2 ⟨a, hx a ha, hf a b hb⟩

theorem below_ite {α : Type} {c : Prop} [Decidable c] {x y x' y' : Except Fault α}
    (h1 : Below x y) (h2 : Below x' y') :
    Below (if c then x else x') (if c then y else y') := by
  split
  · exact h1
  · exact h2

/-- A result obtained at budget `n` is obtained at every budget `m` above `n`. -/
theorem fuel_le (n : Nat) : ∀ m, n ≤ m →
    (∀ s, Below (statementList n s) (statementList m s)) ∧
    (∀ s, Below (statementLoop n s) (statementLoop m s)) ∧
    (∀ s, Below (statement n s) (statement m s)) ∧
    (∀ s, Below (forLoop n s) (forLoop m s)) ∧
    (∀ s, Below (expression n s) (expression m s)) ∧
    (∀ s, Below (expressionLoop n s) (expressionLoop m s)) ∧
    (∀ s, Below (term n s) (term m s)) ∧
    (∀ s, Below (termLoop n s) (termLoop m s)) ∧
    (∀ s, Below (factor n s) (factor m s)) ∧
    (∀ s, Below (relation n s) (relation m s)) := by
  induction n with
  | zero =>
    intro m _
    refine ⟨?_, ?_, ?_, ?_, ?_, ?_, ?_, ?_, ?_, ?_⟩ <;> intro s a h
    · simp [statementList] at h
    · simp [statementLoop] at h
    · simp [statement] at h
    · simp [forLoop] at h
    · simp [expression] at h
    · simp [expressionLoop] at h
    · simp [term] at h
    · simp [termLoop] at h
    · simp [factor] at h
    · simp [relation] at h
  | succ n ih =>
    intro m hm
    obtain ⟨m, rfl⟩ : ∃ k, m = k + 1 := ⟨m - 1, by omega⟩
    obtain ⟨iSL, iSLp, iS, iFL, iE, iEL, iT, iTL, iF, iR⟩ := ih m (by omega)
    refine ⟨?_, ?_, ?_, ?_, ?_, ?_, ?_, ?_, ?_, ?_⟩ <;> intro s
    · simp only [statementList]
      exact below_ite (below_refl _) (iSLp _)
    · simp only [statementLoop]
      repeat' first
        | exact below_refl _ | exact iSL _ | exact iSLp _ | exact iS _ | exact iFL _
        | exact iE _ | exact iEL _ | exact iT _ | exact iTL _ | exact iF _ | exact iR _
        | apply below_ite | apply below_bind | intro _
    · simp only [statement]
      repeat' first
        | exact below_refl _ | exact iSL _ | exact iSLp _ | exact iS _ | exact iFL _
        | exact iE _ | exact iEL _ | exact iT _ | exact iTL _ | exact iF _ | exact iR _
        | apply below_ite | apply below_bind | intro _
    · simp only [forLoop]
      repeat' first
        | exact below_refl _ | exact iSL _ | exact iSLp _ | exact iS _ | exact iFL _
        | exact iE _ | exact iEL _ | exact iT _ | exact iTL _ | exact iF _ | exact iR _
        | apply below_ite | apply below_bind | intro _
    · simp only [expression]
      repeat' first
        | exact below_refl _ | exact iSL _ | exact iSLp _ | exact iS _ | exact iFL _
        | exact iE _ | exact iEL _ | exact iT _ | exact iTL _ | exact iF _ | exact iR _
        | apply below_ite | apply below_bind | intro _
    · simp only [expressionLoop]
      repeat' first
        | exact below_refl _ | exact iSL _ | exact iSLp _ | exact iS _ | exact iFL _
        | exact iE _ | exact iEL _ | exact iT _ | exact iTL _ | exact iF _ | exact iR _
        | apply below_ite | apply below_bind | intro _
    · simp only [term]
      repeat' first
        | exact below_refl _ | exact iSL _ | exact iSLp _ | exact iS _ | exact iFL _
        | exact iE _ | exact iEL _ | exact iT _ | exact iTL _ | exact iF _ | exact iR _
        | apply below_ite | apply below_bind | intro _
    · simp only [termLoop]
      repeat' first
        | exact below_refl _ | exact iSL _ | exact iSLp _ | exact iS _ | exact iFL _
        | exact iE _ | exact iEL _ | exact iT _ | exact iTL _ | exact iF _ | exact iR _
        | apply below_ite | apply below_bind | intro _
    · simp only [factor]
      repeat' first
        | exact below_refl _ | exact iSL _ | exact iSLp _ | exact iS _ | exact iFL _
        | exact iE _ | exact iEL _ | exact iT _ | exact iTL _ | exact iF _ | exact iR _
        | apply below_ite | apply below_bind | intro _
    · simp only [relation]
      repeat' first
        | exact below_refl _ | exact iSL _ | exact iSLp _ | exact iS _ | exact iFL _
        | exact iE _ | exact iEL _ | exact iT _ | exact iTL _ | exact iF _ | exact iR _
        | apply below_ite | apply below_bind | intro _

/-- Two runs of `statementList` on the same session end in the same session,
whatever their budgets. -/
theorem statementList_fuel {n m : Nat} {s a b : PState}
    (h1 : statementList n s = .ok a) (h2 : statementList m s = .ok b) : a = b := by
  rcases Nat.le_total n m with h | h
  · have := (fuel_le n m h).1 s a h1
    rw [this] at h2
    exact Except.ok.inj h2
  · have := (fuel_le m n h).1 s b h2
    rw [this] at h1
    exact (Except.ok.inj h1).symm

/-! ### Replacing the input that is never reached -/

theorem take_cons_live {d : Nat} (l : Lexeme) (rest rb : List Lexeme)
    (h : d < (l :: rest).length) :
    (l :: rest).take ((l :: rest).length - d) ++ rb =
      l :: (rest.take (rest.length - d) ++ rb) := by
  have e : (l :: rest).length - d = (rest.length - d) + 1 := by
    simp only [List.length_cons] at h ⊢
    omega
  rw [e, List.take_succ_cons]
  rfl

theorem token_swap {d : Nat} {rb : List Lexeme} {s : PState} (h : d < s.toks.length) :
    token (swap d rb s) = token s := by
  rcases s with ⟨toks, _, _, _, _, _, _, _, _, _⟩
  cases toks with
  | nil => simp at h
  | cons l rest =>
    simp only [token, swap]
    rw [take_cons_live l rest rb h]
    rfl

theorem see_swap {d : Nat} {rb : List Lexeme} {s : PState} (h : d < s.toks.length)
    (t : Token) : see t (swap d rb s) = see t s := by
  simp only [see, token_swap h]

theorem getStringValue_swap {d : Nat} {rb : List Lexeme} {s : PState}
    (h : d < s.toks.length) : getStringValue (swap d rb s) = getStringValue s := by
  simp only [getStringValue, token_swap h]

theorem getIntValue_swap {d : Nat} {rb : List Lexeme} {s : PState}
    (h : d < s.toks.length) : getIntValue (swap d rb s) = getIntValue s := by
  simp only [getIntValue, token_swap h]

theorem getArithmeticValue_swap {d : Nat} {rb : List Lexeme} {s : PState}
    (h : d < s.toks.length) : getArithmeticValue (swap d rb s) = getArithmeticValue s := by
  simp only [getArithmeticValue, token_swap h]

theorem getCmpValue_swap {d : Nat} {rb : List Lexeme} {s : PState}
    (h : d < s.toks.length) : getCmpValue (swap d rb s) = getCmpValue s := by
  simp only [getCmpValue, token_swap h]

theorem seeMinus_swap {d : Nat} {rb : List Lexeme} {s : PState}
    (h : d < s.toks.length) : seeMinus (swap d rb s) = seeMinus s := by
  simp only [seeMinus, see_swap h, getArithmeticValue_swap h]

theorem next_swap {d : Nat} {rb : List Lexeme} {s : PState} (h : d < s.toks.length) :
    next (swap d rb s) = swap d rb (next s) := by
  rcases s with ⟨toks, _, _, _, _, _, _, _, _, _⟩
  cases toks with
  | nil => simp at h
  | cons l rest =>
    simp only [swap]
    rw [take_cons_live l rest rb h]
    simp only [next]
    split
    · simp only [swap]
      rw [take_cons_live l rest rb h]
    · rfl

theorem match_fst_swap {d : Nat} {rb : List Lexeme} {s : PState} (h : d < s.toks.length)
    (t : Token) : (match_ t (swap d rb s)).1 = (match_ t s).1 := by
  simp only [match_, see_swap h]
  split <;> rfl

theorem match_snd_swap {d : Nat} {rb : List Lexeme} {s : PState} (h : d < s.toks.length)
    (t : Token) : (match_ t (swap d rb s)).2 = swap d rb (match_ t s).2 := by
  simp only [match_, see_swap h]
  split
  · exact next_swap h
  · rfl

theorem skipTo_swap {d : Nat} (t : Token) (rb : List Lexeme) :
    ∀ l : List Lexeme, d < (skipTo t l).length →
      skipTo t (l.take (l.length - d) ++ rb) =
        (skipTo t l).take ((skipTo t l).length - d) ++ rb
  | [], h => by simp [skipTo] at h
  | x :: xs, h => by
    have hl : d < (x :: xs).length := lt_of_lt_of_le h (skipTo_length_le t _)
    rw [take_cons_live x xs rb hl]
    by_cases hx : x.tag = t ∨ x.tag = T_EOF
    · have e : skipTo t (x :: xs) = x :: xs := by simp [skipTo, hx]
      rw [e, take_cons_live x xs rb hl]
      simp [skipTo, hx]
    · have e : skipTo t (x :: xs) = skipTo t xs := by simp [skipTo, hx]
      rw [e] at h ⊢
      rw [← skipTo_swap t rb xs h]
      simp [skipTo, hx]

theorem recover_swap {d : Nat} {rb : List Lexeme} {s : PState} (t : Token)
    (h : d < (skipTo t s.toks).length) :
    recover t (swap d rb s) = swap d rb (recover t s) := by
  have e : ({ swap d rb s with toks := skipTo t (swap d rb s).toks } : PState) =
      swap d rb { s with toks := skipTo t s.toks } := by
    simp only [swap]
    rw [skipTo_swap t rb s.toks h]
  simp only [recover]
  rw [e, see_swap (s := { s with toks := skipTo t s.toks }) h]
  split
  · exact next_swap (s := { s with toks := skipTo t s.toks }) h
  · rfl

theorem mustBe_toks_le_skipTo (t : Token) (s : PState) :
    (mustBe t s).toks.length ≤ (skipTo t s.toks).length := by
  cases hs : see t s
  · rw [mustBe_toks_of_not_see hs]
    split
    · exact next_toks_le _
    · exact le_refl _
  · rw [mustBe_of_see hs]
    have e : skipTo t s.toks = s.toks := by
      rw [skipTo_unfold]
      simp [hs]
    rw [e]
    exact next_toks_le s

/-- When the recovery of `mustBe` stops before the replaced part of the input,
`mustBe` does the same on both inputs. -/
theorem mustBe_swap_of_skipTo {d : Nat} {rb : List Lexeme} {s : PState} (t : Token)
    (h : d < (skipTo t s.toks).length) :
    mustBe t (swap d rb s) = swap d rb (mustBe t s) := by
  have hs : d < s.toks.length := lt_of_lt_of_le h (skipTo_length_le t _)
  unfold mustBe
  rw [match_fst_swap hs, match_snd_swap hs]
  split
  · rfl
  · have e : reportError (.mismatch (token ({ swap d rb s with error := true } : PState)).tag t)
        { swap d rb s with error := true } =
        swap d rb (reportError (.mismatch (token ({ s with error := true } : PState)).tag t)
          { s with error := true }) := by
      have ht : token ({ swap d rb s with error := true } : PState) =
          token ({ s with error := true } : PState) :=
        token_swap (s := { s with error := true }) hs
      rw [ht]
      rfl
    simp only []
    rw [e]
    exact recover_swap t h

theorem mustBe_swap {d : Nat} {rb : List Lexeme} {s : PState} (t : Token)
    (h : d < (mustBe t s).toks.length) :
    mustBe t (swap d rb s) = swap d rb (mustBe t s) :=
  mustBe_swap_of_skipTo t (lt_of_lt_of_le h (mustBe_toks_le_skipTo t s))

@[simp] theorem emit_swap (d : Nat) (rb : List Lexeme) (i : Instr) (s : PState) :
    emit i (swap d rb s) = swap d rb (emit i s) := rfl

@[simp] theorem emitAt_swap (d : Nat) (rb : List Lexeme) (a : Nat) (i : Instr) (s : PState) :
    emitAt a i (swap d rb s) = swap d rb (emitAt a i s) := rfl

@[simp] theorem reserve_fst_swap (d : Nat) (rb : List Lexeme) (s : PState) :
    (reserve (swap d rb s)).1 = (reserve s).1 := rfl

@[simp] theorem reserve_snd_swap (d : Nat) (rb : List Lexeme) (s : PState) :
    (reserve (swap d rb s)).2 = swap d rb (reserve s).2 := rfl

@[simp] theorem getCurrentAddress_swap (d : Nat) (rb : List Lexeme) (s : PState) :
    getCurrentAddress (swap d rb s) = getCurrentAddress s := rfl

@[simp] theorem reportError_swap (d : Nat) (rb : List Lexeme) (e : Diag) (s : PState) :
    reportError e (swap d rb s) = swap d rb (reportError e s) := rfl

@[simp] theorem findOrAddVariable_fst_swap (d : Nat) (rb : List Lexeme) (x : String)
    (s : PState) : (findOrAddVariable x (swap d rb s)).1 = (findOrAddVariable x s).1 := by
  simp only [findOrAddVariable, swap]
  split <;> rfl

@[simp] theorem findOrAddVariable_snd_swap (d : Nat) (rb : List Lexeme) (x : String)
    (s : PState) :
    (findOrAddVariable x (swap d rb s)).2 = swap d rb (findOrAddVariable x s).2 := by
  simp only [findOrAddVariable, swap]
  split <;> rfl

@[simp] theorem flush_swap (d : Nat) (rb : List Lexeme) (s : PState) :
    flush (swap d rb s) = swap d rb (flush s) := rfl

@[simp] theorem swap_error (d : Nat) (rb : List Lexeme) (s : PState) :
    (swap d rb s).error = s.error := rfl

theorem statementList_len {n : Nat} {s s' : PState} (h : statementList n s = .ok s') :
    s'.toks.length ≤ s.toks.length := (closed_all closed_toks n).1 s s' h

theorem statementLoop_len {n : Nat} {s s' : PState} (h : statementLoop n s = .ok s') :
    s'.toks.length ≤ s.toks.length := (closed_all closed_toks n).2.1 s s' h

theorem statement_len {n : Nat} {s s' : PState} (h : statement n s = .ok s') :
    s'.toks.length ≤ s.toks.length := (closed_all closed_toks n).2.2.1 s s' h

theorem forLoop_len {n : Nat} {s s' : PState} (h : forLoop n s = .ok s') :
    s'.toks.length ≤ s.toks.length := (closed_all closed_toks n).2.2.2.1 s s' h

theorem expression_len {n : Nat} {s s' : PState} (h : expression n s = .ok s') :
    s'.toks.length ≤ s.toks.length := (closed_all closed_toks n).2.2.2.2.1 s s' h

theorem expressionLoop_len {n : Nat} {s s' : PState} (h : expressionLoop n s = .ok s') :
    s'.toks.length ≤ s.toks.length := (closed_all closed_toks n).2.2.2.2.2.1 s s' h

theorem term_len {n : Nat} {s s' : PState} (h : term n s = .ok s') :
    s'.toks.length ≤ s.toks.length := (closed_all closed_toks n).2.2.2.2.2.2.1 s s' h

theorem termLoop_len {n : Nat} {s s' : PState} (h : termLoop n s = .ok s') :
    s'.toks.length ≤ s.toks.length := (closed_all closed_toks n).2.2.2.2.2.2.2.1 s s' h

theorem factor_len {n : Nat} {s s' : PState} (h : factor n s = .ok s') :
    s'.toks.length ≤ s.toks.length := (closed_all closed_toks n).2.2.2.2.2.2.2.2.1 s s' h

theorem relation_len {n : Nat} {s s' : PState} (h : relation n s = .ok s') :
    s'.toks.length ≤ s.toks.length := (closed_all closed_toks n).2.2.2.2.2.2.2.2.2 s s' h

theorem factor_stable {d : Nat} {rb : List Lexeme} (n : Nat)
    (ihE : Stable d rb expression n) (ihF : Stable d rb factor n) :
    Stable d rb factor (n + 1) := by
  intro s s' h hd
  have hs : d < s.toks.length := lt_of_lt_of_le hd (factor_len h)
  simp only [factor] at h ⊢
  simp only [see_swap hs, getIntValue_swap hs, getStringValue_swap hs, seeMinus_swap hs,
    match_fst_swap hs, match_snd_swap hs, next_swap hs]
  split at h
  · next hc =>
    rw [if_pos hc]
    obtain ⟨v, hv⟩ := see_number hc
    simp only [hv, ok_bind, pure_ok] at h ⊢
    rw [← h]
    rfl
  · next hc =>
    rw [if_neg hc]
    split at h
    · next hc2 =>
      rw [if_pos hc2]
      obtain ⟨x, hx⟩ := see_identifier hc2
      simp only [hx, ok_bind, pure_ok] at h ⊢
      rw [← h, findOrAddVariable_fst_swap, findOrAddVariable_snd_swap,
        next_swap (by simpa using hs)]
      rfl
    · next hc2 =>
      rw [if_neg hc2]
      obtain ⟨b, hb, -⟩ := seeMinus_ok s
      simp only [hb, ok_bind] at h ⊢
      split at h
      · next hm =>
        rw [if_pos hm]
        simp only [bind_ok, pure_ok] at h
        obtain ⟨s1, h1, rfl⟩ := h
        rw [ihF _ _ h1 (by simpa using hd)]
        rfl
      · next hm =>
        rw [if_neg hm]
        split at h
        · next hp =>
          rw [if_pos hp]
          simp only [bind_ok, pure_ok] at h
          obtain ⟨s1, h1, rfl⟩ := h
          have hd1 : d < s1.toks.length := lt_of_lt_of_le hd (mustBe_toks_le _ _)
          rw [ihE _ _ h1 hd1, ok_bind, pure_eq_ok, mustBe_swap _ hd]
        · next hp =>
          rw [if_neg hp]
          split at h
          · next hr =>
            rw [if_pos hr]
            simp only [pure_ok] at h
            rw [← h]
            rfl
          · next hr =>
            rw [if_neg hr]
            simp only [pure_ok] at h
            rw [← h]
            rfl

theorem termLoop_stable {d : Nat} {rb : List Lexeme} (n : Nat)
    (ihF : Stable d rb factor n) (ihL : Stable d rb termLoop n) :
    Stable d rb termLoop (n + 1) := by
  intro s s' h hd
  have hs : d < s.toks.length := lt_of_lt_of_le hd (termLoop_len h)
  simp only [termLoop] at h ⊢
  simp only [see_swap hs, getArithmeticValue_swap hs, next_swap hs]
  split at h
  · next hc =>
    rw [if_pos hc]
    obtain ⟨a, ha⟩ := see_mulop hc
    simp only [ha, ok_bind] at h ⊢
    obtain ⟨s1, h1, h2⟩ := bind_ok.1 h
    have hd2 := lt_of_lt_of_le hd (termLoop_len h2)
    have hd1 : d < s1.toks.length := by
      split at hd2 <;> exact hd2
    have e : (if a = A_MULTIPLY then emit .MULT (swap d rb s1) else emit .DIV (swap d rb s1)) =
        swap d rb (if a = A_MULTIPLY then emit .MULT s1 else emit .DIV s1) := by
      split <;> rfl
    rw [ihF _ _ h1 hd1, ok_bind, e]
    exact ihL _ _ h2 hd
  · next hc =>
    rw [if_neg hc]
    simp only [pure_ok] at h ⊢
    rw [h]

theorem term_stable {d : Nat} {rb : List Lexeme} (n : Nat)
    (ihF : Stable d rb factor n) (ihL : Stable d rb termLoop n) :
    Stable d rb term (n + 1) := by
  intro s s' h hd
  simp only [term] at h ⊢
  obtain ⟨s1, h1, h2⟩ := bind_ok.1 h
  have hd1 := lt_of_lt_of_le hd (termLoop_len h2)
  rw [ihF _ _ h1 hd1, ok_bind]
  exact ihL _ _ h2 hd

theorem expressionLoop_stable {d : Nat} {rb : List Lexeme} (n : Nat)
    (ihT : Stable d rb term n) (ihL : Stable d rb expressionLoop n) :
    Stable d rb expressionLoop (n + 1) := by
  intro s s' h hd
  have hs : d < s.toks.length := lt_of_lt_of_le hd (expressionLoop_len h)
  simp only [expressionLoop] at h ⊢
  simp only [see_swap hs, getArithmeticValue_swap hs, next_swap hs]
  split at h
  · next hc =>
    rw [if_pos hc]
    obtain ⟨a, ha⟩ := see_addop hc
    simp only [ha, ok_bind] at h ⊢
    obtain ⟨s1, h1, h2⟩ := bind_ok.1 h
    have hd2 := lt_of_lt_of_le hd (expressionLoop_len h2)
    have hd1 : d < s1.toks.length := by
      split at hd2 <;> exact hd2
    have e : (if a = A_PLUS then emit .ADD (swap d rb s1) else emit .SUB (swap d rb s1)) =
        swap d rb (if a = A_PLUS then emit .ADD s1 else emit .SUB s1) := by
      split <;> rfl
    rw [ihT _ _ h1 hd1, ok_bind, e]
    exact ihL _ _ h2 hd
  · next hc =>
    rw [if_neg hc]
    simp only [pure_ok] at h ⊢
    rw [h]

theorem expression_stable {d : Nat} {rb : List Lexeme} (n : Nat)
    (ihT : Stable d rb term n) (ihL : Stable d rb expressionLoop n) :
    Stable d rb expression (n + 1) := by
  intro s s' h hd
  simp only [expression] at h ⊢
  obtain ⟨s1, h1, h2⟩ := bind_ok.1 h
  have hd1 := lt_of_lt_of_le hd (expressionLoop_len h2)
  rw [ihT _ _ h1 hd1, ok_bind]
  exact ihL _ _ h2 hd

theorem relation_stable {d : Nat} {rb : List Lexeme} (n : Nat)
    (ihE : Stable d rb expression n) : Stable d rb relation (n + 1) := by
  intro s s' h hd
  simp only [relation] at h ⊢
  obtain ⟨s1, h1, h2⟩ := bind_ok.1 h
  split at h2
  · next hc =>
    obtain ⟨c, hc2⟩ := see_cmp hc
    simp only [hc2, ok_bind] at h2
    obtain ⟨s2, h3, h4⟩ := bind_ok.1 h2
    simp only [pure_ok] at h4
    subst h4
    have hd2 : d < s2.toks.length := hd
    have hd1 : d < s1.toks.length :=
      lt_of_lt_of_le hd2 (le_trans (expression_len h3) (next_toks_le _))
    simp only [ihE _ _ h1 hd1, ok_bind, see_swap hd1, if_pos hc, getCmpValue_swap hd1, hc2,
      next_swap hd1, ihE _ _ h3 hd2, pure_eq_ok, emit_swap]
  · next hc =>
    simp only [pure_ok] at h2
    subst h2
    have hd1 : d < s1.toks.length := hd
    simp only [ihE _ _ h1 hd1, ok_bind, see_swap hd1, if_neg hc, pure_eq_ok, reportError_swap]

theorem forLoop_stable {d : Nat} {rb : List Lexeme} (n : Nat)
    (ihE : Stable d rb expression n) (ihL : Stable d rb forLoop n) :
    Stable d rb forLoop (n + 1) := by
  intro s s' h hd
  have hs : d < s.toks.length := lt_of_lt_of_le hd (forLoop_len h)
  simp only [forLoop] at h ⊢
  simp only [match_fst_swap hs, match_snd_swap hs]
  split at h
  · next hc =>
    rw [if_pos hc]
    obtain ⟨s1, h1, h2⟩ := bind_ok.1 h
    have hd1 := lt_of_lt_of_le hd (forLoop_len h2)
    rw [ihE _ _ h1 hd1, ok_bind]
    exact ihL _ _ h2 hd
  · next hc =>
    rw [if_neg hc]
    simp only [pure_ok] at h ⊢
    rw [h]

theorem statementLoop_stable {d : Nat} {rb : List Lexeme} (n : Nat)
    (ihS : Stable d rb statement n) (ihL : Stable d rb statementLoop n) :
    Stable d rb statementLoop (n + 1) := by
  intro s s' h hd
  simp only [statementLoop] at h ⊢
  obtain ⟨s1, h1, h2⟩ := bind_ok.1 h
  split at h2
  · next hc =>
    have hd2 := lt_of_lt_of_le hd (statementLoop_len h2)
    have hd1 : d < s1.toks.length := lt_of_lt_of_le hd2 (match_toks_le _ _)
    simp only [ihS _ _ h1 hd1, ok_bind, match_fst_swap hd1, match_snd_swap hd1, if_pos hc]
    exact ihL _ _ h2 hd
  · next hc =>
    simp only [pure_ok] at h2
    subst h2
    have hd1 : d < s1.toks.length := lt_of_lt_of_le hd (match_toks_le _ _)
    simp only [ihS _ _ h1 hd1, ok_bind, match_fst_swap hd1, match_snd_swap hd1, if_neg hc,
      pure_eq_ok]

theorem statementList_stable {d : Nat} {rb : List Lexeme} (n : Nat)
    (ihL : Stable d rb statementLoop n) : Stable d rb statementList (n + 1) := by
  intro s s' h hd
  have hs : d < s.toks.length := lt_of_lt_of_le hd (statementList_len h)
  simp only [statementList] at h ⊢
  simp only [see_swap hs]
  split at h
  · next hc =>
    rw [if_pos hc]
    cases h
    rfl
  · next hc =>
    rw [if_neg hc]
    exact ihL _ _ h hd

theorem statement_stable {d : Nat} {rb : List Lexeme} (n : Nat)
    (ihE : Stable d rb expression n) (ihR : Stable d rb relation n)
    (ihF : Stable d rb forLoop n) (ihSL : Stable d rb statementList n) :
    Stable d rb statement (n + 1) := by
  intro s s' h hd
  have hs : d < s.toks.length := lt_of_lt_of_le hd (statement_len h)
  simp only [statement] at h ⊢
  simp only [see_swap hs, getStringValue_swap hs, match_fst_swap hs, match_snd_swap hs]
  split at h
  · next hc =>
    rw [if_pos hc]
    obtain ⟨x, hx⟩ := see_identifier hc
    simp only [hx, ok_bind] at h ⊢
    obtain ⟨s1, h1, h2⟩ := bind_ok.1 h
    simp only [pure_ok] at h2
    subst h2
    have hd1 : d < s1.toks.length := hd
    have hdA := lt_of_lt_of_le hd1 (expression_len h1)
    have hdF : d < (findOrAddVariable x s).2.toks.length := by simpa using hs
    simp only [findOrAddVariable_fst_swap, findOrAddVariable_snd_swap, next_swap hdF,
      mustBe_swap _ hdA, ihE _ _ h1 hd1, ok_bind, pure_eq_ok, emit_swap]
  · next hc =>
    rw [if_neg hc]
    split at h
    · next hif =>
      rw [if_pos hif]
      obtain ⟨s1, h1, h2⟩ := bind_ok.1 h
      obtain ⟨s2, h3, h4⟩ := bind_ok.1 h2
      split at h4
      · next helse =>
        obtain ⟨s3, h5, h6⟩ := bind_ok.1 h4
        simp only [pure_ok] at h6
        subst h6
        have hd3 : d < s3.toks.length := lt_of_lt_of_le hd (mustBe_toks_le _ _)
        have hdm : d < (match_ T_ELSE s2).2.toks.length := by
          have := lt_of_lt_of_le hd3 (statementList_len h5)
          simpa using this
        have hd2 : d < s2.toks.length := lt_of_lt_of_le hdm (match_toks_le _ _)
        have hdT := lt_of_lt_of_le hd2 (statementList_len h3)
        have hd1 : d < s1.toks.length := lt_of_lt_of_le hdT (mustBe_toks_le _ _)
        simp only [ihR _ _ h1 hd1, ok_bind, reserve_fst_swap, reserve_snd_swap,
          mustBe_swap _ hdT, ihSL _ _ h3 hd2, match_fst_swap hd2, match_snd_swap hd2,
          if_pos helse, getCurrentAddress_swap, emitAt_swap, ihSL _ _ h5 hd3, pure_eq_ok,
          mustBe_swap _ hd]
      · next helse =>
        simp only [pure_ok] at h4
        subst h4
        have hdm : d < (match_ T_ELSE s2).2.toks.length :=
          lt_of_lt_of_le hd (mustBe_toks_le _ _)
        have hd2 : d < s2.toks.length := lt_of_lt_of_le hdm (match_toks_le _ _)
        have hdT := lt_of_lt_of_le hd2 (statementList_len h3)
        have hd1 : d < s1.toks.length := lt_of_lt_of_le hdT (mustBe_toks_le _ _)
        simp only [ihR _ _ h1 hd1, ok_bind, reserve_fst_swap, reserve_snd_swap,
          mustBe_swap _ hdT, ihSL _ _ h3 hd2, match_fst_swap hd2, match_snd_swap hd2,
          if_neg helse, getCurrentAddress_swap, emitAt_swap, pure_eq_ok, mustBe_swap _ hd]
    · next hif =>
      rw [if_neg hif]
      split at h
      · next hw =>
        rw [if_pos hw]
        obtain ⟨s1, h1, h2⟩ := bind_ok.1 h
        obtain ⟨s2, h3, h4⟩ := bind_ok.1 h2
        simp only [pure_ok] at h4
        subst h4
        have hdO : d < (mustBe T_OD s2).toks.length := hd
        have hd2 : d < s2.toks.length := lt_of_lt_of_le hdO (mustBe_toks_le _ _)
        have hdD := lt_of_lt_of_le hd2 (statementList_len h3)
        have hd1 : d < s1.toks.length := lt_of_lt_of_le hdD (mustBe_toks_le _ _)
        simp only [ihR _ _ h1 hd1, ok_bind, reserve_fst_swap, reserve_snd_swap,
          mustBe_swap _ hdD, ihSL _ _ h3 hd2, mustBe_swap _ hdO, getCurrentAddress_swap,
          emit_swap, emitAt_swap, pure_eq_ok]
      · next hw =>
        rw [if_neg hw]
        split at h
        · next hfor =>
          rw [if_pos hfor]
          split at h
          · next hid =>
            simp only [pure_ok] at h
            subst h
            have hm : d < (match_ T_FOR s).2.toks.length := hd
            simp only [see_swap hm, if_pos hid, pure_eq_ok, reportError_swap]
          · next hid =>
            have hid2 : see T_IDENTIFIER (match_ T_FOR s).2 = true := by simpa using hid
            obtain ⟨x, hx⟩ := see_identifier hid2
            simp only [hx, ok_bind] at h
            obtain ⟨s1, h1, h2⟩ := bind_ok.1 h
            obtain ⟨s2, h3, h4⟩ := bind_ok.1 h2
            obtain ⟨s3, h5, h6⟩ := bind_ok.1 h4
            simp only [pure_ok] at h6
            subst h6
            have hdO : d < (mustBe T_OD s3).toks.length := hd
            have hd3 : d < s3.toks.length := lt_of_lt_of_le hdO (mustBe_toks_le _ _)
            have hdD := lt_of_lt_of_le hd3 (statementList_len h5)
            have hd2 : d < s2.toks.length := lt_of_lt_of_le hdD (mustBe_toks_le _ _)
            have hd1 : d < s1.toks.length := lt_of_lt_of_le hd2 (forLoop_len h3)
            have hdA := lt_of_lt_of_le hd1 (expression_len h1)
            have hdN := lt_of_lt_of_le hdA (mustBe_toks_le _ _)
            have hdF : d < (findOrAddVariable x (match_ T_FOR s).2).2.toks.length :=
              lt_of_lt_of_le hdN (next_toks_le _)
            have hm : d < (match_ T_FOR s).2.toks.length := by simpa using hdF
            simp only [see_swap hm, getStringValue_swap hm, if_neg hid, hx, ok_bind,
              findOrAddVariable_fst_swap, findOrAddVariable_snd_swap, next_swap hdF,
              mustBe_swap _ hdA, ihE _ _ h1 hd1, ihF _ _ h3 hd2, emit_swap,
              getCurrentAddress_swap, mustBe_swap _ hdD, ihSL _ _ h5 hd3, mustBe_swap _ hdO,
              reserve_snd_swap, pure_eq_ok]
        · next hfor =>
          rw [if_neg hfor]
          split at h
          · next hwr =>
            rw [if_pos hwr]
            obtain ⟨s1, h1, h2⟩ := bind_ok.1 h
            simp only [pure_ok] at h2
            subst h2
            have hdR : d < (mustBe T_RPAREN s1).toks.length := hd
            have hd1 : d < s1.toks.length := lt_of_lt_of_le hdR (mustBe_toks_le _ _)
            have hdL := lt_of_lt_of_le hd1 (expression_len h1)
            simp only [mustBe_swap _ hdL, ihE _ _ h1 hd1, ok_bind, mustBe_swap _ hdR,
              emit_swap, pure_eq_ok]
          · next hwr =>
            rw [if_neg hwr]
            simp only [pure_ok] at h ⊢
            rw [← h]
            rfl

/-- Every procedure run that stops before the last `d` tokens is the same run on
any input that differs only in those tokens. -/
theorem stable_all (d : Nat) (rb : List Lexeme) (n : Nat) :
    Stable d rb statementList n ∧ Stable d rb statementLoop n ∧ Stable d rb statement n ∧
    Stable d rb forLoop n ∧ Stable d rb expression n ∧ Stable d rb expressionLoop n ∧
    Stable d rb term n ∧ Stable d rb termLoop n ∧ Stable d rb factor n ∧
    Stable d rb relation n := by
  induction n with
  | zero =>
    refine ⟨?_, ?_, ?_, ?_, ?_, ?_, ?_, ?_, ?_, ?_⟩ <;> intro s s' h
    · simp [statementList] at h
    · simp [statementLoop] at h
    · simp [statement] at h
    · simp [forLoop] at h
    · simp [expression] at h
    · simp [expressionLoop] at h
    · simp [term] at h
    · simp [termLoop] at h
    · simp [factor] at h
    · simp [relation] at h
  | succ n ih =>
    obtain ⟨iSL, iSLp, iS, iFL, iE, iEL, iT, iTL, iF, iR⟩ := ih
    exact ⟨statementList_stable n iSLp, statementLoop_stable n iS iSLp,
      statement_stable n iE iR iFL iSL, forLoop_stable n iE iFL,
      expression_stable n iT iEL, expressionLoop_stable n iT iEL,
      term_stable n iF iTL, termLoop_stable n iF iTL,
      factor_stable n iE iF, relation_stable n iE⟩

theorem mustBe_toks_of_skipTo {t : Token} {s : PState} {l : Lexeme} {g : List Lexeme}
    (hk : skipTo t s.toks = l :: g) (hl : l.tag = t) (ht : t ≠ T_EOF) :
    (mustBe t s).toks = g := by
  have hn : (next { s with toks := l :: g }).toks = g :=
    next_cons rfl (by rw [hl]; exact ht)
  cases hs : see t s
  · rw [mustBe_toks_of_not_see hs, hk]
    have hsee : see t { s with toks := l :: g } = true := by simp [see, token, hl]
    rw [if_pos hsee]
    exact hn
  · have e : skipTo t s.toks = s.toks := by
      rw [skipTo_unfold]
      simp [hs]
    rw [mustBe_of_see hs]
    rw [e] at hk
    exact next_cons hk (by rw [hl]; exact ht)

theorem swap_init (pre g1 g2 : List Lexeme) :
    swap g1.length g2 (PState.init (pre ++ g1)) = PState.init (pre ++ g2) := by
  simp [swap, PState.init]

theorem swap_of_toks {s : PState} {g1 : List Lexeme} (h : s.toks = g1) (g2 : List Lexeme) :
    swap g1.length g2 s = { s with toks := g2 } := by
  simp [swap, h]

/-- When the list of statements is closed by an `end` that is followed by `g1`, the
translation of the input is the translation of the same input with `g1` replaced by
any `g2`, up to the tokens left over. -/
theorem parse_suffix (pre g1 g2 : List Lexeme) (n : Nat) (s1 : PState)
    (h1 : statementList n (mustBe T_BEGIN (PState.init (pre ++ g1))) = .ok s1)
    (hk : skipTo T_END s1.toks = Lexeme.kwEnd :: g1) :
    ∃ r, parse (pre ++ g1) = .ok r ∧ r.toks = g1 ∧
      parse (pre ++ g2) = .ok { r with toks := g2 } := by
  have hsk : g1.length < (skipTo T_END s1.toks).length := by
    rw [hk]
    simp
  have hd1 : g1.length < s1.toks.length := lt_of_lt_of_le hsk (skipTo_length_le _ _)
  have hdB := lt_of_lt_of_le hd1 (statementList_len h1)
  have h2 : statementList n (mustBe T_BEGIN (PState.init (pre ++ g2))) =
      .ok (swap g1.length g2 s1) := by
    rw [← swap_init pre g1 g2, mustBe_swap T_BEGIN hdB]
    exact (stable_all g1.length g2 n).1 _ _ h1 hd1
  have hfin : (emit .STOP (mustBe T_END s1)).toks = g1 :=
    mustBe_toks_of_skipTo hk rfl (by decide)
  have p1 : program (budget (pre ++ g1)) (PState.init (pre ++ g1)) =
      .ok (emit .STOP (mustBe T_END s1)) := by
    obtain ⟨r1, hr1⟩ := program_total (pre ++ g1)
    obtain ⟨a1, ha1, rfl⟩ := program_unfold _ _ _ hr1
    have := statementList_fuel ha1 h1
    subst this
    exact hr1
  have p2 : program (budget (pre ++ g2)) (PState.init (pre ++ g2)) =
      .ok (swap g1.length g2 (emit .STOP (mustBe T_END s1))) := by
    obtain ⟨r2, hr2⟩ := program_total (pre ++ g2)
    obtain ⟨a2, ha2, rfl⟩ := program_unfold _ _ _ hr2
    have := statementList_fuel ha2 h2
    subst this
    rw [hr2, mustBe_swap_of_skipTo T_END hsk]
    rfl
  have q1 : parse (pre ++ g1) = .ok (if (!(emit .STOP (mustBe T_END s1)).error) = true
      then flush (emit .STOP (mustBe T_END s1)) else emit .STOP (mustBe T_END s1)) := by
    simp only [parse, p1, ok_bind]
    split <;> rfl
  have q2 : parse (pre ++ g2) = .ok (swap g1.length g2
      (if (!(emit .STOP (mustBe T_END s1)).error) = true
        then flush (emit .STOP (mustBe T_END s1)) else emit .STOP (mustBe T_END s1))) := by
    simp only [parse, p2, ok_bind, swap_error]
    split <;> rfl
  have ht : (if (!(emit .STOP (mustBe T_END s1)).error) = true
      then flush (emit .STOP (mustBe T_END s1)) else emit .STOP (mustBe T_END s1)).toks = g1 := by
    split <;> exact hfin
  refine ⟨_, q1, ht, ?_⟩
  rw [q2, swap_of_toks ht g2]

/-- C20: `parse` does not look past the `end` that closes the program.  When on an
input `pre ++ g1` the list of statements returns and the final `mustBe(T_END)` matches
an `end` token, at once or after recovery, that is followed by exactly `g1`, then on
`pre ++ g2`, for any `g2`, `parse` returns the same session except for the tokens
left over: the instruction buffer, the variable table, the error flag, the
diagnostics and the flushed streams are the same.  In particular the tokens of a
well-formed program followed by any tokens `g` are translated without error and
flushed, to the same session, tokens left over apart, as the program alone. -/
theorem c20_parse_ignores_input_after_end :
    (∀ (pre g1 g2 : List Lexeme) (n : Nat) (s1 : PState),
      statementList n (mustBe T_BEGIN (PState.init (pre ++ g1))) = .ok s1 →
      skipTo T_END s1.toks = Lexeme.kwEnd :: g1 →
      ∃ r r2, parse (pre ++ g1) = .ok r ∧ parse (pre ++ g2) = .ok r2 ∧
        r.toks = g1 ∧ r2.toks = g2 ∧ r2 = { r with toks := g2 } ∧
        r2.code = r.code ∧ r2.vars = r.vars ∧ r2.lastVar = r.lastVar ∧
        r2.error = r.error ∧ r2.flushed = r.flushed ∧ r2.diags = r.diags) ∧
    (∀ (body : StmtList) (g : List Lexeme),
      ∃ r r2, parse (Lexeme.kwBegin :: (body.toks ++ [Lexeme.kwEnd])) = .ok r ∧
        parse (Lexeme.kwBegin :: (body.toks ++ [Lexeme.kwEnd]) ++ g) = .ok r2 ∧
        r2 = { r with toks := g } ∧ r2.error = false ∧ r2.flushed = [r2.code] ∧
        r2.code = r.code ∧ r2.vars = r.vars) := by
  constructor
  · intro pre g1 g2 n s1 h1 hk
    obtain ⟨r, hr, ht, hr2⟩ := parse_suffix pre g1 g2 n s1 h1 hk
    exact ⟨r, _, hr, hr2, ht, rfl, rfl, rfl, rfl, rfl, rfl, rfl, rfl⟩
  · intro body g
    obtain ⟨sp, hp⟩ := program_total (Lexeme.kwBegin :: (body.toks ++ [Lexeme.kwEnd]) ++ [])
    obtain ⟨s1, h1, -⟩ := program_unfold _ _ _ hp
    have hb := @Emits.mustBe
      (PState.init (Lexeme.kwBegin :: (body.toks ++ [Lexeme.kwEnd]) ++ []))
      Lexeme.kwBegin (body.toks ++ [Lexeme.kwEnd]) T_BEGIN
      (by simp [PState.init]) rfl (by decide)
    have hl := statementList_sound body _ _ s1 [Lexeme.kwEnd] hb.1
      (by simp [Closer, Lexeme.tag]) h1
    have hk : skipTo T_END s1.toks = Lexeme.kwEnd :: [] := by
      rw [hl.1]
      simp [skipTo, Lexeme.tag]
    obtain ⟨r, hr, -, hr2⟩ := parse_suffix _ [] g _ s1 h1 hk
    obtain ⟨w, hw, hwe, -, hwf, -, -⟩ := parse_wellformed body []
    rw [List.append_nil] at hr
    rw [hr] at hw
    cases hw
    exact ⟨r, _, hr, hr2, rfl, hwe, hwf, rfl, rfl⟩

/-- Witness for C20: the `while` program followed by end-of-input and the same
program followed by a further statement and a second `end` are translated to the
same instructions. -/
theorem c20_parse_ignores_input_after_end_witness :
    statementList 300 (mustBe T_BEGIN (PState.init (whileThroughEnd ++ [Lexeme.eof]))) =
      .ok whileExit ∧
    skipTo T_END whileExit.toks = Lexeme.kwEnd :: [Lexeme.eof] ∧
    ∃ r r2, parse (whileThroughEnd ++ [Lexeme.eof]) = .ok r ∧
      parse (whileThroughEnd ++ trailingTokens) = .ok r2 ∧
      r2.code = r.code ∧ r2.error = r.error ∧ r2.flushed = r.flushed := by
  have h1 : statementList 300 (mustBe T_BEGIN (PState.init (whileThroughEnd ++ [Lexeme.eof]))) =
      .ok whileExit := rfl
  have hk : skipTo T_END whileExit.toks = Lexeme.kwEnd :: [Lexeme.eof] := rfl
  obtain ⟨r, r2, hr, hr2, -, -, -, hc, -, -, he, hf, -⟩ :=
    c20_parse_ignores_input_after_end.1 whileThroughEnd [Lexeme.eof] trailingTokens 300
      whileExit h1 hk
  exact ⟨h1, hk, r, r2, hr, hr2, hc, he, hf⟩

/-! ## Identifiers consumed and identifiers looked up -/

theorem idents_append (a b : List Lexeme) : idents (a ++ b) = idents a ++ idents b := by
  simp [idents, List.filterMap_append]

theorem idents_single {l : Lexeme} (h : l.tag ≠ T_IDENTIFIER) : idents [l] = [] := by
  cases l <;> simp [idents, identName, Lexeme.tag] at h ⊢

theorem mem_idents {x : String} {l : List Lexeme} :
    x ∈ idents l ↔ Lexeme.identifier x ∈ l := by
  simp only [idents, List.mem_filterMap]
  constructor
  · rintro ⟨a, ha, hx⟩
    cases a <;> simp [identName] at hx
    subst hx
    exact ha
  · intro h
    exact ⟨_, h, rfl⟩

theorem consumes_refl (s : PState) : Consumes s s :=
  ⟨le_refl _, [], [], rfl, by simp, by simp [idents], fun _ => rfl⟩

theorem consumes_trans {a b c : PState} (h1 : Consumes a b) (h2 : Consumes b c) :
    Consumes a c := by
  obtain ⟨d1, c1, l1, t1, k1, u1, e1⟩ := h1
  obtain ⟨d2, c2, l2, t2, k2, u2, e2⟩ := h2
  refine ⟨le_trans d1 d2, c1 ++ c2, l1 ++ l2, ?_, ?_, ?_, ?_⟩
  · rw [t1, t2, List.append_assoc]
  · rw [k2, k1, List.append_assoc]
  · rw [idents_append]
    exact List.Sublist.append u1 u2
  · intro h
    rw [idents_append, e1 (by omega), e2 (by omega)]

/-- A step that touches neither input, nor lookups, nor diagnostics. -/
theorem consumes_frame {a b : PState} (ht : b.toks = a.toks) (hl : b.lookups = a.lookups)
    (hd : b.diags = a.diags) : Consumes a b :=
  ⟨by rw [hd], [], [], by simp [ht], by simp [hl], by simp [idents], fun _ => rfl⟩

theorem consumes_emit (i : Instr) (s : PState) : Consumes s (emit i s) :=
  consumes_frame rfl rfl rfl

theorem consumes_emitAt (k : Nat) (i : Instr) (s : PState) : Consumes s (emitAt k i s) :=
  consumes_frame rfl rfl rfl

theorem consumes_reserve (s : PState) : Consumes s (reserve s).2 :=
  consumes_frame rfl rfl rfl

/-- A step that discards input and reports a diagnostic. -/
theorem consumes_of_diag {s s' : PState} (hc : ∃ c, s.toks = c ++ s'.toks)
    (hl : s'.lookups = s.lookups) (hd : s.diags.length < s'.diags.length) :
    Consumes s s' := by
  obtain ⟨c, hc⟩ := hc
  exact ⟨le_of_lt hd, c, [], hc, by simp [hl], List.nil_sublist _, fun h => by omega⟩

theorem next_suffix (s : PState) : ∃ c, s.toks = c ++ (next s).toks := by
  unfold next
  split
  · exact ⟨[], rfl⟩
  · next l rest hs =>
    split
    · exact ⟨[], rfl⟩
    · exact ⟨[l], by simp [hs]⟩

theorem skipTo_suffix (t : Token) : ∀ l : List Lexeme, ∃ c, l = c ++ skipTo t l
  | [] => ⟨[], rfl⟩
  | x :: xs => by
    by_cases hx : x.tag = t ∨ x.tag = T_EOF
    · exact ⟨[], by simp [skipTo, hx]⟩
    · obtain ⟨c, hc⟩ := skipTo_suffix t xs
      refine ⟨x :: c, ?_⟩
      simp only [skipTo, hx, if_false, List.cons_append]
      rw [← hc]

theorem mustBe_suffix (t : Token) (s : PState) : ∃ c, s.toks = c ++ (mustBe t s).toks := by
  cases hs : see t s
  · rw [mustBe_toks_of_not_see hs]
    obtain ⟨c, hc⟩ := skipTo_suffix t s.toks
    split
    · obtain ⟨c2, hc2⟩ := next_suffix { s with toks := skipTo t s.toks }
      refine ⟨c ++ c2, ?_⟩
      rw [List.append_assoc, ← hc2]
      exact hc
    · exact ⟨c, hc⟩
  · rw [mustBe_of_see hs]
    exact next_suffix s

theorem consumes_next_of_see {t : Token} {s : PState} (h : see t s = true)
    (ht : t ≠ T_IDENTIFIER) : Consumes s (next s) := by
  unfold see token at h
  unfold next
  split
  · exact consumes_refl s
  · next l rest hs =>
    split
    · exact consumes_refl s
    · simp only [hs, List.headD_cons, beq_iff_eq] at h
      have hl : l.tag ≠ T_IDENTIFIER := by rw [h]; exact ht
      exact ⟨le_refl _, [l], [], by simp [hs], by simp, by simp [idents_single hl],
        fun _ => (idents_single hl).symm⟩

theorem consumes_match (t : Token) (s : PState) (ht : t ≠ T_IDENTIFIER) :
    Consumes s (match_ t s).2 := by
  unfold match_
  split
  · next h => exact consumes_next_of_see h ht
  · exact consumes_refl s

theorem consumes_mustBe (t : Token) (s : PState) (ht : t ≠ T_IDENTIFIER) :
    Consumes s (mustBe t s) := by
  cases hs : see t s
  · refine consumes_of_diag (mustBe_suffix t s) (mustBe_lookups t s) ?_
    rw [(mustBe_error_of_not_see hs).2]
    simp
  · rw [mustBe_of_see hs]
    exact consumes_next_of_see hs ht

theorem consumes_report (d : Diag) (s : PState) : Consumes s (reportError d s) :=
  consumes_of_diag ⟨[], rfl⟩ rfl (by simp [reportError])

/-- The lookup of the current identifier followed by `next`. -/
theorem consumes_lookup {x : String} {s : PState} (h : getStringValue s = .ok x) :
    Consumes s (next (findOrAddVariable x s).2) := by
  have ht : token s = .identifier x := by
    unfold getStringValue at h
    generalize token s = l at h
    cases l <;> simp at h
    rw [h]
  unfold token at ht
  rcases hs : s.toks with _ | ⟨l, rest⟩
  · rw [hs] at ht
    cases ht
  · rw [hs] at ht
    simp only [List.headD_cons] at ht
    subst ht
    have hn : (next (findOrAddVariable x s).2).toks = rest :=
      next_cons (by simpa using hs) (by simp [Lexeme.tag])
    refine ⟨by simp, [Lexeme.identifier x], [x], by rw [hn, hs]; rfl, ?_, by simp [idents, identName],
      fun _ => by simp [idents, identName]⟩
    rw [next_lookups, findOrAddVariable_lookups]
    simp

theorem factor_consumes (n : Nat) (ihE : Preserves Consumes (expression n))
    (ihF : Preserves Consumes (factor n)) : Preserves Consumes (factor (n + 1)) := by
  intro s s' hs
  simp only [factor] at hs
  split at hs
  · next hc =>
    simp only [bind_ok, pure_ok] at hs
    obtain ⟨v, -, rfl⟩ := hs
    exact consumes_trans (consumes_next_of_see hc (by decide)) (consumes_emit _ _)
  · split at hs
    · simp only [bind_ok, pure_ok] at hs
      obtain ⟨x, hx, rfl⟩ := hs
      exact consumes_trans (consumes_lookup hx) (consumes_emit _ _)
    · obtain ⟨b, hb, hb2⟩ := seeMinus_ok s
      simp only [hb, ok_bind] at hs
      split at hs
      · next hm =>
        simp only [bind_ok, pure_ok] at hs
        obtain ⟨s1, h1, rfl⟩ := hs
        exact consumes_trans (consumes_next_of_see (hb2 hm) (by decide))
          (consumes_trans (ihF _ _ h1) (consumes_emit _ _))
      · split at hs
        · simp only [bind_ok, pure_ok] at hs
          obtain ⟨s1, h1, rfl⟩ := hs
          exact consumes_trans (consumes_match _ s (by decide))
            (consumes_trans (ihE _ _ h1) (consumes_mustBe T_RPAREN _ (by decide)))
        · split at hs
          · simp only [pure_ok] at hs
            subst hs
            exact consumes_trans (consumes_match _ s (by decide)) (consumes_emit _ _)
          · simp only [pure_ok] at hs
            subst hs
            exact consumes_trans (consumes_match _ s (by decide)) (consumes_report _ _)

theorem termLoop_consumes (n : Nat) (ihF : Preserves Consumes (factor n))
    (ihL : Preserves Consumes (termLoop n)) : Preserves Consumes (termLoop (n + 1)) := by
  intro s s' hs
  simp only [termLoop] at hs
  split at hs
  · next hc =>
    simp only [bind_ok] at hs
    obtain ⟨op, -, s1, h1, hs⟩ := hs
    refine consumes_trans (consumes_next_of_see hc (by decide))
      (consumes_trans (ihF _ _ h1) (consumes_trans ?_ (ihL _ _ hs)))
    split <;> exact consumes_emit _ _
  · simp only [pure_ok] at hs
    subst hs
    exact consumes_refl s

theorem term_consumes (n : Nat) (ihF : Preserves Consumes (factor n))
    (ihL : Preserves Consumes (termLoop n)) : Preserves Consumes (term (n + 1)) := by
  intro s s' hs
  simp only [term, bind_ok] at hs
  obtain ⟨s1, h1, hs⟩ := hs
  exact consumes_trans (ihF _ _ h1) (ihL _ _ hs)

theorem expressionLoop_consumes (n : Nat) (ihT : Preserves Consumes (term n))
    (ihL : Preserves Consumes (expressionLoop n)) :
    Preserves Consumes (expressionLoop (n + 1)) := by
  intro s s' hs
  simp only [expressionLoop] at hs
  split at hs
  · next hc =>
    simp only [bind_ok] at hs
    obtain ⟨op, -, s1, h1, hs⟩ := hs
    refine consumes_trans (consumes_next_of_see hc (by decide))
      (consumes_trans (ihT _ _ h1) (consumes_trans ?_ (ihL _ _ hs)))
    split <;> exact consumes_emit _ _
  · simp only [pure_ok] at hs
    subst hs
    exact consumes_refl s

theorem expression_consumes (n : Nat) (ihT : Preserves Consumes (term n))
    (ihL : Preserves Consumes (expressionLoop n)) :
    Preserves Consumes (expression (n + 1)) := by
  intro s s' hs
  simp only [expression, bind_ok] at hs
  obtain ⟨s1, h1, hs⟩ := hs
  exact consumes_trans (ihT _ _ h1) (ihL _ _ hs)

theorem relation_consumes (n : Nat) (ihE : Preserves Consumes (expression n)) :
    Preserves Consumes (relation (n + 1)) := by
  intro s s' hs
  simp only [relation, bind_ok] at hs
  obtain ⟨s1, h1, hs⟩ := hs
  split at hs
  · next hc =>
    simp only [bind_ok, pure_ok] at hs
    obtain ⟨c, -, s2, h2, rfl⟩ := hs
    exact consumes_trans (ihE _ _ h1) (consumes_trans (consumes_next_of_see hc (by decide))
      (consumes_trans (ihE _ _ h2) (consumes_emit _ _)))
  · simp only [pure_ok] at hs
    subst hs
    exact consumes_trans (ihE _ _ h1) (consumes_report _ _)

theorem forLoop_consumes (n : Nat) (ihE : Preserves Consumes (expression n))
    (ihL : Preserves Consumes (forLoop n)) : Preserves Consumes (forLoop (n + 1)) := by
  intro s s' hs
  simp only [forLoop] at hs
  split at hs
  · simp only [bind_ok] at hs
    obtain ⟨s1, h1, hs⟩ := hs
    exact consumes_trans (consumes_match _ s (by decide))
      (consumes_trans (ihE _ _ h1) (ihL _ _ hs))
  · simp only [pure_ok] at hs
    subst hs
    exact consumes_match _ s (by decide)

theorem statementLoop_consumes (n : Nat) (ihS : Preserves Consumes (statement n))
    (ihL : Preserves Consumes (statementLoop n)) :
    Preserves Consumes (statementLoop (n + 1)) := by
  intro s s' hs
  simp only [statementLoop, bind_ok] at hs
  obtain ⟨s1, h1, hs⟩ := hs
  split at hs
  · exact consumes_trans (ihS _ _ h1)
      (consumes_trans (consumes_match _ s1 (by decide)) (ihL _ _ hs))
  · simp only [pure_ok] at hs
    subst hs
    exact consumes_trans (ihS _ _ h1) (consumes_match _ s1 (by decide))

theorem statementList_consumes (n : Nat) (ihL : Preserves Consumes (statementLoop n)) :
    Preserves Consumes (statementList (n + 1)) := by
  intro s s' hs
  simp only [statementList] at hs
  split at hs
  · cases hs
    exact consumes_refl s
  · exact ihL _ _ hs

theorem statement_consumes (n : Nat) (ihE : Preserves Consumes (expression n))
    (ihR : Preserves Consumes (relation n)) (ihF : Preserves Consumes (forLoop n))
    (ihSL : Preserves Consumes (statementList n)) :
    Preserves Consumes (statement (n + 1)) := by
  intro s s' hs
  simp only [statement] at hs
  split at hs
  · simp only [bind_ok, pure_ok] at hs
    obtain ⟨x, hx, s1, h1, rfl⟩ := hs
    exact consumes_trans (consumes_lookup hx)
      (consumes_trans (consumes_mustBe T_ASSIGN _ (by decide))
        (consumes_trans (ihE _ _ h1) (consumes_emit _ _)))
  · split at hs
    · simp only [bind_ok] at hs
      obtain ⟨s1, h1, s2, h2, hs⟩ := hs
      have r2 : Consumes s s2 := consumes_trans (consumes_match T_IF s (by decide))
        (consumes_trans (ihR _ _ h1) (consumes_trans (consumes_reserve s1)
          (consumes_trans (consumes_mustBe T_THEN _ (by decide)) (ihSL _ _ h2))))
      split at hs
      · simp only [bind_ok, pure_ok] at hs
        obtain ⟨s3, h3, rfl⟩ := hs
        exact consumes_trans r2 (consumes_trans (consumes_match T_ELSE s2 (by decide))
          (consumes_trans (consumes_reserve _) (consumes_trans (consumes_emitAt _ _ _)
            (consumes_trans (ihSL _ _ h3)
              (consumes_trans (consumes_emitAt _ _ _)
                (consumes_mustBe T_FI _ (by decide)))))))
      · simp only [pure_ok] at hs
        subst hs
        exact consumes_trans r2 (consumes_trans (consumes_match T_ELSE s2 (by decide))
          (consumes_trans (consumes_emitAt _ _ _) (consumes_mustBe T_FI _ (by decide))))
    · split at hs
      · simp only [bind_ok, pure_ok] at hs
        obtain ⟨s1, h1, s2, h2, rfl⟩ := hs
        exact consumes_trans (consumes_match T_WHILE s (by decide))
          (consumes_trans (ihR _ _ h1) (consumes_trans (consumes_reserve s1)
            (consumes_trans (consumes_mustBe T_DO _ (by decide)) (consumes_trans (ihSL _ _ h2)
              (consumes_trans (consumes_mustBe T_OD _ (by decide))
                (consumes_trans (consumes_emit _ _) (consumes_emitAt _ _ _)))))))
      · split at hs
        · split at hs
          · simp only [pure_ok] at hs
            subst hs
            exact consumes_trans (consumes_match T_FOR s (by decide)) (consumes_report _ _)
          · simp only [bind_ok, pure_ok] at hs
            obtain ⟨x, hx, s1, h1, s2, h2, s3, h3, rfl⟩ := hs
            exact consumes_trans (consumes_match T_FOR s (by decide))
              (consumes_trans (consumes_lookup hx)
                (consumes_trans (consumes_mustBe T_ASSIGN _ (by decide))
                  (consumes_trans (ihE _ _ h1) (consumes_trans (ihF _ _ h2)
                    (consumes_trans (consumes_emit _ s2)
                      (consumes_trans (consumes_mustBe T_DO _ (by decide))
                        (consumes_trans (ihSL _ _ h3)
                          (consumes_trans (consumes_mustBe T_OD _ (by decide))
                            (consumes_trans (consumes_emit _ _)
                              (consumes_reserve _))))))))))
        · split at hs
          · simp only [bind_ok, pure_ok] at hs
            obtain ⟨s1, h1, rfl⟩ := hs
            exact consumes_trans (consumes_match T_WRITE s (by decide))
              (consumes_trans (consumes_mustBe T_LPAREN _ (by decide))
                (consumes_trans (ihE _ _ h1)
                  (consumes_trans (consumes_mustBe T_RPAREN _ (by decide))
                    (consumes_emit _ _))))
          · simp only [pure_ok] at hs
            subst hs
            exact consumes_report _ _

/-- Every procedure takes tokens off the front of the input and looks up identifiers
of the tokens it took, in their order, and all of them unless it reports. -/
theorem consumes_all (n : Nat) :
    Preserves Consumes (statementList n) ∧ Preserves Consumes (statementLoop n) ∧
    Preserves Consumes (statement n) ∧ Preserves Consumes (forLoop n) ∧
    Preserves Consumes (expression n) ∧ Preserves Consumes (expressionLoop n) ∧
    Preserves Consumes (term n) ∧ Preserves Consumes (termLoop n) ∧
    Preserves Consumes (factor n) ∧ Preserves Consumes (relation n) := by
  induction n with
  | zero =>
    refine ⟨?_, ?_, ?_, ?_, ?_, ?_, ?_, ?_, ?_, ?_⟩ <;> intro s s' hs
    · simp [statementList] at hs
    · simp [statementLoop] at hs
    · simp [statement] at hs
    · simp [forLoop] at hs
    · simp [expression] at hs
    · simp [expressionLoop] at hs
    · simp [term] at hs
    · simp [termLoop] at hs
    · simp [factor] at hs
    · simp [relation] at hs
  | succ n ih =>
    obtain ⟨iSL, iSLp, iS, iFL, iE, iEL, iT, iTL, iF, iR⟩ := ih
    exact ⟨statementList_consumes n iSLp, statementLoop_consumes n iS iSLp,
      statement_consumes n iE iR iFL iSL, forLoop_consumes n iE iFL,
      expression_consumes n iT iEL, expressionLoop_consumes n iT iEL,
      term_consumes n iF iTL, termLoop_consumes n iF iTL,
      factor_consumes n iE iF, relation_consumes n iE⟩

theorem program_consumes (n : Nat) : Preserves Consumes (program n) := by
  intro s s' hs
  obtain ⟨s1, h1, rfl⟩ := program_unfold n s s' hs
  exact consumes_trans (consumes_mustBe T_BEGIN _ (by decide))
    (consumes_trans ((consumes_all n).1 _ _ h1)
      (consumes_trans (consumes_mustBe T_END _ (by decide)) (consumes_emit _ _)))

theorem closed_binds : Closed Binds where
  refl := fun s => ⟨Extends.refl _, [], by simp, by simp⟩
  trans := fun {a b c} h1 h2 => by
    obtain ⟨e1, n1, l1, b1⟩ := h1
    obtain ⟨e2, n2, l2, b2⟩ := h2
    refine ⟨e1.trans e2, n1 ++ n2, by rw [l2, l1, List.append_assoc], ?_⟩
    intro p hp
    rcases List.mem_append.1 hp with hp | hp
    · exact e2 _ _ (b1 p hp)
    · exact b2 p hp
  next := fun s => ⟨by rw [next_vars]; exact Extends.refl _, [], by simp, by simp⟩
  mustBe := fun t s => ⟨by rw [mustBe_vars]; exact Extends.refl _, [], by simp, by simp⟩
  report := fun _ _ => ⟨Extends.refl _, [], by simp [reportError], by simp⟩
  lookup := fun x s => ⟨findOrAddVariable_extends x s, [(x, (findOrAddVariable x s).1)],
    findOrAddVariable_lookups x s, by
      intro p hp
      simp only [List.mem_singleton] at hp
      subst hp
      exact findOrAddVariable_findVar x s⟩
  emit := fun _ _ _ _ => ⟨Extends.refl _, [], by simp [emit], by simp⟩
  reserve := fun _ => ⟨Extends.refl _, [], by simp [reserve], by simp⟩
  patchNo := fun _ _ => ⟨Extends.refl _, [], by simp [emitAt], by simp⟩
  patch := fun _ _ => ⟨Extends.refl _, [], by simp [emitAt], by simp⟩
  jumpBack := fun _ _ h => by
    obtain ⟨e1, n1, l1, b1⟩ := h
    exact ⟨e1, n1, l1, b1⟩

theorem mem_foldl_firstSeen (x : String) : ∀ (l acc : List String),
    x ∈ l.foldl (fun acc y => if y ∈ acc then acc else acc ++ [y]) acc → x ∈ acc ∨ x ∈ l
  | [], acc, h => Or.inl h
  | y :: l, acc, h => by
    simp only [List.foldl_cons] at h
    rcases mem_foldl_firstSeen x l _ h with h1 | h1
    · split at h1
      · exact Or.inl h1
      · rcases List.mem_append.1 h1 with h2 | h2
        · exact Or.inl h2
        · simp only [List.mem_singleton] at h2
          exact Or.inr (by simp [h2])
    · exact Or.inr (List.mem_cons_of_mem _ h1)

theorem mem_of_mem_firstSeen {x : String} {l : List String} (h : x ∈ firstSeen l) : x ∈ l := by
  rcases mem_foldl_firstSeen x l [] h with h1 | h1
  · cases h1
  · exact h1

/-- What `parse` leaves is what `program` leaves, up to the flush. -/
theorem parse_program (input : List Lexeme) (s : PState) (h : parse input = .ok s) :
    ∃ sp, program (budget input) (PState.init input) = .ok sp ∧ s.toks = sp.toks ∧
      s.vars = sp.vars ∧ s.lastVar = sp.lastVar ∧ s.lookups = sp.lookups ∧
      s.code = sp.code ∧ s.diags = sp.diags ∧ s.error = sp.error := by
  simp only [parse, bind_ok] at h
  obtain ⟨sp, hp, h⟩ := h
  refine ⟨sp, hp, ?_⟩
  split at h
  · simp only [pure_ok] at h
    subst h
    exact ⟨rfl, rfl, rfl, rfl, rfl, rfl, rfl⟩
  · simp only [pure_ok] at h
    subst h
    exact ⟨rfl, rfl, rfl, rfl, rfl, rfl, rfl⟩

/-- C3, amended: after `parse` the input is the tokens taken off it followed by the
tokens left unread; the names passed to `findOrAddVariable` are, in order, identifiers
of the tokens taken off, and they are all of them, each occurrence once, when the
error flag is clear; so when the flag is clear and no identifier is left unread the
names of the table are the identifiers of the input in the order of their first
textual occurrence, and in every case each name of the table occurs in the input.
The table holds exactly the names looked up, each once, with addresses `0, 1, 2, ...`
in the order of their first lookup; every lookup returned the address the final table
holds for its name; every `LOAD` and `STORE` in the buffer carries an address returned
by a lookup; and the `LOAD` of a factor, the `STORE` of an assignment and the `STORE`
of a `for` carry the address returned by the lookup of their own identifier. -/
theorem c3_looked_up_identifiers_addressed_in_order (input : List Lexeme) (s : PState)
    (h : parse input = .ok s) :
    (∃ consumed, input = consumed ++ s.toks ∧
      (s.lookups.map Prod.fst).Sublist (idents consumed) ∧
      (s.error = false → s.lookups.map Prod.fst = idents consumed) ∧
      (s.error = false → idents s.toks = [] →
        s.vars.map Prod.fst = firstSeen (idents input))) ∧
    (∀ x, x ∈ s.vars.map Prod.fst → Lexeme.identifier x ∈ input) ∧
    s.vars.map Prod.fst = firstSeen (s.lookups.map Prod.fst) ∧
    (s.vars.map Prod.fst).Nodup ∧
    s.vars.map Prod.snd = List.range s.vars.length ∧
    (∀ x a, (x, a) ∈ s.lookups → findVar x s.vars = some a) ∧
    (∀ a, (Instr.LOAD a ∈ s.code ∨ Instr.STORE a ∈ s.code) →
      ∃ x, (x, a) ∈ s.lookups ∧ findVar x s.vars = some a) ∧
    (∀ n s0 x, token s0 = .identifier x →
      factor (n + 1) s0 =
        .ok (emit (.LOAD (findOrAddVariable x s0).1) (next (findOrAddVariable x s0).2))) ∧
    (∀ n s0 s1 x, token s0 = .identifier x →
      expression n (mustBe T_ASSIGN (next (findOrAddVariable x s0).2)) = .ok s1 →
      statement (n + 1) s0 = .ok (emit (.STORE (findOrAddVariable x s0).1) s1)) ∧
    (∀ n s0 s1 s2 s3 x, token s0 = .kwFor → token (next s0) = .identifier x →
      expression n (mustBe T_ASSIGN (next (findOrAddVariable x (next s0)).2)) = .ok s1 →
      forLoop n s1 = .ok s2 →
      statementList n (mustBe T_DO (emit (.STORE (findOrAddVariable x (next s0)).1) s2)) =
        .ok s3 →
      statement (n + 1) s0 =
        .ok (reserve (emit (.JUMP (getCurrentAddress s2)) (mustBe T_OD s3))).2) ∧
    (∀ x s0, (x, (findOrAddVariable x s0).1) ∈ (findOrAddVariable x s0).2.lookups) ∧
    (∀ f ∈ procedures, ∀ n s0 s1, f n s0 = .ok s1 → ∀ p ∈ s0.lookups, p ∈ s1.lookups) := by
  obtain ⟨sp, hp, e0, e1, e2, e3, e4, e5, e6⟩ := parse_program input s h
  have hinit : VarInv (PState.init input) := by
    refine ⟨rfl, List.nodup_nil, rfl, ?_⟩
    intro x a hx
    simp [PState.init] at hx
  have hv : VarInv sp := program_closed closed_varInv _ _ _ hp hinit
  have hl : LoadStoreLooked sp :=
    (program_closedVar closed_loadStore _ _ _ hp).2 (by
      intro a ha
      simp [PState.init] at ha)
  have hde : sp.diags ≠ [] → sp.error = true :=
    program_closed closed_diag_error _ _ _ hp (fun h => absurd rfl h)
  obtain ⟨-, c, L, t1, k1, u1, q1⟩ := program_consumes _ _ _ hp
  have t2 : input = c ++ sp.toks := t1
  have k2 : sp.lookups.map Prod.fst = L := by simpa [PState.init] using k1
  have q2 : sp.error = false → L = idents c := by
    intro he
    apply q1
    have : sp.diags = [] := by
      by_contra hne
      rw [hde hne] at he
      cases he
    simp [this, PState.init]
  obtain ⟨v1, v2, v3, v4⟩ := hv
  have hlen : sp.vars.length = sp.lastVar := by
    have := congrArg List.length v3
    simpa using this
  rw [e0, e1, e3, e4, e6]
  refine ⟨⟨c, t2, by rw [k2]; exact u1, fun he => by rw [k2]; exact q2 he, ?_⟩, ?_, v1, v2,
    by rw [hlen]; exact v3, v4, ?_, ?_, ?_, ?_, ?_, ?_⟩
  · intro he hr
    rw [v1, k2, q2 he, t2, idents_append, hr, List.append_nil]
  · intro x hx
    rw [v1, k2] at hx
    have h1 : x ∈ idents c := u1.subset (mem_of_mem_firstSeen hx)
    rw [t2]
    exact List.mem_append_left _ (mem_idents.1 h1)
  · intro a ha
    obtain ⟨x, hx⟩ := hl a ha
    exact ⟨x, hx, v4 x a hx⟩
  · intro n s0 x hx
    have h1 : see T_NUMBER s0 = false := by simp [see, hx, Lexeme.tag]
    have h2 : see T_IDENTIFIER s0 = true := by simp [see, hx, Lexeme.tag]
    have h3 : getStringValue s0 = .ok x := by simp [getStringValue, hx]
    simp [factor, h1, h2, h3, ok_bind, pure_eq_ok]
  · intro n s0 s1 x hx he
    have h2 : see T_IDENTIFIER s0 = true := by simp [see, hx, Lexeme.tag]
    have h3 : getStringValue s0 = .ok x := by simp [getStringValue, hx]
    simp [statement, h2, h3, ok_bind, he, pure_eq_ok]
  · intro n s0 s1 s2 s3 x hf hx he hfl hsl
    have h1 : see T_IDENTIFIER s0 = false := by simp [see, hf, Lexeme.tag]
    have h2 : see T_IF s0 = false := by simp [see, hf, Lexeme.tag]
    have h3 : see T_WHILE s0 = false := by simp [see, hf, Lexeme.tag]
    have h4 : see T_FOR s0 = true := by simp [see, hf, Lexeme.tag]
    have h5 : see T_IDENTIFIER (next s0) = true := by simp [see, hx, Lexeme.tag]
    have h6 : getStringValue (next s0) = .ok x := by simp [getStringValue, hx]
    simp [statement, match_, h1, h2, h3, h4, h5, h6, ok_bind, he, hfl, hsl, pure_eq_ok]
  · intro x s0
    rw [findOrAddVariable_lookups]
    simp
  · intro f hf n s0 s1 hr
    exact procedures_closed closed_lookups f hf n s0 s1 hr

/-- Witness for C3: on the input with skipped identifiers the names looked up are a
part of the identifiers of the text, on the `while` program, translated without
error, they are all of them, and on `for x := y do od` the identifier `x`, first in
the text, has address 0. -/
theorem c3_looked_up_identifiers_addressed_in_order_witness :
    (skippedIdentFinal.vars.map Prod.fst = ["a", "c", "b", "d"] ∧
      idents skippedIdentProgram = ["a", "b", "c", "b", "d", "e"] ∧
      skippedIdentFinal.vars.map Prod.snd = List.range 4 ∧
      ∀ a, (Instr.LOAD a ∈ skippedIdentFinal.code ∨ Instr.STORE a ∈ skippedIdentFinal.code) →
        ∃ x, (x, a) ∈ skippedIdentFinal.lookups ∧
          findVar x skippedIdentFinal.vars = some a) ∧
    whileFinal.vars.map Prod.fst = firstSeen (idents whileProgram) ∧
    (∃ s, parse forTwoNames = .ok s ∧ s.vars = [("x", 0), ("y", 1)] ∧
      s.vars.map Prod.fst = firstSeen (idents forTwoNames)) := by
  have h1 := c3_looked_up_identifiers_addressed_in_order skippedIdentProgram
    skippedIdentFinal rfl
  have h2 := c3_looked_up_identifiers_addressed_in_order whileProgram whileFinal rfl
  obtain ⟨s, hs⟩ := parse_total forTwoNames
  have h3 := c3_looked_up_identifiers_addressed_in_order forTwoNames s hs
  have e3 : parse forTwoNames = .ok
      { toks := [.eof], vars := [("x", 0), ("y", 1)], lastVar := 2, error := false,
        code := [.LOAD 1, .STORE 0, .JUMP 1, .NOP, .STOP], reserved := [3], patched := [],
        diags := [],
        flushed := [[.LOAD 1, .STORE 0, .JUMP 1, .NOP, .STOP]],
        lookups := [("x", 0), ("y", 1)] } := rfl
  rw [e3] at hs
  cases hs
  obtain ⟨c, -, -, -, hc⟩ := h2.1
  obtain ⟨c3, -, -, -, hc3⟩ := h3.1
  exact ⟨⟨rfl, rfl, h1.2.2.2.2.1, h1.2.2.2.2.2.2.1⟩, hc rfl rfl, _, e3, rfl, hc3 rfl rfl⟩

/-! ## Postfix code of expressions, with the addresses of its identifiers -/

/-- C7: on the tokens of an expression `e` (followed by a token that is no arithmetic
operator) `expression` consumes exactly those tokens, reports nothing, and appends
the postfix code of `e`: the code of the first term, then for each further term its
code followed by `ADD` or `SUB`; within a term the code of the first factor, then for
each further factor its code followed by `MULT` or `DIV`; `PUSH n` for a number,
`LOAD addr(x)` for an identifier, `INPUT` for `read`, the code of `f` followed by
`INVERT` for `-f`.  Here `addr(x)` is the address that the variable table holds for
`x` when `expression` returns, and the table does hold one for every identifier of
`e`: the identifiers of `e` are looked up one by one in textual order, each lookup
returns the address of the table, a name bound before keeps its address, and the
code stays the same under every later extension of the table. -/
theorem c7_expression_emits_postfix (e : Expr) (s : PState) (rest : List Lexeme) (n : Nat)
    (ht : s.toks = e.toks ++ rest) (ha : NoAdd rest) (hm : NoMul rest)
    (hn : 10 * s.toks.length + 5 ≤ n) :
    ∃ s', expression n s = .ok s' ∧ s'.toks = rest ∧ s'.error = s.error ∧
      s'.diags = s.diags ∧ s'.code = s.code ++ e.code (addrOf s'.vars) ∧
      (∀ v, Extends s'.vars v → s'.code = s.code ++ e.code (addrOf v)) ∧
      Extends s.vars s'.vars ∧
      s'.lookups.map Prod.fst = s.lookups.map Prod.fst ++ idents e.toks ∧
      (∀ x, Lexeme.identifier x ∈ e.toks →
        ∃ a, findVar x s'.vars = some a ∧ addrOf s'.vars x = a ∧ (x, a) ∈ s'.lookups) ∧
      (∀ x a, findVar x s.vars = some a → addrOf s'.vars x = a) := by
  obtain ⟨s', h, h1, h2, h3, h4, h5⟩ := expression_complete e s rest n ht ha hm hn
  obtain ⟨-, c, L, t1, k1, -, q1⟩ := (consumes_all n).2.2.2.2.1 s s' h
  obtain ⟨-, nl, l1, b1⟩ := (closed_all closed_binds n).2.2.2.2.1 s s' h
  have hc : c = e.toks := by
    rw [h1, ht] at t1
    exact (List.append_cancel_right t1).symm
  have hL : L = idents e.toks := by
    rw [← hc]
    exact q1 (by rw [h3])
  have hn1 : nl.map Prod.fst = idents e.toks := by
    rw [l1, List.map_append] at k1
    rw [← hL]
    exact List.append_cancel_left k1
  refine ⟨s', h, h1, h2, h3, h5 _ (Extends.refl _), h5, h4, by rw [k1, hL], ?_, ?_⟩
  · intro x hx
    have hx1 : x ∈ nl.map Prod.fst := by
      rw [hn1]
      exact mem_idents.2 hx
    obtain ⟨p, hp, rfl⟩ := List.mem_map.1 hx1
    refine ⟨p.2, b1 p hp, by simp [addrOf, b1 p hp], ?_⟩
    rw [l1]
    exact List.mem_append_right _ hp
  · intro x a hx
    simp [addrOf, h4 x a hx]

/-- Witness for C7: `2 + 3 * 4` yields `PUSH 2, PUSH 3, PUSH 4, MULT, ADD`, and
`a - b * a`, entered with an empty table, yields `LOAD 0, LOAD 1, LOAD 0, MULT, SUB`
with `a` at address 0 and `b` at address 1. -/
theorem c7_expression_emits_postfix_witness :
    (∃ s', expression 65 exprEntry = .ok s' ∧
      s'.toks = [.eof] ∧ s'.code = [.PUSH 2, .PUSH 3, .PUSH 4, .MULT, .ADD]) ∧
    (∃ s', expression 65 identEntry = .ok s' ∧ s'.vars = [("a", 0), ("b", 1)] ∧
      s'.code = [.LOAD 0, .LOAD 1, .LOAD 0, .MULT, .SUB] ∧
      findVar "b" s'.vars = some 1 ∧ addrOf s'.vars "b" = 1) := by
  constructor
  · obtain ⟨s', h, h1, -, -, h4, -⟩ := c7_expression_emits_postfix twoPlusThreeTimesFour
      exprEntry [Lexeme.eof] 65 rfl
      (by simp [NoAdd, Lexeme.tag]) (by simp [NoMul, Lexeme.tag]) (by decide)
    exact ⟨s', h, h1, by rw [h4]; rfl⟩
  · obtain ⟨s', h, -, -, -, h4, -, -, -, h8, -⟩ := c7_expression_emits_postfix aMinusBTimesA
      identEntry [Lexeme.eof] 65 rfl
      (by simp [NoAdd, Lexeme.tag]) (by simp [NoMul, Lexeme.tag]) (by decide)
    have hs : expression 65 identEntry = .ok
        { identEntry with toks := [Lexeme.eof], vars := [("a", 0), ("b", 1)], lastVar := 2,
                          code := [.LOAD 0, .LOAD 1, .LOAD 0, .MULT, .SUB],
                          lookups := [("a", 0), ("b", 1), ("a", 0)] } := rfl
    rw [hs] at h
    cases h
    obtain ⟨a, ha, hb, -⟩ := h8 "b" (by decide)
    have ea : a = 1 := by
      have : findVar "b" [("a", 0), ("b", 1)] = some 1 := rfl
      rw [this] at ha
      exact (Option.some.inj ha).symm
    subst ea
    exact ⟨_, hs, rfl, rfl, ha, hb⟩

/-! ## Recovery after a mismatch and the input that follows it -/

theorem mustBe_toks_at_eof {t : Token} {s : PState} {rest : List Lexeme}
    (h : see t s = false) (hk : skipTo t s.toks = rest)
    (hr : (rest.headD Lexeme.eof).tag = T_EOF) : (mustBe t s).toks = rest := by
  have hn : (next { s with toks := rest }).toks = rest := by
    have : see T_EOF { s with toks := rest } = true := by
      simp only [see, token]
      simpa using hr
    rw [next_of_eof this]
  rw [mustBe_toks_of_not_see h, hk]
  split
  · exact hn
  · rfl

/-- C5: `parse` returns on every input, having run `program` to its end: the list of
statements returned, `mustBe(T_END)` was called and `STOP` was emitted last.  If a
mismatch diagnostic of `mustBe` is among the diagnostics at the end, the error flag is
set and `flush` was not called.  A `mustBe(t)` call that does not see its token sets
the flag and reports the mismatch, and flag and diagnostics survive every procedure.
Its recovery discards the tokens before the first token `t`, consumes that token and
leaves the input right after it; when end-of-input comes first it leaves the input
there; nothing is emitted for what it discards.  Parsing then goes on with what is
left, with the flag set: every procedure returns on every session once its budget
covers the input, and a well-formed statement list that follows the recovery point is
consumed completely and translated to its reference code.  On
`begin if 1 = 1 write(1) fi end` the run ends after `STOP` with four diagnostics, the
flag set and nothing flushed. -/
theorem c5_mismatch_recovers_and_fails (input : List Lexeme) :
    ∃ s, parse input = .ok s ∧
      ((∃ found expected, Diag.mismatch found expected ∈ s.diags) →
        s.error = true ∧ s.flushed = []) ∧
      (∀ t s0, see t s0 = false →
        (mustBe t s0).error = true ∧
        Diag.mismatch (token s0).tag t ∈ (mustBe t s0).diags) ∧
      (∀ f ∈ procedures, ∀ n s0 s1, f n s0 = .ok s1 →
        (s0.error = true → s1.error = true) ∧ ∀ d ∈ s0.diags, d ∈ s1.diags) ∧
      parse missingThenProgram = .ok missingThenFinal ∧
      (∃ s1, statementList (budget input) (mustBe T_BEGIN (PState.init input)) = .ok s1 ∧
        s.toks = (mustBe T_END s1).toks ∧ s.code = s1.code ++ [.STOP]) ∧
      (∀ t s0 pre l post, see t s0 = false → t ≠ T_EOF → s0.toks = pre ++ l :: post →
        l.tag = t → (∀ p ∈ pre, p.tag ≠ t ∧ p.tag ≠ T_EOF) →
        (mustBe t s0).toks = post ∧ (mustBe t s0).code = s0.code ∧
          (mustBe t s0).vars = s0.vars) ∧
      (∀ t s0 pre rest, see t s0 = false → s0.toks = pre ++ rest →
        (∀ p ∈ pre, p.tag ≠ t ∧ p.tag ≠ T_EOF) → (rest.headD Lexeme.eof).tag = T_EOF →
        (mustBe t s0).toks = rest ∧ (mustBe t s0).code = s0.code ∧
          (mustBe t s0).vars = s0.vars) ∧
      (∀ n s0, 10 * s0.toks.length + 9 ≤ n →
        (∃ s1, statementList n s0 = .ok s1) ∧ (∃ s1, statement n s0 = .ok s1) ∧
        (∃ s1, relation n s0 = .ok s1) ∧ (∃ s1, expression n s0 = .ok s1)) ∧
      (∀ t s0 pre l (body : StmtList) rest n, see t s0 = false → t ≠ T_EOF →
        s0.toks = pre ++ l :: (body.toks ++ rest) → l.tag = t →
        (∀ p ∈ pre, p.tag ≠ t ∧ p.tag ≠ T_EOF) → Closer rest →
        10 * (body.toks ++ rest).length + 9 ≤ n →
        ∃ s1, statementList n (mustBe t s0) = .ok s1 ∧ s1.toks = rest ∧
          s1.code = s0.code ++ body.code (addrOf s1.vars) s0.code.length ∧
          s1.error = true ∧ s1.diags = s0.diags ++ [.mismatch (token s0).tag t]) := by
  obtain ⟨sp, s, hp, hs, hf, hd, h1, h2⟩ := parse_outcome input
  have hfound : ∀ t s0 pre l post, t ≠ T_EOF → s0.toks = pre ++ l :: post →
      l.tag = t → (∀ p ∈ pre, p.tag ≠ t ∧ p.tag ≠ T_EOF) → (mustBe t s0).toks = post := by
    intro t s0 pre l post ht hs0 hl hpre
    have hk : skipTo t s0.toks = l :: post := by
      rw [hs0]
      exact skipTo_found t pre l post (Or.inl hl) hpre
    exact mustBe_toks_of_skipTo hk hl ht
  refine ⟨s, hs, ?_, ?_, ?_, rfl, ?_, ?_, ?_, ?_, ?_⟩
  · rintro ⟨found, expected, hm⟩
    rcases Bool.eq_false_or_eq_true sp.error with he | he
    · have := h2 he
      subst this
      exact ⟨he, hf⟩
    · have := h1 he
      subst this
      have hne : sp.diags ≠ [] := by
        intro h0
        simp [flush, h0] at hm
      rw [hd hne] at he
      cases he
  · intro t s0 h
    refine ⟨(mustBe_error_of_not_see h).1, ?_⟩
    rw [(mustBe_error_of_not_see h).2]
    simp
  · intro f hf n s0 s1 h
    exact ⟨procedures_closed closed_error f hf n s0 s1 h,
      procedures_closed closed_diags f hf n s0 s1 h⟩
  · obtain ⟨sq, hq, e0, -, -, -, e4, -, -⟩ := parse_program input s hs
    obtain ⟨s1, hs1, rfl⟩ := program_unfold _ _ _ hq
    exact ⟨s1, hs1, e0, by rw [e4]; simp [emit]⟩
  · intro t s0 pre l post _ ht hs0 hl hpre
    exact ⟨hfound t s0 pre l post ht hs0 hl hpre, mustBe_code t s0, mustBe_vars t s0⟩
  · intro t s0 pre rest h hs0 hpre hr
    have hk : skipTo t s0.toks = rest := by
      rw [hs0]
      cases rest with
      | nil => simpa using skipTo_exhausted t pre hpre
      | cons e r => exact skipTo_found t pre e r (Or.inr (by simpa using hr)) hpre
    exact ⟨mustBe_toks_at_eof h hk hr, mustBe_code t s0, mustBe_vars t s0⟩
  · intro n s0 hn
    have ha := total_all n
    exact ⟨ha.1 s0 hn, ha.2.2.1 s0 (by omega), ha.2.2.2.2.2.2.2.2.2 s0 (by omega),
      ha.2.2.2.2.1 s0 (by omega)⟩
  · intro t s0 pre l body rest n h ht hs0 hl hpre hc hn
    have htk := hfound t s0 pre l (body.toks ++ rest) ht hs0 hl hpre
    obtain ⟨s1, r1, e1, e2, e3, -, e5⟩ :=
      statementList_complete body (mustBe t s0) rest n htk hc (by rw [htk]; exact hn)
    refine ⟨s1, r1, e1, ?_, ?_, ?_⟩
    · have := e5 _ (Extends.refl _)
      simpa using this
    · rw [e2]
      exact (mustBe_error_of_not_see h).1
    · rw [e3]
      exact (mustBe_error_of_not_see h).2

/-- Witness for C5: on the input with the missing `then` a mismatch diagnostic is
present at the end, so the flag is set and nothing is flushed; `mustBe(T_THEN)` is
called at `write`, finds no `then` and leaves the input at end-of-input, so nothing
of `write(1) fi end` is translated.  On the input where `then` comes after
`write ( 1 )`, recovery stops right after `then` and the `write ( 2 )` that follows
is translated. -/
theorem c5_mismatch_recovers_and_fails_witness :
    (Diag.mismatch T_WRITE T_THEN ∈ missingThenFinal.diags ∧
      missingThenFinal.error = true ∧ missingThenFinal.flushed = [] ∧
      missingThenFinal.code = [.PUSH 1, .PUSH 1, .COMPARE 0, .JUMP_NO 4, .STOP]) ∧
    (∃ r, relation 100 (match_ T_IF (mustBe T_BEGIN (PState.init missingThenProgram))).2 =
        .ok r ∧ (reserve r).2 = missingThenAtThen) ∧
    (mustBe T_THEN missingThenAtThen).toks = [Lexeme.eof] ∧
    (∃ r, relation 100 (match_ T_IF (mustBe T_BEGIN (PState.init lateThenProgram))).2 =
        .ok r ∧ (reserve r).2 = lateThenAtThen) ∧
    (∃ s1, statementList 200 (mustBe T_THEN lateThenAtThen) = .ok s1 ∧
      s1.toks = [Lexeme.kwFi, Lexeme.kwEnd, Lexeme.eof] ∧
      s1.code = [.PUSH 1, .PUSH 1, .COMPARE 0, .NOP, .PUSH 2, .PRINT] ∧ s1.error = true) ∧
    parse lateThenProgram = .ok lateThenFinal := by
  obtain ⟨s, hs, h1, -, -, e, -, -, hB, -, hD⟩ :=
    c5_mismatch_recovers_and_fails missingThenProgram
  rw [e] at hs
  cases hs
  have hm : Diag.mismatch T_WRITE T_THEN ∈ missingThenFinal.diags := by decide
  have b1 := (hB T_THEN missingThenAtThen
    [Lexeme.kwWrite, Lexeme.lparen, Lexeme.number 1, Lexeme.rparen, Lexeme.kwFi, Lexeme.kwEnd]
    [Lexeme.eof] rfl rfl (by decide) rfl).1
  obtain ⟨s1, r1, t1, c1, e1, -⟩ := hD T_THEN lateThenAtThen
    [Lexeme.kwWrite, Lexeme.lparen, Lexeme.number 1, Lexeme.rparen] Lexeme.kwThen writeTwo
    [Lexeme.kwFi, Lexeme.kwEnd, Lexeme.eof] 200 rfl (by decide) rfl rfl (by decide)
    (by simp [Closer, Lexeme.tag]) (by decide)
  exact ⟨⟨hm, (h1 ⟨_, _, hm⟩).1, (h1 ⟨_, _, hm⟩).2, rfl⟩, ⟨_, rfl, rfl⟩, b1, ⟨_, rfl, rfl⟩,
    ⟨s1, r1, t1, by rw [c1]; rfl, e1⟩, rfl⟩

end Milan
